import Mathlib

/-!
# go-dbc: a verification development

A shallow embedding of the `dbc` package (`header.go`, `read.go`, `write.go`,
`helpers.go`, `marshal.go`) together with theorems about its behaviour.

Modelling conventions

* A byte is a `Fin 256`; a byte buffer (`[]byte`) and a Go `string` value are
  `List Byte`.  Buffers have capacity equal to their length, as the buffers
  built by `make` in `ReadDBC` and `MarshalRecords` do.
* `uint32` values are natural numbers; every place where the Go code computes in
  `uint32` carries an explicit `% 2 ^ 32`.
* `int` is the 64-bit Go `int`.  The arithmetic on column indices, which come
  from the tags and can be any `int`, wraps around as in Go (`wrapInt64`): the
  field count, the record size and the offset of a column in `MarshalRecords`.
  The length of a buffer and an offset into it are exact: a buffer is a list,
  the model does not bound the memory, and for a buffer that fits in memory
  they are below `2 ^ 63`, where Go does not wrap either.  So
  `UnmarshalRecords` multiplies the record index and the record size exactly,
  and so does `MarshalRecords` when the record size it has computed is not
  negative.  When that record size is negative, the length of the record block
  is not the product any more, and the model wraps these values too
  (`blockInt`).
* An `io.Reader` is the finite list of bytes it will deliver, an `io.Writer` a
  sink that accepts every write; allocation of a length that is not negative
  always succeeds (the limits of the memory and of the allocator are not
  modelled).
* A run-time panic of the Go code is the error `DbcError.panic`.
* The struct type handed to `UnmarshalRecords` and `MarshalRecords` by reflection
  is a `Schema`: for each field its name, its kind and its `dbc` tag.  Fields
  are exported; a signed integer field is an `int32`, an unsigned one a
  `uint32`, a float field a `float32`, represented by its bit pattern.  The model
  lets the value of an integer field be any integer and reduces it as the
  conversions `int32(...)` and `uint32(...)` of the code do, so only the text
  that `reflect.Value.String` returns for a field that is not a string
  (`valueString`) depends on the width.  A struct value is a `Record`, the
  list of its field values.  Tags are valid UTF-8.
* A conversion between `float32` and `float64` keeps the value and turns a
  signalling NaN into the quiet NaN with the same payload, as the conversion
  instructions of amd64 and arm64 do (`float32ViaFloat64`).
* `UnmarshalRecordsTraced` returns, next to the result of `UnmarshalRecords`, the
  windows of the record block that were read.
-/

namespace Dbc

set_option maxRecDepth 4096

/-! ## Bytes and little-endian words -/

abbrev Byte := Fin 256

/-- The four bytes of `binary.LittleEndian.PutUint32`, applied to `uint32(v)`. -/
def putUint32 (v : Nat) : List Byte :=
  [Fin.ofNat (v % 256), Fin.ofNat (v / 256 % 256),
   Fin.ofNat (v / 65536 % 256), Fin.ofNat (v / 16777216 % 256)]

/-- The value of `binary.LittleEndian.Uint32` on the first four bytes of `b`
(absent bytes read as zero; callers only pass windows of four bytes). -/
def getUint32 (b : List Byte) : Nat :=
  (b.getD 0 0).val + 256 * (b.getD 1 0).val + 65536 * (b.getD 2 0).val
    + 16777216 * (b.getD 3 0).val

/-- The slice expression `b[lo:hi]` for `lo ≤ hi ≤ len(b)`. -/
def slice (b : List Byte) (lo hi : Nat) : List Byte :=
  (b.drop lo).take (hi - lo)

/-! ## header.go -/

/-- The constant `MagicWDBC`, the ASCII letters "WDBC" read little-endian. -/
def MagicWDBC : Nat := 0x43424457

/-- The struct `Header`: five `uint32` fields. -/
structure Header where
  Magic : Nat
  RecordCount : Nat
  FieldCount : Nat
  RecordSize : Nat
  StringBlockSize : Nat
deriving DecidableEq, Repr

/-- The struct `File`: header, raw record block and string block. -/
structure File where
  Header : Header
  RawRecords : List Byte
  StringBlock : List Byte
deriving DecidableEq, Repr

/-- All five header fields are `uint32` values. -/
def Header.IsUint32 (h : Header) : Prop :=
  h.Magic < 2 ^ 32 ∧ h.RecordCount < 2 ^ 32 ∧ h.FieldCount < 2 ^ 32 ∧
    h.RecordSize < 2 ^ 32 ∧ h.StringBlockSize < 2 ^ 32

instance (h : Header) : Decidable h.IsUint32 := by
  unfold Header.IsUint32; infer_instance

/-! ## Errors -/

/-- The errors returned by the package, one constructor per `fmt.Errorf` site,
carrying the values formatted into the message. -/
inductive DbcError where
  /-- "read header error" (`ReadDBC`). -/
  | readHeader
  /-- "not a WDBC file or bad magic" (`ReadDBC`). -/
  | badMagic (magic : Nat)
  /-- "failed to read records" (`ReadDBC`). -/
  | readRecords
  /-- "failed to read string block" (`ReadDBC`). -/
  | readStringBlock
  /-- "field %s has invalid column index %d" (`UnmarshalRecords`). -/
  | invalidColumn (field : String) (column : Int)
  /-- "record %d, field %s out of bounds in DBC data" (`UnmarshalRecords`). -/
  | outOfBounds (record : Nat) (field : String)
  /-- "float64 columns not supported by default 4-byte DBC columns". -/
  | float64Unsupported
  /-- "locstring at field %s: not enough columns for mask" (`UnmarshalRecords`). -/
  | locstringNoMask (field : String)
  /-- "locstring mask is not zero (mask=%d), field=%s" (`UnmarshalRecords`). -/
  | maskNotZero (mask : Nat) (field : String)
  /-- "unsupported column type %q in field %s" (`UnmarshalRecords`). -/
  | unsupportedType (colType : List Char) (field : String)
  /-- "empty slice" (`MarshalRecords`). -/
  | emptySlice
  /-- "locstring field not enough space for mask" (`MarshalRecords`). -/
  | marshalNoMask
  /-- "unsupported marshal type %q in field %s" (`MarshalRecords`). -/
  | unsupportedMarshalType (colType : List Char) (field : String)
  /-- A run-time panic (slice bounds, reflection on a field of the wrong kind). -/
  | panic
deriving DecidableEq, Repr

instance instDecidableEqExcept {ε α : Type} [DecidableEq ε] [DecidableEq α] :
    DecidableEq (Except ε α)
  | .ok a, .ok b =>
    if h : a = b then isTrue (by rw [h]) else isFalse (by intro h2; cases h2; exact h rfl)
  | .error a, .error b =>
    if h : a = b then isTrue (by rw [h]) else isFalse (by intro h2; cases h2; exact h rfl)
  | .ok _, .error _ => isFalse (by intro h; cases h)
  | .error _, .ok _ => isFalse (by intro h; cases h)

/-! ## write.go -/

/-- The bytes `binary.Write(w, binary.LittleEndian, f.Header)` sends to the sink. -/
def writeHeader (h : Header) : List Byte :=
  putUint32 h.Magic ++ putUint32 h.RecordCount ++ putUint32 h.FieldCount ++
    putUint32 h.RecordSize ++ putUint32 h.StringBlockSize

/-- The function `WriteDBC` on a sink that accepts every write: the bytes
written, in order. -/
def WriteDBC (f : File) : List Byte :=
  writeHeader f.Header ++ f.RawRecords ++ f.StringBlock

/-! ## read.go -/

/-- The call `io.ReadFull(r, buf)` with `len(buf) = n` on the remaining stream
`r`: the filled buffer and the rest of the stream, or `none` when fewer than `n`
bytes remain. -/
def readFull (r : List Byte) (n : Nat) : Option (List Byte × List Byte) :=
  if n ≤ r.length then some (r.take n, r.drop n) else none

/-- The function `ReadDBC` on the stream `r`. -/
def ReadDBC (r : List Byte) : Except DbcError File :=
  match readFull r 20 with
  | none => .error .readHeader
  | some (hb, r1) =>
    let hdr : Header :=
      { Magic := getUint32 (slice hb 0 4)
        RecordCount := getUint32 (slice hb 4 8)
        FieldCount := getUint32 (slice hb 8 12)
        RecordSize := getUint32 (slice hb 12 16)
        StringBlockSize := getUint32 (slice hb 16 20) }
    if hdr.Magic ≠ MagicWDBC then .error (.badMagic hdr.Magic)
    else
      let recordsSize := (hdr.RecordCount * hdr.RecordSize) % 2 ^ 32
      match readFull r1 recordsSize with
      | none => .error .readRecords
      | some (rawRecords, r2) =>
        match readFull r2 hdr.StringBlockSize with
        | none => .error .readStringBlock
        | some (stringBlock, _) =>
          .ok { Header := hdr, RawRecords := rawRecords, StringBlock := stringBlock }

/-! ## helpers.go -/

/-- White space as `strings.TrimSpace` sees it (`unicode.IsSpace`). -/
def isSpace (c : Char) : Bool :=
  let n := c.toNat
  (9 ≤ n && n ≤ 13) || n = 0x20 || n = 0x85 || n = 0xA0 || n = 0x1680 ||
    (0x2000 ≤ n && n ≤ 0x200A) || n = 0x2028 || n = 0x2029 || n = 0x202F ||
    n = 0x205F || n = 0x3000

/-- The function `strings.TrimSpace`. -/
def trimSpace (s : List Char) : List Char :=
  ((s.dropWhile isSpace).reverse.dropWhile isSpace).reverse

/-- The function `strings.Split(s, sep)` for a one-character separator. -/
def splitOnChar (sep : Char) : List Char → List (List Char)
  | [] => [[]]
  | c :: cs =>
    match splitOnChar sep cs with
    | [] => [[]]
    | p :: ps => if c = sep then [] :: p :: ps else (c :: p) :: ps

/-- The function `strings.SplitN(s, sep, 2)` for a one-character separator:
`none` when the result has one element (no separator), else the two parts. -/
def splitFirst (sep : Char) : List Char → Option (List Char × List Char)
  | [] => none
  | c :: cs =>
    if c = sep then some ([], cs)
    else match splitFirst sep cs with
      | none => none
      | some (a, b) => some (c :: a, b)

/-- The value of a run of decimal digits. -/
def digitsVal (ds : List Char) : Nat :=
  ds.foldl (fun a c => 10 * a + (c.toNat - 48)) 0

/-- The call `fmt.Sscanf(v, "%d", &colIndex)` with its error ignored: the new
value of `colIndex`, `old` being the value before the call.  The scanner takes an
optional sign and the longest run of decimal digits that follows; with no digit,
or a number outside `int64`, it fails and leaves the variable alone.  Input after
the number is not looked at.  (`v` comes out of `TrimSpace`, so the scanner's
initial skipping of spaces has nothing to skip.) -/
def sscanfInt (v : List Char) (old : Int) : Int :=
  let signed : Bool × List Char :=
    match v with
    | '-' :: t => (true, t)
    | '+' :: t => (false, t)
    | _ => (false, v)
  let ds := signed.2.takeWhile Char.isDigit
  if ds = [] then old
  else
    let n : Int := if signed.1 then - (digitsVal ds : Int) else (digitsVal ds : Int)
    if - 2 ^ 63 ≤ n ∧ n < 2 ^ 63 then n else old

/-- One iteration of the loop of `parseTag` over the part `p`. -/
def parseTagStep (acc : Int × List Char) (p : List Char) : Int × List Char :=
  match splitFirst '=' p with
  | none => acc
  | some (k, v) =>
    let k := trimSpace k
    let v := trimSpace v
    if k = "column".data then (sscanfInt v acc.1, acc.2)
    else if k = "type".data then (acc.1, v)
    else acc

/-- The function `parseTag`: column index and type name of a `dbc` tag. -/
def parseTag (tag : String) : Int × List Char :=
  if tag.data = [] then (-1, [])
  else (splitOnChar ',' tag.data).foldl parseTagStep (0, [])

/-- The function `readCString`; `offset` is a `uint32`. -/
def readCString (block : List Byte) (offset : Nat) : List Byte :=
  if offset ≥ block.length % 2 ^ 32 then []
  else (block.drop offset).takeWhile (fun b => b ≠ 0)

/-- The function `float32FromBits` (`math.Float32frombits`).  A `float32` is
represented by its bit pattern, so this is the identity. -/
def float32FromBits (bits : Nat) : Nat := bits

/-- The function `float32ToBits` (`math.Float32bits`): the bit pattern of a
`float32`, a `uint32`.  The conversions around its call in `MarshalRecords` are
`float32ViaFloat64`. -/
def float32ToBits (f : Nat) : Nat := f % 2 ^ 32

/-- The bit pattern is a signalling NaN of `float32`: exponent bits all set,
fraction not zero, first fraction bit clear. -/
def isSignallingNaN (bits : Nat) : Bool :=
  decide ((bits / 2 ^ 23) % 256 = 255 ∧ bits % 2 ^ 23 ≠ 0 ∧ (bits / 2 ^ 22) % 2 = 0)

/-- The conversion `float32(float64(f))` of a `float32` given by its bit pattern:
every value comes back as it is, except that a signalling NaN comes back quiet
(first fraction bit set).  `MarshalRecords` does it in
`float32(fieldVal.Float())`, `UnmarshalRecords` in
`fieldVal.SetFloat(float64(floatVal))`. -/
def float32ViaFloat64 (bits : Nat) : Nat :=
  if isSignallingNaN bits then bits + 2 ^ 22 else bits

/-- One character of `strings.ToLower`: the ASCII capitals, and the two
characters outside ASCII whose lower case is an ASCII letter (U+0130 and the
Kelvin sign).  Other characters outside ASCII are left as they are: their lower
case is outside ASCII, so the comparison with a type name is not affected. -/
def lowerChar (c : Char) : Char :=
  if c.toNat = 0x130 then 'i'
  else if c.toNat = 0x212A then 'k'
  else c.toLower

/-- The function `strings.ToLower`, up to characters outside ASCII. -/
def toLower (s : List Char) : List Char := s.map lowerChar

/-! ## marshal.go: the data model -/

/-- The kind of a Go struct field, as far as the package can set or read it:
a signed integer (`int32`), an unsigned integer (`uint32`), a `float32` or a
`string`. -/
inductive Kind where
  | int | uint | float | string
deriving DecidableEq, Repr

/-- The value of a struct field.  A `float32` is represented by its IEEE-754
bit pattern, which `float32ToBits` and `float32FromBits` convert without
change. -/
inductive Value where
  | int (v : Int)
  | uint (v : Nat)
  | float (bits : Nat)
  | str (s : List Byte)
deriving DecidableEq, Repr

/-- The kind of a value. -/
def Value.kind : Value → Kind
  | .int _ => .int
  | .uint _ => .uint
  | .float _ => .float
  | .str _ => .string

/-- The zero value of a field of the given kind (`reflect.New(elemType).Elem()`). -/
def zeroValue : Kind → Value
  | .int => .int 0
  | .uint => .uint 0
  | .float => .float 0
  | .string => .str []

/-- One field of the user's struct type: its name, its kind and its `dbc` tag
(the empty string when the field has none). -/
structure SchemaField where
  name : String
  kind : Kind
  tag : String
deriving DecidableEq, Repr

/-- A schema is the field list of the user's struct type. -/
abbrev Schema := List SchemaField

/-- A record is a struct value: one value per field, in field order. -/
abbrev Record := List Value

/-- The cases of the `switch strings.ToLower(colType)` statements. -/
inductive ColType where
  | int32 | uint32 | float32 | float64 | string | locstring | unknown
deriving DecidableEq, Repr

/-- Which case of the switch a lower-cased type name selects. -/
def classify (t : List Char) : ColType :=
  if t = "int".data ∨ t = "int32".data then .int32
  else if t = "uint32".data then .uint32
  else if t = "float".data ∨ t = "float32".data then .float32
  else if t = "float64".data then .float64
  else if t = "string".data then .string
  else if t = "locstring".data then .locstring
  else .unknown

/-- The conversion `int64(int32(v))` of a `uint32` value `v`. -/
def toInt32 (v : Nat) : Int :=
  if v % 2 ^ 32 < 2 ^ 31 then (v % 2 ^ 32 : Nat) else (v % 2 ^ 32 : Nat) - 2 ^ 32

/-! ## marshal.go: `UnmarshalRecords` -/

/-- The call `fieldVal.SetInt(x)`: it panics unless the field is a signed integer. -/
def setInt (k : Kind) (x : Int) : Except DbcError Value :=
  if k = .int then .ok (.int x) else .error .panic

/-- The call `fieldVal.SetUint(x)`: it panics unless the field is an unsigned integer. -/
def setUint (k : Kind) (x : Nat) : Except DbcError Value :=
  if k = .uint then .ok (.uint x) else .error .panic

/-- The call `fieldVal.SetFloat(float64(f))` for the `float32` value `f`: it
panics unless the field is a float, and stores `float32(float64(f))` in the
`float32` field. -/
def setFloat (k : Kind) (f : Nat) : Except DbcError Value :=
  if k = .float then .ok (.float (float32ViaFloat64 f)) else .error .panic

/-- The call `fieldVal.SetString(s)`: it panics unless the field is a string. -/
def setString (k : Kind) (s : List Byte) : Except DbcError Value :=
  if k = .string then .ok (.str s) else .error .panic

/-- A window `[lo, hi)` of `RawRecords`, by absolute byte offsets. -/
abbrev Window := Nat × Nat

/-- The result of a decoding step together with the windows of `RawRecords` it
has read, in order. -/
abbrev Traced (α : Type) := List Window × Except DbcError α

/-- The `switch strings.ToLower(colType)` statement of `UnmarshalRecords`, for
record `i` and a field whose column index `col` has passed the two checks before
it.  `recBytes` is `raw[i*recordSize : (i+1)*recordSize]`, so the window
`recBytes[a:b]` is the window `[i*recordSize + a, i*recordSize + b)` of `raw`,
and a slice expression on `recBytes` may reach up to the capacity, that is, to
the end of `raw`. -/
def decodeColumn (file : File) (i : Nat) (fld : SchemaField) (col : Nat)
    (colType : List Char) : Traced Value :=
  let base := i * file.Header.RecordSize
  let offsetInRecord := 4 * col
  let win : Window := (base + offsetInRecord, base + offsetInRecord + 4)
  let word := getUint32 (slice file.RawRecords win.1 win.2)
  match classify (toLower colType) with
  | .int32 => ([win], setInt fld.kind (toInt32 word))
  | .uint32 => ([win], setUint fld.kind word)
  | .float32 => ([win], setFloat fld.kind (float32FromBits word))
  | .float64 => ([], .error .float64Unsupported)
  | .string => ([win], setString fld.kind (readCString file.StringBlock word))
  | .locstring =>
    let maskCol := col + 1
    if maskCol ≥ file.Header.FieldCount then
      ([win], .error (.locstringNoMask fld.name))
    else
      let maskOffset := 4 * maskCol
      if base + maskOffset + 4 > file.RawRecords.length then
        ([win], .error .panic)
      else
        let mwin : Window := (base + maskOffset, base + maskOffset + 4)
        let mask := getUint32 (slice file.RawRecords mwin.1 mwin.2)
        if mask ≠ 0 then ([win, mwin], .error (.maskNotZero mask fld.name))
        else ([win, mwin], setString fld.kind (readCString file.StringBlock word))
  | .unknown => ([], .error (.unsupportedType colType fld.name))

/-- The body of the inner loop of `UnmarshalRecords` for record `i` and one
struct field: the value the field ends up with. -/
def decodeField (file : File) (i : Nat) (fld : SchemaField) : Traced Value :=
  if fld.tag.data = [] then ([], .ok (zeroValue fld.kind))
  else
    let columnIndex := (parseTag fld.tag).1
    let colType := (parseTag fld.tag).2
    if columnIndex < 0 ∨ columnIndex ≥ (file.Header.FieldCount : Int) then
      ([], .error (.invalidColumn fld.name columnIndex))
    else
      let offsetInRecord := 4 * columnIndex.toNat
      if offsetInRecord + 4 > file.Header.RecordSize then
        ([], .error (.outOfBounds i fld.name))
      else decodeColumn file i fld columnIndex.toNat colType

/-- The inner loop of `UnmarshalRecords` for record `i`: the fields in order,
stopping at the first error. -/
def decodeFields (file : File) (i : Nat) : Schema → Traced Record
  | [] => ([], .ok [])
  | fld :: rest =>
    match decodeField file i fld with
    | (t, .error e) => (t, .error e)
    | (t, .ok v) =>
      match decodeFields file i rest with
      | (t2, .error e) => (t ++ t2, .error e)
      | (t2, .ok vs) => (t ++ t2, .ok (v :: vs))

/-- The outer loop of `UnmarshalRecords` from record `i` on, with `n` records
left.  Taking `raw[i*recordSize : (i+1)*recordSize]` panics when the window does
not lie in `raw`. -/
def decodeRecords (file : File) (schema : Schema) : Nat → Nat → Traced (List Record)
  | 0, _ => ([], .ok [])
  | n + 1, i =>
    if (i + 1) * file.Header.RecordSize > file.RawRecords.length then ([], .error .panic)
    else
      match decodeFields file i schema with
      | (t, .error e) => (t, .error e)
      | (t, .ok r) =>
        match decodeRecords file schema n (i + 1) with
        | (t2, .error e) => (t ++ t2, .error e)
        | (t2, .ok rs) => (t ++ t2, .ok (r :: rs))

/-- The function `UnmarshalRecords` together with the windows of `RawRecords` it
reads.  The schema stands for the element type of the slice passed in. -/
def UnmarshalRecordsTraced (file : File) (schema : Schema) : Traced (List Record) :=
  decodeRecords file schema file.Header.RecordCount 0

/-- The function `UnmarshalRecords`: the records stored into the slice, or the
error returned. -/
def UnmarshalRecords (file : File) (schema : Schema) : Except DbcError (List Record) :=
  (UnmarshalRecordsTraced file schema).2

/-! ## marshal.go: `MarshalRecords` -/

/-- The mutable state of `MarshalRecords`: the record block, the string pool (a
map from string to offset, here an association list) and the string block. -/
structure EncState where
  rawRecords : List Byte
  strPool : List (List Byte × Nat)
  strBlock : List Byte
deriving DecidableEq, Repr

/-- The map lookup `strPool[s]`. -/
def poolGet : List (List Byte × Nat) → List Byte → Option Nat
  | [], _ => none
  | (k, off) :: rest, s => if k = s then some off else poolGet rest s

/-- The closure `putString`: the new state and the offset returned. -/
def putString (st : EncState) (s : List Byte) : EncState × Nat :=
  match poolGet st.strPool s with
  | some off => (st, off)
  | none =>
    let off := st.strBlock.length % 2 ^ 32
    ({ st with strPool := (s, off) :: st.strPool, strBlock := st.strBlock ++ s ++ [0] }, off)

/-- The statement `binary.LittleEndian.PutUint32(rawRecords[off:off+4], v)` for
an offset that is not negative; the slice expression panics when the window does
not lie in the buffer. -/
def writeUint32 (st : EncState) (off v : Nat) : Except DbcError EncState :=
  if off + 4 ≤ st.rawRecords.length then
    .ok { st with
          rawRecords := st.rawRecords.take off ++ putUint32 v ++ st.rawRecords.drop (off + 4) }
  else .error .panic

/-- The value of an `int` expression whose exact value is `x`: Go's `int` has 64
bits and its arithmetic wraps around. -/
def wrapInt64 (x : Int) : Int := (x + 2 ^ 63) % 2 ^ 64 - 2 ^ 63

/-- The value of an `int` expression for a size of the record block or an offset
into it, `x` being its exact value.  With a record size that is not negative the
block has `count * recordSize` bytes and the value is exact (it is below `2 ^ 63`
for a block that fits in memory); with a negative record size it is what Go
computes. -/
def blockInt (recordSize x : Int) : Int :=
  if recordSize < 0 then wrapInt64 x else x

/-- The statement `binary.LittleEndian.PutUint32(rawRecords[off:off+4], v)` for
the `int` offset `off`: the slice expression panics when the offset is negative
or the window does not lie in the buffer. -/
def writeUint32At (st : EncState) (off : Int) (v : Nat) : Except DbcError EncState :=
  if off < 0 then .error .panic else writeUint32 st off.toNat v

/-- The call `fieldVal.String()`: the string of a string field; for a field of
another kind the call does not panic, it returns the name of the type between
`<` and ` Value>`: the bytes of `<int32 Value>`, `<uint32 Value>` and
`<float32 Value>`. -/
def valueString : Value → List Byte
  | .str s => s
  | .int _ => [0x3c, 0x69, 0x6e, 0x74, 0x33, 0x32, 0x20, 0x56, 0x61, 0x6c, 0x75, 0x65, 0x3e]
  | .uint _ => [0x3c, 0x75, 0x69, 0x6e, 0x74, 0x33, 0x32, 0x20, 0x56, 0x61, 0x6c, 0x75, 0x65, 0x3e]
  | .float _ =>
    [0x3c, 0x66, 0x6c, 0x6f, 0x61, 0x74, 0x33, 0x32, 0x20, 0x56, 0x61, 0x6c, 0x75, 0x65, 0x3e]

/-- The body of the inner loop of `MarshalRecords` for one field holding the
value `v`, in the record starting at byte `recOff`.  `fieldVal.Int()`,
`fieldVal.Uint()` and `fieldVal.Float()` panic on a field of another kind;
`fieldVal.String()` does not. -/
def encodeField (fieldCount recordSize recOff : Int) (st : EncState) (fld : SchemaField)
    (v : Value) : Except DbcError EncState :=
  let colIdx := (parseTag fld.tag).1
  let colType := (parseTag fld.tag).2
  if colIdx < 0 then .ok st
  else
    let byteOff := blockInt recordSize (recOff + wrapInt64 (colIdx * 4))
    match classify (toLower colType) with
    | .int32 =>
      match v with
      | .int x => writeUint32At st byteOff (x % 2 ^ 32).toNat
      | _ => .error .panic
    | .uint32 =>
      match v with
      | .uint x => writeUint32At st byteOff (x % 2 ^ 32)
      | _ => .error .panic
    | .float32 =>
      match v with
      | .float f => writeUint32At st byteOff (float32ToBits (float32ViaFloat64 f))
      | _ => .error .panic
    | .string =>
      let r := putString st (valueString v)
      writeUint32At r.1 byteOff r.2
    | .locstring =>
      let r := putString st (valueString v)
      match writeUint32At r.1 byteOff r.2 with
      | .error e => .error e
      | .ok st1 =>
        if wrapInt64 (colIdx + 1) ≥ fieldCount then .error .marshalNoMask
        else
          let byteOffMask := blockInt recordSize (recOff + wrapInt64 (wrapInt64 (colIdx + 1) * 4))
          writeUint32At st1 byteOffMask 0
    | _ => .error (.unsupportedMarshalType colType fld.name)

/-- The inner loop of `MarshalRecords` over the fields of one record. -/
def encodeFields (fieldCount recordSize recOff : Int) :
    EncState → Schema → Record → Except DbcError EncState
  | st, [], _ => .ok st
  | _, _ :: _, [] => .error .panic
  | st, fld :: flds, v :: vs =>
    match encodeField fieldCount recordSize recOff st fld v with
    | .error e => .error e
    | .ok st1 => encodeFields fieldCount recordSize recOff st1 flds vs

/-- The outer loop of `MarshalRecords` over the records, `i` being the index of
the first one. -/
def encodeRecords (schema : Schema) (fieldCount recordSize : Int) :
    EncState → Nat → List Record → Except DbcError EncState
  | st, _, [] => .ok st
  | st, i, r :: rs =>
    match encodeFields fieldCount recordSize (blockInt recordSize (i * recordSize)) st schema r with
    | .error e => .error e
    | .ok st1 => encodeRecords schema fieldCount recordSize st1 (i + 1) rs

/-- The first loop of `MarshalRecords`: the largest column index of any field,
starting from 0. -/
def maxColIndex (schema : Schema) : Int :=
  schema.foldl (fun m fld => if (parseTag fld.tag).1 > m then (parseTag fld.tag).1 else m) 0

/-- The function `MarshalRecords` on a slice of structs of the type described by
`schema`.  `make` panics when the length it is given is negative; the header
fields are the conversions to `uint32` of the `int` values. -/
def MarshalRecords (schema : Schema) (recs : List Record) : Except DbcError File :=
  let count := recs.length
  if count = 0 then .error .emptySlice
  else
    let fieldCount := wrapInt64 (maxColIndex schema + 1)
    let recordSize := wrapInt64 (fieldCount * 4)
    let size := blockInt recordSize (count * recordSize)
    if size < 0 then .error .panic
    else
      let st0 : EncState :=
        { rawRecords := List.replicate size.toNat 0
          strPool := [([], 0)]
          strBlock := [0] }
      match encodeRecords schema fieldCount recordSize st0 0 recs with
      | .error e => .error e
      | .ok st =>
        .ok { Header :=
                { Magic := MagicWDBC
                  RecordCount := count % 2 ^ 32
                  FieldCount := (fieldCount % 2 ^ 32).toNat
                  RecordSize := (recordSize % 2 ^ 32).toNat
                  StringBlockSize := st.strBlock.length % 2 ^ 32 }
              RawRecords := st.rawRecords
              StringBlock := st.strBlock }

/-! ## Conditions on schemas used in the statements -/

/-- The Go kind of the field is the one the case of the switch selected by its
tag sets and reads (no reflection panic): a signed integer for `int32`, an
unsigned one for `uint32`, a float for `float32`, a string for `string` and
`locstring`. -/
def KindFits (fld : SchemaField) : Prop :=
  match classify (toLower (parseTag fld.tag).2) with
  | .int32 => fld.kind = .int
  | .uint32 => fld.kind = .uint
  | .float32 => fld.kind = .float
  | .string => fld.kind = .string
  | .locstring => fld.kind = .string
  | _ => True

instance (fld : SchemaField) : Decidable (KindFits fld) := by
  unfold KindFits; split <;> infer_instance

/-- The column index of a field as a natural number (0 when negative). -/
def SchemaField.col (fld : SchemaField) : Nat := (parseTag fld.tag).1.toNat

/-- The case of the switch the field's type name selects. -/
def SchemaField.colType (fld : SchemaField) : ColType :=
  classify (toLower (parseTag fld.tag).2)

/-- The columns `MarshalRecords` writes for a field: none for a field it skips
(negative column index, which includes a field without tag), the column of the
field, and for a locstring also the mask column after it. -/
def fieldColumns (fld : SchemaField) : List Nat :=
  if (parseTag fld.tag).1 < 0 then []
  else if fld.colType = .locstring then [fld.col, fld.col + 1]
  else [fld.col]

/-- The columns written for a record, field by field. -/
def schemaColumns (schema : Schema) : List Nat :=
  schema.flatMap fieldColumns

/-- A value that a 4-byte column can hold and give back without loss: an integer
in the range of `int32`, an unsigned integer below `2^32`, the bit pattern of a
`float32` that is not a signalling NaN, a string without NUL byte. -/
def Value.Fits32 : Value → Prop
  | .int x => - 2 ^ 31 ≤ x ∧ x < 2 ^ 31
  | .uint x => x < 2 ^ 32
  | .float b => b < 2 ^ 32 ∧ isSignallingNaN b = false
  | .str s => (0 : Byte) ∉ s

instance (v : Value) : Decidable v.Fits32 := by
  cases v <;> unfold Value.Fits32 <;> infer_instance

/-- A field value of a well-typed struct that decoding can give back: it has the
kind of its field, fits a column, and is the zero value when the field has no
tag. -/
def FieldValueOK (fld : SchemaField) (v : Value) : Prop :=
  v.kind = fld.kind ∧ v.Fits32 ∧ (fld.tag.data = [] → v = zeroValue fld.kind)

instance (fld : SchemaField) (v : Value) : Decidable (FieldValueOK fld v) := by
  unfold FieldValueOK; infer_instance

/-- Every field of the record is as `FieldValueOK` asks; in particular the record
has one value per field of the schema. -/
def RecordOK : Schema → Record → Prop
  | [], [] => True
  | fld :: flds, v :: vs => FieldValueOK fld v ∧ RecordOK flds vs
  | _, _ => False

instance : (schema : Schema) → (r : Record) → Decidable (RecordOK schema r)
  | [], [] => isTrue trivial
  | [], _ :: _ => isFalse (fun h => h)
  | _ :: _, [] => isFalse (fun h => h)
  | fld :: flds, v :: vs =>
    have := instDecidableRecordOK flds vs
    by unfold RecordOK; infer_instance

/-- The 4-byte column `k` of a record block, counting columns from the start of
the block. -/
def cell (raw : List Byte) (k : Nat) : List Byte := slice raw (4 * k) (4 * k + 4)

/-! ## The string block a call of `MarshalRecords` produces -/

/-- The string `putString` is called with for one field, if any: the string
value (`valueString`) of a field that is not skipped (column index not negative)
and whose type is `string` or `locstring`. -/
def fieldStrings (fld : SchemaField) (v : Value) : List (List Byte) :=
  if (parseTag fld.tag).1 < 0 then []
  else
    match fld.colType with
    | .string => [valueString v]
    | .locstring => [valueString v]
    | _ => []

/-- The strings `putString` is called with for one record, fields in schema order. -/
def recordStrings : Schema → Record → List (List Byte)
  | fld :: flds, v :: vs => fieldStrings fld v ++ recordStrings flds vs
  | _, _ => []

/-- The strings `putString` is called with during a call, records in order. -/
def writtenStrings (schema : Schema) (recs : List Record) : List (List Byte) :=
  recs.flatMap (recordStrings schema)

/-- The string values of the `string` and `locstring` fields of one record,
whatever their column index, fields in schema order. -/
def recordStringValues : Schema → Record → List (List Byte)
  | fld :: flds, v :: vs =>
    (match fld.colType, v with
      | .string, .str s => [s]
      | .locstring, .str s => [s]
      | _, _ => []) ++ recordStringValues flds vs
  | _, _ => []

/-- The string values of the `string` and `locstring` fields of all records,
records in order. -/
def stringFieldValues (schema : Schema) (recs : List Record) : List (List Byte) :=
  recs.flatMap (recordStringValues schema)

/-- The distinct non-empty strings of a list in order of first appearance,
leaving out those already in `seen`. -/
def firstAppearances (seen : List (List Byte)) : List (List Byte) → List (List Byte)
  | [] => []
  | s :: rest =>
    if s = [] ∨ s ∈ seen then firstAppearances seen rest
    else s :: firstAppearances (s :: seen) rest

/-- Each string followed by one NUL byte, concatenated. -/
def nulTerminated (strs : List (List Byte)) : List Byte :=
  strs.flatMap (fun s => s ++ [0])

/-- One NUL byte followed by the distinct non-empty strings of the list, in order
of first appearance, each followed by one NUL byte. -/
def internedBlock (strs : List (List Byte)) : List Byte :=
  0 :: nulTerminated (firstAppearances [] strs)

/-- What `putString` does to the string pool and the string block, the record
block left aside. -/
def internString (p : List (List Byte × Nat) × List Byte) (s : List Byte) :
    List (List Byte × Nat) × List Byte :=
  match poolGet p.1 s with
  | some _ => p
  | none => ((s, p.2.length % 2 ^ 32) :: p.1, p.2 ++ s ++ [0])

/-- The pool and block after `putString` has been called with each string of
the list in turn. -/
def internStrings (p : List (List Byte × Nat) × List Byte) (strs : List (List Byte)) :
    List (List Byte × Nat) × List Byte :=
  strs.foldl internString p

/-- The strings in the pool are the empty string and those of `seen`. -/
def PoolDomain (pool : List (List Byte × Nat)) (seen : List (List Byte)) : Prop :=
  ∀ s, poolGet pool s ≠ none ↔ (s = [] ∨ s ∈ seen)

/-- The invariant of the string pool: every entry `s ↦ off` points at a copy of
`s` in the string block, followed by a NUL byte (`off` being the position
reduced to a `uint32`). -/
def PoolOK (p : List (List Byte × Nat) × List Byte) : Prop :=
  ∀ s off, poolGet p.1 s = some off →
    ∃ pre post, p.2 = pre ++ s ++ 0 :: post ∧ off = pre.length % 2 ^ 32

/-- What the record block and the pool hold for one field of the record whose
first column is cell `k0`, once the field has been written and not overwritten:
nothing is asked for a skipped field; otherwise the cell of the field's column
holds the little-endian word of the value (for a string, its offset in the
pool), and for a locstring the next cell, a column of the record, holds zero. -/
def FieldCells (raw : List Byte) (pool : List (List Byte × Nat)) (fc k0 : Nat)
    (fld : SchemaField) (v : Value) : Prop :=
  (parseTag fld.tag).1 < 0 ∨
  (0 ≤ (parseTag fld.tag).1 ∧
    match fld.colType, v with
    | .int32, .int x => cell raw (k0 + fld.col) = putUint32 (x % 2 ^ 32).toNat
    | .uint32, .uint x => cell raw (k0 + fld.col) = putUint32 (x % 2 ^ 32)
    | .float32, .float b =>
      cell raw (k0 + fld.col) = putUint32 (float32ToBits (float32ViaFloat64 b))
    | .string, v =>
      ∃ off, poolGet pool (valueString v) = some off ∧
        cell raw (k0 + fld.col) = putUint32 off
    | .locstring, v =>
      ∃ off, poolGet pool (valueString v) = some off ∧
        cell raw (k0 + fld.col) = putUint32 off ∧
        fld.col + 1 < fc ∧ cell raw (k0 + (fld.col + 1)) = putUint32 0
    | _, _ => False)

/-- The statement `FieldCells` for every field of a record. -/
def RecordCells (raw : List Byte) (pool : List (List Byte × Nat)) (fc k0 : Nat) :
    Schema → Record → Prop
  | [], _ => True
  | fld :: flds, v :: vs => FieldCells raw pool fc k0 fld v ∧ RecordCells raw pool fc k0 flds vs
  | _ :: _, [] => False

/-- The value has the constructor the case of the switch reads or sets; there is
none for `float64` and for an unknown type name. -/
def TypeMatch : ColType → Value → Prop
  | .int32, .int _ => True
  | .uint32, .uint _ => True
  | .float32, .float _ => True
  | .string, .str _ => True
  | .locstring, .str _ => True
  | _, _ => False

/-- A field and value `MarshalRecords` encodes without error in a record of `fc`
columns: the field is skipped, or its column is one of the record, its value has
the constructor its type asks for and, for a locstring, the next column is one
of the record too. -/
def Encodable (fc : Nat) (fld : SchemaField) (v : Value) : Prop :=
  (parseTag fld.tag).1 < 0 ∨
    (fld.col < fc ∧ TypeMatch fld.colType v ∧ (fld.colType = .locstring → fld.col + 1 < fc))

/-- The statement `Encodable` for every field of a record. -/
def RecordEncodable (fc : Nat) : Schema → Record → Prop
  | [], _ => True
  | fld :: flds, v :: vs => Encodable fc fld v ∧ RecordEncodable fc flds vs
  | _ :: _, [] => False

/-- A struct value of the type the schema describes: one value per field, each of
the kind of its field. -/
def RecordTyped : Schema → Record → Prop
  | [], [] => True
  | fld :: flds, v :: vs => v.kind = fld.kind ∧ RecordTyped flds vs
  | _, _ => False

instance : (schema : Schema) → (r : Record) → Decidable (RecordTyped schema r)
  | [], [] => isTrue trivial
  | [], _ :: _ => isFalse (fun h => h)
  | _ :: _, [] => isFalse (fun h => h)
  | fld :: flds, v :: vs =>
    have := instDecidableRecordTyped flds vs
    by unfold RecordTyped; infer_instance

/-- The value an integer field has after decoding record `i`: the zero value for a
field without tag; otherwise the little-endian word at bytes `4c` to `4c + 4` of
the record, `c` being the column of the field, read as two's complement for
`int32` and as it is for `uint32`. -/
def intFieldValue (file : File) (i : Nat) (fld : SchemaField) : Value :=
  if fld.tag.data = [] then zeroValue fld.kind
  else
    let w := getUint32 (slice file.RawRecords
      (i * file.Header.RecordSize + 4 * fld.col) (i * file.Header.RecordSize + 4 * fld.col + 4))
    if fld.colType = .int32 then .int (if w < 2 ^ 31 then (w : Int) else (w : Int) - 2 ^ 32)
    else .uint w

/-- What the pool invariant says of one entry `s ↦ off` and the string block: the
bytes of `s` stand in the block from `off` on, followed by a NUL byte. -/
def PoolEntryOK (block s : List Byte) (off : Nat) : Prop :=
  off + s.length < block.length ∧ slice block off (off + s.length) = s ∧
    block[off + s.length]? = some 0

/-! ## Tags whose column value is not a number -/

/-- The list starts with a decimal digit. -/
def headIsDigit : List Char → Bool
  | c :: _ => c.isDigit
  | [] => false

/-- The text starts with a decimal digit, or with a sign followed by one: what the
scanner of `%d` needs to read a number. -/
def startsWithNumber (v : List Char) : Bool :=
  match v with
  | '-' :: t => headIsDigit t
  | '+' :: t => headIsDigit t
  | _ => headIsDigit v

/-- The text is a non-negative decimal integer: digits only, at least one. -/
def isDecimalNat (v : List Char) : Bool :=
  !v.isEmpty && v.all Char.isDigit

/-- No value given for the key `column` in the tag starts, once trimmed, with a
number: every part `key=value` of the tag has another key, or a value that
`startsWithNumber` rejects. -/
def noColumnNumber (tag : String) : Bool :=
  (splitOnChar ',' tag.data).all fun p =>
    match splitFirst '=' p with
    | none => true
    | some (k, v) => decide (trimSpace k ≠ "column".data) || !startsWithNumber (trimSpace v)

/-- One iteration of the loop of `parseTag`, for the type name alone. -/
def typeStep (t : List Char) (p : List Char) : List Char :=
  match splitFirst '=' p with
  | none => t
  | some (k, v) => if trimSpace k = "type".data then trimSpace v else t

/-- The type name given by the `type` key of a tag: the trimmed value of its last
`type=` part, the empty string when there is none. -/
def typeOfTag (tag : String) : List Char :=
  (splitOnChar ',' tag.data).foldl typeStep []

/-! ## Particular inputs -/

/-- A file of 65536 records of 65536 bytes each (16384 columns) and a one-byte
string block. -/
def wideFile : File :=
  { Header := { Magic := MagicWDBC, RecordCount := 65536, FieldCount := 16384,
                RecordSize := 65536, StringBlockSize := 1 }
    RawRecords := 0 :: List.replicate 4294967295 0
    StringBlock := [0] }

/-- A schema with one string field at column 0. -/
def nameSchema : Schema := [⟨"Name", .string, "column=0,type=string"⟩]

/-- Two records for `nameSchema`, both holding the string "A". -/
def twoNames : List Record := [[.str [0x41]], [.str [0x41]]]

/-- The container `MarshalRecords` makes of `twoNames`. -/
def twoNamesFile : File :=
  { Header := { Magic := MagicWDBC, RecordCount := 2, FieldCount := 1, RecordSize := 4,
                StringBlockSize := 3 }
    RawRecords := [1, 0, 0, 0, 1, 0, 0, 0]
    StringBlock := [0, 0x41, 0] }

/-- A string block of `2^32` bytes, all of them the letter "A". -/
def hugeBlock : List Byte := List.replicate 4294967296 0x41

/-- A slice of `2^32` values of the struct type without fields. -/
def manyEmptyRecords : List Record := List.replicate 4294967296 []

/-- A struct type with a single `uint32` field at column `2^62`. -/
def farColumnSchema : Schema :=
  [⟨"N", .uint, "column=4611686018427387904,type=uint32"⟩]

/-- A struct type with a single locstring field at column `2^63 - 1`, the largest
`int`. -/
def lastColumnSchema : Schema :=
  [⟨"Name", .string, "column=9223372036854775807,type=locstring"⟩]

/-- A string of `2^32 - 1` letters "A". -/
def hugeString : List Byte := 0x41 :: List.replicate 4294967294 0x41

/-- Two records for `nameSchema`: the string `hugeString` and the string "B". -/
def hugeNames : List Record := [[.str hugeString], [.str [0x42]]]

/-! ## The container codec: `ReadDBC` and `WriteDBC` -/

theorem putUint32_length (v : Nat) : (putUint32 v).length = 4 := rfl

theorem getUint32_putUint32 (v : Nat) : getUint32 (putUint32 v) = v % 2 ^ 32 := by
  simp only [getUint32, putUint32, List.getD_cons_zero, List.getD_cons_succ, Fin.ofNat,
    Fin.val_mk]
  omega

theorem putUint32_getUint32 (a b c d : Byte) :
    putUint32 (getUint32 [a, b, c, d]) = [a, b, c, d] := by
  have ha := a.isLt; have hb := b.isLt; have hc := c.isLt; have hd := d.isLt
  simp only [getUint32, putUint32, List.getD_cons_zero, List.getD_cons_succ, Fin.ofNat]
  simp only [List.cons.injEq, and_true]
  refine ⟨?_, ?_, ?_, ?_⟩ <;> apply Fin.ext <;> simp only [Fin.val_mk] <;> omega

theorem writeHeader_length (h : Header) : (writeHeader h).length = 20 := rfl

theorem slice_append_left (a b : List Byte) (lo hi : Nat) (h : hi ≤ a.length) :
    slice (a ++ b) lo hi = slice a lo hi := by
  unfold slice
  by_cases hlo : lo ≤ a.length
  · rw [List.drop_append_of_le_length hlo, List.take_append_of_le_length]
    simp; omega
  · have : hi - lo = 0 := by omega
    simp [this]

theorem readFull_of_le (r : List Byte) (n : Nat) (h : n ≤ r.length) :
    readFull r n = some (r.take n, r.drop n) := by
  unfold readFull; rw [if_pos h]

theorem readFull_of_lt (r : List Byte) (n : Nat) (h : r.length < n) :
    readFull r n = none := by
  unfold readFull; rw [if_neg (by omega)]

/-- What `ReadDBC` does on a stream made of 20 header bytes and a body. -/
theorem ReadDBC_header_body (hb body : List Byte) (hlen : hb.length = 20) :
    ReadDBC (hb ++ body) =
      (let hdr : Header :=
        { Magic := getUint32 (slice hb 0 4)
          RecordCount := getUint32 (slice hb 4 8)
          FieldCount := getUint32 (slice hb 8 12)
          RecordSize := getUint32 (slice hb 12 16)
          StringBlockSize := getUint32 (slice hb 16 20) }
       let n := (hdr.RecordCount * hdr.RecordSize) % 2 ^ 32
       if hdr.Magic ≠ MagicWDBC then .error (.badMagic hdr.Magic)
       else if body.length < n then .error .readRecords
       else if body.length - n < hdr.StringBlockSize then .error .readStringBlock
       else .ok { Header := hdr, RawRecords := body.take n,
                  StringBlock := (body.drop n).take hdr.StringBlockSize }) := by
  have h1 : readFull (hb ++ body) 20 = some (hb, body) := by
    unfold readFull
    rw [if_pos (by simp [hlen])]
    simp [← hlen]
  unfold ReadDBC
  rw [h1]
  simp only []
  split_ifs with hm hr hs
  · rfl
  · rw [readFull_of_lt _ _ hr]
  · rw [readFull_of_le _ _ (by omega)]
    simp only []
    rw [readFull_of_lt _ _ (by rw [List.length_drop]; exact hs)]
  · rw [readFull_of_le _ _ (by omega)]
    simp only []
    rw [readFull_of_le _ _ (by rw [List.length_drop]; omega)]

theorem header_of_writeHeader (h : Header) :
    ({ Magic := getUint32 (slice (writeHeader h) 0 4)
       RecordCount := getUint32 (slice (writeHeader h) 4 8)
       FieldCount := getUint32 (slice (writeHeader h) 8 12)
       RecordSize := getUint32 (slice (writeHeader h) 12 16)
       StringBlockSize := getUint32 (slice (writeHeader h) 16 20) } : Header) =
    { Magic := h.Magic % 2 ^ 32, RecordCount := h.RecordCount % 2 ^ 32,
      FieldCount := h.FieldCount % 2 ^ 32, RecordSize := h.RecordSize % 2 ^ 32,
      StringBlockSize := h.StringBlockSize % 2 ^ 32 } := by
  have e0 : slice (writeHeader h) 0 4 = putUint32 h.Magic := rfl
  have e1 : slice (writeHeader h) 4 8 = putUint32 h.RecordCount := rfl
  have e2 : slice (writeHeader h) 8 12 = putUint32 h.FieldCount := rfl
  have e3 : slice (writeHeader h) 12 16 = putUint32 h.RecordSize := rfl
  have e4 : slice (writeHeader h) 16 20 = putUint32 h.StringBlockSize := rfl
  rw [e0, e1, e2, e3, e4]
  simp only [getUint32_putUint32]

/-- What reading back a written file gives, for any file with `uint32` header
fields. -/
theorem ReadDBC_WriteDBC_eq (f : File) (hu : f.Header.IsUint32) :
    ReadDBC (WriteDBC f) =
      (let body := f.RawRecords ++ f.StringBlock
       let n := (f.Header.RecordCount * f.Header.RecordSize) % 2 ^ 32
       if f.Header.Magic ≠ MagicWDBC then .error (.badMagic f.Header.Magic)
       else if body.length < n then .error .readRecords
       else if body.length - n < f.Header.StringBlockSize then .error .readStringBlock
       else .ok { Header := f.Header, RawRecords := body.take n,
                  StringBlock := (body.drop n).take f.Header.StringBlockSize }) := by
  obtain ⟨h0, h1, h2, h3, h4⟩ := hu
  have hh := header_of_writeHeader f.Header
  rw [Nat.mod_eq_of_lt h0, Nat.mod_eq_of_lt h1, Nat.mod_eq_of_lt h2, Nat.mod_eq_of_lt h3,
    Nat.mod_eq_of_lt h4] at hh
  have hw : WriteDBC f = writeHeader f.Header ++ (f.RawRecords ++ f.StringBlock) := by
    unfold WriteDBC; rw [List.append_assoc]
  rw [hw, ReadDBC_header_body _ _ (writeHeader_length _)]
  simp only [] at hh ⊢
  rw [Header.mk.injEq] at hh
  obtain ⟨e0, e1, e2, e3, e4⟩ := hh
  rw [e0, e1, e2, e3, e4]

/-- Container round trip when the product of record count and record size
fits in 32 bits. -/
theorem ReadDBC_WriteDBC_roundtrip (f : File) (hu : f.Header.IsUint32)
    (hmagic : f.Header.Magic = MagicWDBC)
    (hraw : f.RawRecords.length = f.Header.RecordCount * f.Header.RecordSize)
    (hstr : f.StringBlock.length = f.Header.StringBlockSize)
    (hfit : f.Header.RecordCount * f.Header.RecordSize < 2 ^ 32) :
    ReadDBC (WriteDBC f) = .ok f := by
  rw [ReadDBC_WriteDBC_eq f hu]
  simp only []
  rw [Nat.mod_eq_of_lt hfit, ← hraw, ← hstr, if_neg (by rw [hmagic]; simp),
    if_neg (by simp), if_neg (by simp)]
  simp

theorem ReadDBC_WriteDBC_roundtrip_witness :
    ReadDBC (WriteDBC ⟨⟨MagicWDBC, 1, 2, 8, 6⟩, [5, 0, 0, 0, 0, 0, 0, 0],
      [0, 72, 101, 108, 108, 111]⟩) =
    .ok ⟨⟨MagicWDBC, 1, 2, 8, 6⟩, [5, 0, 0, 0, 0, 0, 0, 0], [0, 72, 101, 108, 108, 111]⟩ :=
  ReadDBC_WriteDBC_roundtrip _ (by decide) (by decide) (by decide) (by decide) (by decide)

/-- When the product of record count and record size is a multiple of `2^32`,
`ReadDBC` reads no record byte at all, and the string block is taken from the
start of what `WriteDBC` wrote as record block. -/
theorem ReadDBC_WriteDBC_wraps (f : File) (hu : f.Header.IsUint32)
    (hmagic : f.Header.Magic = MagicWDBC) (b : Byte) (rest : List Byte)
    (hraw : f.RawRecords = b :: rest)
    (hn : (f.Header.RecordCount * f.Header.RecordSize) % 2 ^ 32 = 0)
    (hs : f.Header.StringBlockSize = 1) :
    ReadDBC (WriteDBC f) = .ok { Header := f.Header, RawRecords := [], StringBlock := [b] } := by
  rw [ReadDBC_WriteDBC_eq f hu]
  simp only []
  rw [hn, hs, hraw, if_neg (by rw [hmagic]; simp), if_neg (by omega),
    if_neg (by simp only [List.length_append, List.length_cons]; omega),
    List.drop_zero, List.take_zero, List.cons_append, List.take_succ_cons, List.take_zero]

/-- Claim C2: the file `wideFile` satisfies the three conditions of the claim (valid magic,
record block of `RecordCount × RecordSize` bytes, string block of
`StringBlockSize` bytes), yet reading back what `WriteDBC` wrote returns a file
with an empty record block: `ReadDBC` multiplies in `uint32`, and
65536 × 65536 wraps to 0. -/
theorem ReadDBC_WriteDBC_wideFile :
    wideFile.Header.Magic = MagicWDBC ∧
    wideFile.RawRecords.length = wideFile.Header.RecordCount * wideFile.Header.RecordSize ∧
    wideFile.StringBlock.length = wideFile.Header.StringBlockSize ∧
    ReadDBC (WriteDBC wideFile) =
      .ok { Header := wideFile.Header, RawRecords := [], StringBlock := [0] } := by
  refine ⟨rfl, ?_, rfl, ?_⟩
  · show (0 :: List.replicate 4294967295 0).length = 65536 * 65536
    rw [List.length_cons, List.length_replicate]
  · exact ReadDBC_WriteDBC_wraps wideFile (by unfold Header.IsUint32; decide) rfl 0 _ rfl
      (by show 65536 * 65536 % 2 ^ 32 = 0; norm_num) rfl

/-- Claim C8: a stream that is only a header with valid magic declaring 65536 records of
65536 bytes and an empty string block, with no byte after it, is read without
error into a file with an empty record block: the size `n × s` is computed in
`uint32` and wraps to 0. -/
theorem ReadDBC_header_only_wraps :
    ReadDBC [0x57, 0x44, 0x42, 0x43, 0, 0, 1, 0, 0, 0x40, 0, 0, 0, 0, 1, 0, 0, 0, 0, 0] =
      .ok { Header := { Magic := MagicWDBC, RecordCount := 65536, FieldCount := 16384,
                        RecordSize := 65536, StringBlockSize := 0 }
            RawRecords := [], StringBlock := [] } := by
  decide

/-- Truncation and block sizes with the record-block size as the code computes
it, `(n × s) mod 2^32`: a stream of 20 header bytes with valid magic followed by
`body` fails when `body` is shorter than that size plus the string-block size,
and otherwise yields the next bytes as record block and string block. -/
theorem ReadDBC_blocks (hb body : List Byte) (n s b : Nat) (hlen : hb.length = 20)
    (hmagic : getUint32 (slice hb 0 4) = MagicWDBC)
    (hn : getUint32 (slice hb 4 8) = n) (hs : getUint32 (slice hb 12 16) = s)
    (hb4 : getUint32 (slice hb 16 20) = b) :
    (body.length < (n * s) % 2 ^ 32 + b → ∃ e, ReadDBC (hb ++ body) = .error e) ∧
    ((n * s) % 2 ^ 32 + b ≤ body.length → ∃ f, ReadDBC (hb ++ body) = .ok f ∧
      f.RawRecords = body.take ((n * s) % 2 ^ 32) ∧
      f.StringBlock = (body.drop ((n * s) % 2 ^ 32)).take b ∧
      f.Header.RecordCount = n ∧ f.Header.RecordSize = s ∧ f.Header.StringBlockSize = b) := by
  subst hn hs hb4
  rw [ReadDBC_header_body hb body hlen]
  simp only []
  rw [if_neg (by rw [hmagic]; simp)]
  constructor
  · intro h
    split_ifs with h1 h2
    · exact ⟨_, rfl⟩
    · exact ⟨_, rfl⟩
    · exfalso; omega
  · intro h
    rw [if_neg (by omega), if_neg (by omega)]
    exact ⟨_, rfl, rfl, rfl, rfl, rfl, rfl⟩

theorem ReadDBC_blocks_witness :
    ∃ f, ReadDBC ([0x57, 0x44, 0x42, 0x43, 1, 0, 0, 0, 1, 0, 0, 0, 4, 0, 0, 0, 1, 0, 0, 0] ++
        [7, 0, 0, 0, 0, 9]) = .ok f ∧ f.RawRecords = [7, 0, 0, 0] ∧ f.StringBlock = [0] :=
  have h := (ReadDBC_blocks [0x57, 0x44, 0x42, 0x43, 1, 0, 0, 0, 1, 0, 0, 0, 4, 0, 0, 0,
    1, 0, 0, 0] [7, 0, 0, 0, 0, 9] 1 4 1 (by decide) (by decide) (by decide) (by decide)
    (by decide)).2 (by decide)
  h.imp (fun _ hf => ⟨hf.1, hf.2.1, hf.2.2.1⟩)

/-- Claim C9: a stream of at least 20 bytes whose first four bytes, read little-endian,
differ from `MagicWDBC` makes `ReadDBC` return the bad-magic error (carrying the
value read), whatever the other bytes are. -/
theorem ReadDBC_bad_magic (r : List Byte) (hlen : 20 ≤ r.length)
    (hmagic : getUint32 (slice r 0 4) ≠ MagicWDBC) :
    ReadDBC r = .error (.badMagic (getUint32 (slice r 0 4))) := by
  have hr : r = r.take 20 ++ r.drop 20 := (List.take_append_drop 20 r).symm
  have hs : slice (r.take 20) 0 4 = slice r 0 4 := by
    conv_rhs => rw [hr]
    rw [slice_append_left _ _ _ _ (by simp; omega)]
  rw [hr, ReadDBC_header_body _ _ (by simp; omega), List.take_append_drop]
  simp only []
  rw [hs, if_pos hmagic]

/-- Claim C9, witness: a stream of 24 bytes starting with "WDBD". -/
theorem ReadDBC_bad_magic_witness :
    ReadDBC [0x57, 0x44, 0x42, 0x44, 1, 0, 0, 0, 1, 0, 0, 0, 4, 0, 0, 0, 0, 0, 0, 0,
        7, 0, 0, 0] = .error (.badMagic 0x44424457) :=
  ReadDBC_bad_magic _ (by decide) (by decide)

/-- Claim C10: for every file, also one whose header disagrees with its buffers,
`WriteDBC` emits the five header values as 4-byte little-endian words in the
order magic, record count, field count, record size, string-block size, then
`RawRecords`, then `StringBlock`, and nothing else: the output has
`20 + len(RawRecords) + len(StringBlock)` bytes.  The last two parts say what a
little-endian word is: its four bytes, lowest first, which read back give the
value as a `uint32`. -/
theorem WriteDBC_layout (f : File) :
    (WriteDBC f).length = 20 + f.RawRecords.length + f.StringBlock.length ∧
    slice (WriteDBC f) 0 4 = putUint32 f.Header.Magic ∧
    slice (WriteDBC f) 4 8 = putUint32 f.Header.RecordCount ∧
    slice (WriteDBC f) 8 12 = putUint32 f.Header.FieldCount ∧
    slice (WriteDBC f) 12 16 = putUint32 f.Header.RecordSize ∧
    slice (WriteDBC f) 16 20 = putUint32 f.Header.StringBlockSize ∧
    slice (WriteDBC f) 20 (20 + f.RawRecords.length) = f.RawRecords ∧
    (WriteDBC f).drop (20 + f.RawRecords.length) = f.StringBlock ∧
    (∀ v, getUint32 (putUint32 v) = v % 2 ^ 32) ∧
    (∀ v, putUint32 v = [Fin.ofNat (v % 256), Fin.ofNat (v / 256 % 256),
      Fin.ofNat (v / 65536 % 256), Fin.ofNat (v / 16777216 % 256)]) := by
  have hw : WriteDBC f = writeHeader f.Header ++ (f.RawRecords ++ f.StringBlock) := by
    unfold WriteDBC; rw [List.append_assoc]
  have hl := writeHeader_length f.Header
  refine ⟨?_, ?_, ?_, ?_, ?_, ?_, ?_, ?_, ?_, fun v => rfl⟩
  · rw [hw]; simp only [List.length_append, hl]; omega
  · rw [hw, slice_append_left _ _ _ _ (by omega)]; rfl
  · rw [hw, slice_append_left _ _ _ _ (by omega)]; rfl
  · rw [hw, slice_append_left _ _ _ _ (by omega)]; rfl
  · rw [hw, slice_append_left _ _ _ _ (by omega)]; rfl
  · rw [hw, slice_append_left _ _ _ _ (by omega)]; rfl
  · rw [hw]; unfold slice
    rw [← hl, List.drop_left, Nat.add_sub_cancel_left, List.take_left]
  · rw [hw, ← hl, ← List.length_append, ← List.append_assoc, List.drop_left]
  · exact getUint32_putUint32

/-! ## `UnmarshalRecords`: errors -/

theorem decodeFields_cons_error (file : File) (i : Nat) (fld : SchemaField) (rest : Schema)
    (e : DbcError) (h : (decodeField file i fld).2 = .error e) :
    decodeFields file i (fld :: rest) = ((decodeField file i fld).1, .error e) := by
  rw [decodeFields]
  rcases hd : decodeField file i fld with ⟨t, r⟩
  rw [hd] at h
  simp only [] at h
  subst h
  rfl

theorem decodeFields_cons_ok (file : File) (i : Nat) (fld : SchemaField) (rest : Schema)
    (v : Value) (h : (decodeField file i fld).2 = .ok v) :
    decodeFields file i (fld :: rest) =
      ((decodeField file i fld).1 ++ (decodeFields file i rest).1,
        match (decodeFields file i rest).2 with
        | .error e => .error e
        | .ok vs => .ok (v :: vs)) := by
  rw [decodeFields]
  rcases hd : decodeField file i fld with ⟨t, r⟩
  rw [hd] at h
  simp only [] at h
  subst h
  rcases hr : decodeFields file i rest with ⟨t2, r2⟩
  cases r2 <;> rfl

/-- A field without error after fields without error: the first failing field
decides the result of the record. -/
theorem decodeFields_append_error (file : File) (i : Nat) (pre : Schema) (fld : SchemaField)
    (post : Schema) (vs : Record) (e : DbcError)
    (hpre : (decodeFields file i pre).2 = .ok vs)
    (hfld : (decodeField file i fld).2 = .error e) :
    decodeFields file i (pre ++ fld :: post) =
      ((decodeFields file i pre).1 ++ (decodeField file i fld).1, .error e) := by
  induction pre generalizing vs with
  | nil =>
    rw [List.nil_append, decodeFields_cons_error _ _ _ _ _ hfld]
    simp [decodeFields]
  | cons p ps ih =>
    rcases hp : (decodeField file i p).2 with e1 | v
    · rw [decodeFields_cons_error _ _ _ _ _ hp] at hpre
      cases hpre
    · rw [decodeFields_cons_ok _ _ _ _ _ hp] at hpre
      simp only [] at hpre
      rcases hps : (decodeFields file i ps).2 with e2 | vs2
      · rw [hps] at hpre; cases hpre
      · rw [List.cons_append, decodeFields_cons_ok _ _ _ _ _ hp, ih vs2 hps,
          decodeFields_cons_ok _ _ _ _ _ hp]
        simp only [List.append_assoc]

theorem decodeRecords_succ_panic (file : File) (schema : Schema) (n i : Nat)
    (hraw : (i + 1) * file.Header.RecordSize > file.RawRecords.length) :
    decodeRecords file schema (n + 1) i = ([], .error .panic) := by
  rw [decodeRecords, if_pos hraw]

theorem decodeRecords_succ_error (file : File) (schema : Schema) (n i : Nat) (e : DbcError)
    (hraw : (i + 1) * file.Header.RecordSize ≤ file.RawRecords.length)
    (h : (decodeFields file i schema).2 = .error e) :
    decodeRecords file schema (n + 1) i = ((decodeFields file i schema).1, .error e) := by
  rw [decodeRecords, if_neg (by omega)]
  rcases hd : decodeFields file i schema with ⟨t, r⟩
  rw [hd] at h
  simp only [] at h
  subst h
  rfl

theorem decodeRecords_succ_ok (file : File) (schema : Schema) (n i : Nat) (r : Record)
    (hraw : (i + 1) * file.Header.RecordSize ≤ file.RawRecords.length)
    (h : (decodeFields file i schema).2 = .ok r) :
    decodeRecords file schema (n + 1) i =
      ((decodeFields file i schema).1 ++ (decodeRecords file schema n (i + 1)).1,
        match (decodeRecords file schema n (i + 1)).2 with
        | .error e => .error e
        | .ok rs => .ok (r :: rs)) := by
  rw [decodeRecords, if_neg (by omega)]
  rcases hd : decodeFields file i schema with ⟨t, r1⟩
  rw [hd] at h
  simp only [] at h
  subst h
  rcases hr : decodeRecords file schema n (i + 1) with ⟨t2, r2⟩
  cases r2 <;> rfl

theorem decodeRecords_first_error (file : File) (schema : Schema) (n : Nat) (e : DbcError)
    (hraw : file.Header.RecordSize ≤ file.RawRecords.length)
    (h : (decodeFields file 0 schema).2 = .error e) :
    decodeRecords file schema (n + 1) 0 = ((decodeFields file 0 schema).1, .error e) :=
  decodeRecords_succ_error file schema n 0 e (by omega) h

theorem UnmarshalRecordsTraced_first_error (file : File) (schema : Schema) (e : DbcError)
    (hcount : 0 < file.Header.RecordCount)
    (hraw : file.Header.RecordSize ≤ file.RawRecords.length)
    (h : (decodeFields file 0 schema).2 = .error e) :
    UnmarshalRecordsTraced file schema = ((decodeFields file 0 schema).1, .error e) := by
  unfold UnmarshalRecordsTraced
  obtain ⟨n, hn⟩ : ∃ n, file.Header.RecordCount = n + 1 := ⟨file.Header.RecordCount - 1, by omega⟩
  rw [hn, decodeRecords_first_error _ _ _ _ hraw h]

theorem parseTag_empty (tag : String) (h : tag.data = []) : parseTag tag = (-1, []) := by
  unfold parseTag; rw [if_pos h]

theorem decodeField_invalid_column (file : File) (i : Nat) (fld : SchemaField)
    (htag : fld.tag.data ≠ [])
    (hcol : (parseTag fld.tag).1 < 0 ∨ (parseTag fld.tag).1 ≥ (file.Header.FieldCount : Int)) :
    decodeField file i fld = ([], .error (.invalidColumn fld.name (parseTag fld.tag).1)) := by
  unfold decodeField
  simp only []
  rw [if_neg htag, if_pos hcol]

/-- Claim C5, as amended: in a container with at least one record whose record block
holds the first record, a mapped field whose column index is negative or not
below the header's field count, coming after fields that decode without error in
the first record, makes `UnmarshalRecords` return the invalid-column error naming
that field and its column index, and no records. -/
theorem UnmarshalRecords_invalid_column (file : File) (pre post : Schema)
    (fld : SchemaField) (vs : Record)
    (hcount : 0 < file.Header.RecordCount)
    (hraw : file.Header.RecordSize ≤ file.RawRecords.length)
    (hpre : (decodeFields file 0 pre).2 = .ok vs)
    (htag : fld.tag ≠ "")
    (hcol : (parseTag fld.tag).1 < 0 ∨ (parseTag fld.tag).1 ≥ (file.Header.FieldCount : Int)) :
    UnmarshalRecords file (pre ++ fld :: post) =
      .error (.invalidColumn fld.name (parseTag fld.tag).1) := by
  have htag2 : fld.tag.data ≠ [] := by
    intro h; apply htag; cases hft : fld.tag; rw [hft] at h; simp only at h; rw [h]
  have hf := decodeField_invalid_column file 0 fld htag2 hcol
  have h2 := decodeFields_append_error file 0 pre fld post vs _ hpre (by rw [hf])
  unfold UnmarshalRecords
  rw [UnmarshalRecordsTraced_first_error file _ _ hcount hraw (by rw [h2])]

/-- Claim C5, witness: one record of one column, the second field mapped to column 1. -/
theorem UnmarshalRecords_invalid_column_witness :
    UnmarshalRecords ⟨⟨MagicWDBC, 1, 1, 4, 1⟩, [7, 0, 0, 0], [0]⟩
      ([⟨"ID", .uint, "column=0,type=uint32"⟩] ++ ⟨"Name", .string, "column=1,type=string"⟩ :: [])
      = .error (.invalidColumn "Name" 1) :=
  UnmarshalRecords_invalid_column ⟨⟨MagicWDBC, 1, 1, 4, 1⟩, [7, 0, 0, 0], [0]⟩
    [⟨"ID", .uint, "column=0,type=uint32"⟩] [] ⟨"Name", .string, "column=1,type=string"⟩
    [.uint 7] (by decide) (by decide) (by decide) (by decide) (by decide)

/-- Claim C5, counterexample: with record count 0 the loop body never runs, so a
schema whose only field is mapped to column -1 decodes without error, to the
empty list of records. -/
theorem UnmarshalRecords_no_records_no_check :
    (parseTag "column=-1,type=uint32").1 < 0 ∧
    UnmarshalRecords ⟨⟨MagicWDBC, 0, 1, 4, 1⟩, [], [0]⟩
      [⟨"ID", .uint, "column=-1,type=uint32"⟩] = .ok [] := by
  decide

theorem decodeField_untagged (file : File) (i : Nat) (fld : SchemaField)
    (htag : fld.tag.data = []) :
    decodeField file i fld = ([], .ok (zeroValue fld.kind)) := by
  unfold decodeField; rw [if_pos htag]

theorem decodeField_out_of_bounds (file : File) (i : Nat) (fld : SchemaField)
    (htag : fld.tag.data ≠ [])
    (hcol : ¬ ((parseTag fld.tag).1 < 0 ∨ (parseTag fld.tag).1 ≥ (file.Header.FieldCount : Int)))
    (hb : 4 * (parseTag fld.tag).1.toNat + 4 > file.Header.RecordSize) :
    decodeField file i fld = ([], .error (.outOfBounds i fld.name)) := by
  unfold decodeField
  simp only []
  rw [if_neg htag, if_neg hcol, if_pos hb]

theorem decodeField_column (file : File) (i : Nat) (fld : SchemaField)
    (htag : fld.tag.data ≠ [])
    (hcol : ¬ ((parseTag fld.tag).1 < 0 ∨ (parseTag fld.tag).1 ≥ (file.Header.FieldCount : Int)))
    (hb : ¬ 4 * (parseTag fld.tag).1.toNat + 4 > file.Header.RecordSize) :
    decodeField file i fld =
      decodeColumn file i fld (parseTag fld.tag).1.toNat (parseTag fld.tag).2 := by
  unfold decodeField
  simp only []
  rw [if_neg htag, if_neg hcol, if_neg hb]

theorem decodeField_mask_nonzero (file : File) (i : Nat) (fld : SchemaField)
    (hraw : file.RawRecords.length = file.Header.RecordCount * file.Header.RecordSize)
    (hsize : file.Header.RecordSize = 4 * file.Header.FieldCount)
    (hi : i < file.Header.RecordCount)
    (hloc : classify (toLower (parseTag fld.tag).2) = .locstring)
    (hcol0 : 0 ≤ (parseTag fld.tag).1)
    (hcol : (parseTag fld.tag).1 + 1 < (file.Header.FieldCount : Int))
    (hmask : getUint32 (slice file.RawRecords
        (i * file.Header.RecordSize + 4 * ((parseTag fld.tag).1.toNat + 1))
        (i * file.Header.RecordSize + 4 * ((parseTag fld.tag).1.toNat + 1) + 4)) ≠ 0) :
    (decodeField file i fld).2 = .error (.maskNotZero (getUint32 (slice file.RawRecords
        (i * file.Header.RecordSize + 4 * ((parseTag fld.tag).1.toNat + 1))
        (i * file.Header.RecordSize + 4 * ((parseTag fld.tag).1.toNat + 1) + 4))) fld.name) := by
  have htag : fld.tag.data ≠ [] := by
    intro h; rw [parseTag_empty _ h] at hcol0; simp at hcol0
  have hle : (i + 1) * file.Header.RecordSize ≤
      file.Header.RecordCount * file.Header.RecordSize := Nat.mul_le_mul_right _ hi
  have hmul : (i + 1) * file.Header.RecordSize
      = i * file.Header.RecordSize + file.Header.RecordSize := by ring
  rw [decodeField_column _ _ _ htag (by omega) (by omega)]
  unfold decodeColumn
  simp only []
  rw [hloc]
  simp only []
  rw [if_neg (by omega), if_neg (by omega), if_pos hmask]

theorem decodeFields_mem_error (file : File) (i : Nat) (schema : Schema) (fld : SchemaField)
    (e : DbcError) (hmem : fld ∈ schema) (hfld : (decodeField file i fld).2 = .error e) :
    ∃ e2, (decodeFields file i schema).2 = .error e2 := by
  induction schema with
  | nil => simp at hmem
  | cons p ps ih =>
    rcases hp : (decodeField file i p).2 with e1 | v
    · exact ⟨e1, by rw [decodeFields_cons_error _ _ _ _ _ hp]⟩
    · have hne : fld ≠ p := by
        intro h; rw [h, hp] at hfld; cases hfld
      have hin : fld ∈ ps := by
        rcases List.mem_cons.mp hmem with h | h
        · exact absurd h hne
        · exact h
      obtain ⟨e2, he2⟩ := ih hin
      exact ⟨e2, by rw [decodeFields_cons_ok _ _ _ _ _ hp, he2]⟩

theorem decodeRecords_error_at (file : File) (schema : Schema) (i : Nat) (e : DbcError)
    (herr : (decodeFields file i schema).2 = .error e) :
    ∀ (n i0 : Nat), i0 ≤ i → i < i0 + n →
      ∃ e2, (decodeRecords file schema n i0).2 = .error e2 := by
  intro n
  induction n with
  | zero => intro i0 h1 h2; omega
  | succ n ih =>
    intro i0 h1 h2
    by_cases hp : (i0 + 1) * file.Header.RecordSize > file.RawRecords.length
    · exact ⟨_, by rw [decodeRecords_succ_panic _ _ _ _ hp]⟩
    · rcases hd : (decodeFields file i0 schema).2 with e1 | r
      · exact ⟨e1, by rw [decodeRecords_succ_error _ _ _ _ _ (by omega) hd]⟩
      · have hne : i0 ≠ i := by
          intro h; rw [h, herr] at hd; cases hd
        obtain ⟨e2, he2⟩ := ih (i0 + 1) (by omega) (by omega)
        exact ⟨e2, by rw [decodeRecords_succ_ok _ _ _ _ _ (by omega) hd, he2]⟩

theorem decodeColumn_no_panic (file : File) (i : Nat) (fld : SchemaField)
    (hraw : file.RawRecords.length = file.Header.RecordCount * file.Header.RecordSize)
    (hsize : file.Header.RecordSize = 4 * file.Header.FieldCount)
    (hi : i < file.Header.RecordCount) (hk : KindFits fld) :
    (decodeColumn file i fld (parseTag fld.tag).1.toNat (parseTag fld.tag).2).2
      ≠ .error .panic := by
  have hle : (i + 1) * file.Header.RecordSize ≤
      file.Header.RecordCount * file.Header.RecordSize := Nat.mul_le_mul_right _ hi
  have hmul : (i + 1) * file.Header.RecordSize
      = i * file.Header.RecordSize + file.Header.RecordSize := by ring
  unfold KindFits at hk
  unfold decodeColumn
  simp only []
  cases hc : classify (toLower (parseTag fld.tag).2) <;> rw [hc] at hk <;> simp only [] at hk ⊢
  case locstring =>
    split_ifs with h1 h2 h3
    · simp
    · exfalso; omega
    · simp
    · simp [setString, hk]
  all_goals simp [setInt, setUint, setFloat, setString, hk]

theorem decodeField_no_panic (file : File) (i : Nat) (fld : SchemaField)
    (hraw : file.RawRecords.length = file.Header.RecordCount * file.Header.RecordSize)
    (hsize : file.Header.RecordSize = 4 * file.Header.FieldCount)
    (hi : i < file.Header.RecordCount) (hk : KindFits fld) :
    (decodeField file i fld).2 ≠ .error .panic := by
  by_cases h1 : fld.tag.data = []
  · rw [decodeField_untagged _ _ _ h1]; simp
  by_cases h2 : (parseTag fld.tag).1 < 0 ∨ (parseTag fld.tag).1 ≥ (file.Header.FieldCount : Int)
  · rw [decodeField_invalid_column _ _ _ h1 h2]; simp
  by_cases h3 : 4 * (parseTag fld.tag).1.toNat + 4 > file.Header.RecordSize
  · rw [decodeField_out_of_bounds _ _ _ h1 h2 h3]; simp
  · rw [decodeField_column _ _ _ h1 h2 h3]
    exact decodeColumn_no_panic file i fld hraw hsize hi hk

theorem decodeFields_no_panic (file : File) (i : Nat) (schema : Schema)
    (hraw : file.RawRecords.length = file.Header.RecordCount * file.Header.RecordSize)
    (hsize : file.Header.RecordSize = 4 * file.Header.FieldCount)
    (hi : i < file.Header.RecordCount) (hk : ∀ fld ∈ schema, KindFits fld) :
    (decodeFields file i schema).2 ≠ .error .panic := by
  induction schema with
  | nil => simp [decodeFields]
  | cons p ps ih =>
    have hp0 := decodeField_no_panic file i p hraw hsize hi (hk p (List.mem_cons_self _ _))
    have ih2 := ih (fun fld hf => hk fld (List.mem_cons_of_mem _ hf))
    rcases hp : (decodeField file i p).2 with e1 | v
    · rw [decodeFields_cons_error _ _ _ _ _ hp]
      rw [hp] at hp0
      simpa using hp0
    · rw [decodeFields_cons_ok _ _ _ _ _ hp]
      simp only []
      rcases hps : (decodeFields file i ps).2 with e2 | vs
      · rw [hps] at ih2; exact ih2
      · simp

theorem decodeRecords_no_panic (file : File) (schema : Schema)
    (hraw : file.RawRecords.length = file.Header.RecordCount * file.Header.RecordSize)
    (hsize : file.Header.RecordSize = 4 * file.Header.FieldCount)
    (hk : ∀ fld ∈ schema, KindFits fld) :
    ∀ (n i0 : Nat), i0 + n = file.Header.RecordCount →
      (decodeRecords file schema n i0).2 ≠ .error .panic := by
  intro n
  induction n with
  | zero => intro i0 _; simp [decodeRecords]
  | succ n ih =>
    intro i0 h
    have hle : (i0 + 1) * file.Header.RecordSize ≤
        file.Header.RecordCount * file.Header.RecordSize :=
      Nat.mul_le_mul_right _ (by omega)
    have h1 := decodeFields_no_panic file i0 schema hraw hsize (by omega) hk
    have h2 := ih (i0 + 1) (by omega)
    rcases hd : (decodeFields file i0 schema).2 with e1 | r
    · rw [decodeRecords_succ_error _ _ _ _ _ (by omega) hd]
      rw [hd] at h1
      simpa using h1
    · rw [decodeRecords_succ_ok _ _ _ _ _ (by omega) hd]
      simp only []
      rcases hr : (decodeRecords file schema n (i0 + 1)).2 with e2 | rs
      · rw [hr] at h2; exact h2
      · simp

/-- Claim C7: in a well-formed container (record block of record count × record size
bytes, record size 4 × field count), if the schema has a locstring field at a
column `c` with `c + 1` below the field count and some record holds a non-zero
little-endian word at column `c + 1`, then `UnmarshalRecords` returns an error
and no records; when moreover every field has the Go kind its type tag needs,
that error is a returned error and not a panic. -/
theorem UnmarshalRecords_mask_enforced (file : File) (schema : Schema) (fld : SchemaField)
    (i : Nat)
    (hraw : file.RawRecords.length = file.Header.RecordCount * file.Header.RecordSize)
    (hsize : file.Header.RecordSize = 4 * file.Header.FieldCount)
    (hmem : fld ∈ schema)
    (hloc : classify (toLower (parseTag fld.tag).2) = .locstring)
    (hcol0 : 0 ≤ (parseTag fld.tag).1)
    (hcol : (parseTag fld.tag).1 + 1 < (file.Header.FieldCount : Int))
    (hi : i < file.Header.RecordCount)
    (hmask : getUint32 (slice file.RawRecords
        (i * file.Header.RecordSize + 4 * ((parseTag fld.tag).1.toNat + 1))
        (i * file.Header.RecordSize + 4 * ((parseTag fld.tag).1.toNat + 1) + 4)) ≠ 0) :
    ∃ e, UnmarshalRecords file schema = .error e ∧
      ((∀ f ∈ schema, KindFits f) → e ≠ .panic) := by
  have h1 := decodeField_mask_nonzero file i fld hraw hsize hi hloc hcol0 hcol hmask
  obtain ⟨e2, h2⟩ := decodeFields_mem_error file i schema fld _ hmem h1
  obtain ⟨e3, h3⟩ := decodeRecords_error_at file schema i e2 h2 file.Header.RecordCount 0
    (by omega) (by omega)
  refine ⟨e3, h3, ?_⟩
  intro hk hp
  have h4 := decodeRecords_no_panic file schema hraw hsize hk file.Header.RecordCount 0
    (by omega)
  rw [h3, hp] at h4
  exact h4 rfl

/-- Claim C7, witness: two records, the mask word of the second is 512. -/
theorem UnmarshalRecords_mask_enforced_witness :
    ∃ e, UnmarshalRecords
        ⟨⟨MagicWDBC, 2, 2, 8, 3⟩, [1, 0, 0, 0, 0, 0, 0, 0, 1, 0, 0, 0, 0, 2, 0, 0], [0, 65, 0]⟩
        [⟨"Name", .string, "column=0,type=locstring"⟩] = .error e ∧ e ≠ .panic :=
  (UnmarshalRecords_mask_enforced
    ⟨⟨MagicWDBC, 2, 2, 8, 3⟩, [1, 0, 0, 0, 0, 0, 0, 0, 1, 0, 0, 0, 0, 2, 0, 0], [0, 65, 0]⟩
    [⟨"Name", .string, "column=0,type=locstring"⟩] ⟨"Name", .string, "column=0,type=locstring"⟩
    1 (by decide) (by decide) (by decide) (by decide) (by decide) (by decide) (by decide)
    (by decide)).imp (fun _ h => ⟨h.1, h.2 (by decide)⟩)

/-! ## `MarshalRecords`: the record block -/

theorem slice_length (b : List Byte) (lo hi : Nat) (h : hi ≤ b.length) :
    (slice b lo hi).length = hi - lo := by
  unfold slice
  rw [List.length_take, List.length_drop]
  omega

theorem writeUint32_ok (st : EncState) (off v : Nat) (h : off + 4 ≤ st.rawRecords.length) :
    writeUint32 st off v =
      .ok { st with rawRecords := st.rawRecords.take off ++ putUint32 v ++ st.rawRecords.drop (off + 4) } := by
  unfold writeUint32; rw [if_pos h]

theorem writeUint32_inv (st st1 : EncState) (off v : Nat)
    (h : writeUint32 st off v = .ok st1) :
    off + 4 ≤ st.rawRecords.length ∧
      st1 = { st with rawRecords := st.rawRecords.take off ++ putUint32 v ++ st.rawRecords.drop (off + 4) } := by
  unfold writeUint32 at h
  split_ifs at h with hb
  · exact ⟨hb, by cases h; rfl⟩

theorem splice_length (raw : List Byte) (off v : Nat) (h : off + 4 ≤ raw.length) :
    (raw.take off ++ putUint32 v ++ raw.drop (off + 4)).length = raw.length := by
  simp only [List.length_append, List.length_take, List.length_drop, putUint32_length]
  omega

theorem splice_slice_self (raw : List Byte) (off v : Nat) (h : off + 4 ≤ raw.length) :
    slice (raw.take off ++ putUint32 v ++ raw.drop (off + 4)) off (off + 4) = putUint32 v := by
  unfold slice
  have h1 : (raw.take off).length = off := by rw [List.length_take]; omega
  rw [List.append_assoc, List.drop_left' h1, Nat.add_sub_cancel_left,
    List.take_left' (putUint32_length v)]

theorem splice_slice_other (raw : List Byte) (off v o : Nat) (h : off + 4 ≤ raw.length)
    (hd : o + 4 ≤ off ∨ off + 4 ≤ o) :
    slice (raw.take off ++ putUint32 v ++ raw.drop (off + 4)) o (o + 4) = slice raw o (o + 4) := by
  have h1 : (raw.take off).length = off := by rw [List.length_take]; omega
  rcases hd with hd | hd
  · rw [List.append_assoc, slice_append_left _ _ _ _ (by omega)]
    unfold slice
    rw [List.drop_take, List.take_take]
    congr 1
    omega

  · unfold slice
    have h2 : (raw.take off ++ putUint32 v).length = off + 4 := by
      rw [List.length_append, h1, putUint32_length]
    rw [List.drop_append_eq_append_drop, List.drop_eq_nil_of_le (by omega), List.nil_append,
      h2, List.drop_drop]
    congr 2
    omega

theorem cell_write_self (st st1 : EncState) (off k v : Nat) (hoff : off = 4 * k)
    (h : writeUint32 st off v = .ok st1) : cell st1.rawRecords k = putUint32 v := by
  subst hoff
  obtain ⟨hb, rfl⟩ := writeUint32_inv _ _ _ _ h
  exact splice_slice_self _ _ _ hb

theorem cell_write_other (st st1 : EncState) (off k j v : Nat) (hoff : off = 4 * k)
    (h : writeUint32 st off v = .ok st1) (hne : j ≠ k) :
    cell st1.rawRecords j = cell st.rawRecords j := by
  subst hoff
  obtain ⟨hb, rfl⟩ := writeUint32_inv _ _ _ _ h
  exact splice_slice_other _ _ _ _ hb (by omega)

theorem writeUint32_fields (st st1 : EncState) (off v : Nat)
    (h : writeUint32 st off v = .ok st1) :
    st1.rawRecords.length = st.rawRecords.length ∧ st1.strPool = st.strPool ∧ st1.strBlock = st.strBlock := by
  obtain ⟨hb, rfl⟩ := writeUint32_inv _ _ _ _ h
  exact ⟨splice_length _ _ _ hb, rfl, rfl⟩

/-! ## `MarshalRecords`: `int` arithmetic -/

theorem wrapInt64_of_range (x : Int) (h0 : - 2 ^ 63 ≤ x) (h1 : x < 2 ^ 63) : wrapInt64 x = x := by
  unfold wrapInt64
  rw [Int.emod_eq_of_lt (by omega) (by omega)]
  omega

theorem blockInt_nonneg (rs x : Int) (h : 0 ≤ rs) : blockInt rs x = x := by
  unfold blockInt; rw [if_neg (by omega)]

theorem writeUint32At_inv (st st1 : EncState) (off : Int) (v : Nat)
    (h : writeUint32At st off v = .ok st1) :
    ∃ k : Nat, (k : Int) = off ∧ writeUint32 st k v = .ok st1 := by
  unfold writeUint32At at h
  split_ifs at h with hb
  exact ⟨off.toNat, Int.toNat_of_nonneg (by omega), h⟩

theorem writeUint32At_ofNat (st : EncState) (k v : Nat) :
    writeUint32At st (k : Int) v = writeUint32 st k v := by
  unfold writeUint32At
  rw [if_neg (by omega), Int.toNat_ofNat]

/-- The ways a call of `encodeField` can succeed, whatever the offsets are. -/
theorem encodeField_inv (fc rs recOff : Int) (st st2 : EncState) (fld : SchemaField)
    (v : Value) (h : encodeField fc rs recOff st fld v = .ok st2) :
    ((parseTag fld.tag).1 < 0 ∧ st2 = st) ∨
    (0 ≤ (parseTag fld.tag).1 ∧ ∃ off : Nat,
      (off : Int) = blockInt rs (recOff + wrapInt64 ((parseTag fld.tag).1 * 4)) ∧
      ((∃ x, fld.colType = .int32 ∧ v = .int x ∧
          writeUint32 st off (x % 2 ^ 32).toNat = .ok st2) ∨
       (∃ x, fld.colType = .uint32 ∧ v = .uint x ∧
          writeUint32 st off (x % 2 ^ 32) = .ok st2) ∨
       (∃ b, fld.colType = .float32 ∧ v = .float b ∧
          writeUint32 st off (float32ToBits (float32ViaFloat64 b)) = .ok st2) ∨
       (fld.colType = .string ∧
          writeUint32 (putString st (valueString v)).1 off
            (putString st (valueString v)).2 = .ok st2) ∨
       (∃ (st1 : EncState) (off2 : Nat), fld.colType = .locstring ∧
          writeUint32 (putString st (valueString v)).1 off
            (putString st (valueString v)).2 = .ok st1 ∧
          wrapInt64 ((parseTag fld.tag).1 + 1) < fc ∧
          (off2 : Int) =
            blockInt rs (recOff + wrapInt64 (wrapInt64 ((parseTag fld.tag).1 + 1) * 4)) ∧
          writeUint32 st1 off2 0 = .ok st2))) := by
  unfold encodeField at h
  simp only [] at h
  by_cases hc : (parseTag fld.tag).1 < 0
  · rw [if_pos hc] at h
    left
    exact ⟨hc, by cases h; rfl⟩
  · rw [if_neg hc] at h
    right
    refine ⟨by omega, ?_⟩
    unfold SchemaField.colType
    cases hk : classify (toLower (parseTag fld.tag).2) with
    | int32 =>
      rw [hk] at h; simp only [] at h
      cases v <;> simp only [reduceCtorEq] at h
      obtain ⟨k, hk1, hk2⟩ := writeUint32At_inv _ _ _ _ h
      exact ⟨k, hk1, Or.inl ⟨_, rfl, rfl, hk2⟩⟩
    | uint32 =>
      rw [hk] at h; simp only [] at h
      cases v <;> simp only [reduceCtorEq] at h
      obtain ⟨k, hk1, hk2⟩ := writeUint32At_inv _ _ _ _ h
      exact ⟨k, hk1, Or.inr (Or.inl ⟨_, rfl, rfl, hk2⟩)⟩
    | float32 =>
      rw [hk] at h; simp only [] at h
      cases v <;> simp only [reduceCtorEq] at h
      obtain ⟨k, hk1, hk2⟩ := writeUint32At_inv _ _ _ _ h
      exact ⟨k, hk1, Or.inr (Or.inr (Or.inl ⟨_, rfl, rfl, hk2⟩))⟩
    | string =>
      rw [hk] at h; simp only [] at h
      obtain ⟨k, hk1, hk2⟩ := writeUint32At_inv _ _ _ _ h
      exact ⟨k, hk1, Or.inr (Or.inr (Or.inr (Or.inl ⟨rfl, hk2⟩)))⟩
    | locstring =>
      rw [hk] at h; simp only [] at h
      rcases hw : writeUint32At (putString st (valueString v)).1
        (blockInt rs (recOff + wrapInt64 ((parseTag fld.tag).1 * 4)))
        (putString st (valueString v)).2 with e | st1
      · rw [hw] at h; simp only [reduceCtorEq] at h
      · rw [hw] at h
        simp only [] at h
        split_ifs at h with hm
        obtain ⟨k, hk1, hk2⟩ := writeUint32At_inv _ _ _ _ hw
        obtain ⟨k2, hk3, hk4⟩ := writeUint32At_inv _ _ _ _ h
        exact ⟨k, hk1, Or.inr (Or.inr (Or.inr (Or.inr
          ⟨st1, k2, rfl, hk2, by omega, hk3, hk4⟩)))⟩
    | float64 => rw [hk] at h; simp only [reduceCtorEq] at h
    | unknown => rw [hk] at h; simp only [reduceCtorEq] at h

/-- The ways a call of `encodeField` can succeed in a record block whose record
size is not negative, for a field whose column index is small enough for the
offsets of its column and the next one not to wrap: the offsets are those of the
cells. -/
theorem encodeField_inv_small (fc k0 : Nat) (rs : Int) (st st2 : EncState)
    (fld : SchemaField) (v : Value) (hrs : 0 ≤ rs)
    (hsm : (parseTag fld.tag).1 + 1 < 2 ^ 61)
    (h : encodeField (fc : Int) rs ((4 * k0 : Nat) : Int) st fld v = .ok st2) :
    ((parseTag fld.tag).1 < 0 ∧ st2 = st) ∨
    (0 ≤ (parseTag fld.tag).1 ∧
      ((∃ x, fld.colType = .int32 ∧ v = .int x ∧
          writeUint32 st (4 * k0 + fld.col * 4) (x % 2 ^ 32).toNat = .ok st2) ∨
       (∃ x, fld.colType = .uint32 ∧ v = .uint x ∧
          writeUint32 st (4 * k0 + fld.col * 4) (x % 2 ^ 32) = .ok st2) ∨
       (∃ b, fld.colType = .float32 ∧ v = .float b ∧
          writeUint32 st (4 * k0 + fld.col * 4) (float32ToBits (float32ViaFloat64 b))
            = .ok st2) ∨
       (fld.colType = .string ∧
          writeUint32 (putString st (valueString v)).1 (4 * k0 + fld.col * 4)
            (putString st (valueString v)).2 = .ok st2) ∨
       (∃ st1, fld.colType = .locstring ∧
          writeUint32 (putString st (valueString v)).1 (4 * k0 + fld.col * 4)
            (putString st (valueString v)).2 = .ok st1 ∧
          fld.col + 1 < fc ∧
          writeUint32 st1 (4 * k0 + (fld.col + 1) * 4) 0 = .ok st2))) := by
  rcases encodeField_inv _ _ _ _ _ _ _ h with h1 | ⟨hc, off, hoff, hcase⟩
  · exact Or.inl h1
  · refine Or.inr ⟨hc, ?_⟩
    have hcol : ((fld.col : Nat) : Int) = (parseTag fld.tag).1 := by
      unfold SchemaField.col; exact Int.toNat_of_nonneg hc
    have hw1 : wrapInt64 ((parseTag fld.tag).1 * 4) = (parseTag fld.tag).1 * 4 :=
      wrapInt64_of_range _ (by omega) (by omega)
    have hw2 : wrapInt64 ((parseTag fld.tag).1 + 1) = (parseTag fld.tag).1 + 1 :=
      wrapInt64_of_range _ (by omega) (by omega)
    have hw3 : wrapInt64 (((parseTag fld.tag).1 + 1) * 4) = ((parseTag fld.tag).1 + 1) * 4 :=
      wrapInt64_of_range _ (by omega) (by omega)
    rw [blockInt_nonneg _ _ hrs, hw1] at hoff
    have hoffn : off = 4 * k0 + fld.col * 4 := by
      have : (off : Int) = ((4 * k0 + fld.col * 4 : Nat) : Int) := by
        rw [hoff]; push_cast; rw [hcol]
      exact_mod_cast this
    subst hoffn
    rcases hcase with h2 | h2 | h2 | h2 | ⟨st1, off2, ht, hw, hm, hoff2, hwm⟩
    · exact Or.inl h2
    · exact Or.inr (Or.inl h2)
    · exact Or.inr (Or.inr (Or.inl h2))
    · exact Or.inr (Or.inr (Or.inr (Or.inl h2)))
    · rw [blockInt_nonneg _ _ hrs, hw2, hw3] at hoff2
      rw [hw2] at hm
      have hoffn2 : off2 = 4 * k0 + (fld.col + 1) * 4 := by
        have : (off2 : Int) = ((4 * k0 + (fld.col + 1) * 4 : Nat) : Int) := by
          rw [hoff2]; push_cast; rw [hcol]
        exact_mod_cast this
      subst hoffn2
      refine Or.inr (Or.inr (Or.inr (Or.inr ⟨st1, ht, hw, ?_, hwm⟩)))
      have : ((fld.col + 1 : Nat) : Int) < (fc : Int) := by push_cast; rw [hcol]; exact hm
      exact_mod_cast this

/-! ## `MarshalRecords`: the string pool -/

theorem putString_raw (st : EncState) (s : List Byte) : (putString st s).1.rawRecords = st.rawRecords := by
  unfold putString; split <;> rfl

theorem putString_intern (st : EncState) (s : List Byte) :
    ((putString st s).1.strPool, (putString st s).1.strBlock) =
      internString (st.strPool, st.strBlock) s := by
  unfold putString internString
  simp only []
  split <;> rfl

theorem putString_offset (st : EncState) (s : List Byte) :
    poolGet (putString st s).1.strPool s = some (putString st s).2 := by
  unfold putString
  split
  · assumption
  · simp [poolGet]

theorem internString_mono (p : List (List Byte × Nat) × List Byte) (s t : List Byte)
    (off : Nat) (h : poolGet p.1 t = some off) :
    poolGet (internString p s).1 t = some off := by
  unfold internString
  split
  · exact h
  · rename_i hn
    simp only [poolGet]
    split_ifs with he
    · subst he; rw [hn] at h; cases h
    · exact h

theorem internStrings_mono (strs : List (List Byte)) :
    ∀ (p : List (List Byte × Nat) × List Byte) (t : List Byte) (off : Nat),
      poolGet p.1 t = some off → poolGet (internStrings p strs).1 t = some off := by
  induction strs with
  | nil => intro p t off h; exact h
  | cons s rest ih =>
    intro p t off h
    exact ih _ t off (internString_mono p s t off h)

theorem internStrings_append (p : List (List Byte × Nat) × List Byte)
    (a b : List (List Byte)) :
    internStrings p (a ++ b) = internStrings (internStrings p a) b := by
  unfold internStrings; rw [List.foldl_append]

theorem internString_poolOK (p : List (List Byte × Nat) × List Byte) (s : List Byte)
    (h : PoolOK p) : PoolOK (internString p s) := by
  unfold internString
  split
  · exact h
  · rename_i hn
    intro t off ht
    simp only [poolGet] at ht
    split_ifs at ht with he
    · subst he
      cases ht
      exact ⟨p.2, [], by simp, rfl⟩
    · obtain ⟨pre, post, hb, ho⟩ := h t off ht
      exact ⟨pre, post ++ s ++ [0], by simp only [];rw [hb]; simp, ho⟩

theorem internStrings_poolOK (strs : List (List Byte)) :
    ∀ (p : List (List Byte × Nat) × List Byte), PoolOK p → PoolOK (internStrings p strs) := by
  induction strs with
  | nil => intro p h; exact h
  | cons s rest ih => intro p h; exact ih _ (internString_poolOK p s h)

theorem poolOK_initial : PoolOK ([([], 0)], [0]) := by
  intro s off h
  simp only [poolGet] at h
  split_ifs at h with he
  · cases h; subst he; exact ⟨[], [], rfl, rfl⟩

theorem poolDomain_initial : PoolDomain [([], 0)] [] := by
  intro s
  simp only [poolGet]
  split_ifs with he
  · simp [he.symm]
  · simp; exact fun h => he h.symm

theorem internString_domain (p : List (List Byte × Nat) × List Byte) (s : List Byte)
    (seen : List (List Byte)) (h : PoolDomain p.1 seen) :
    PoolDomain (internString p s).1 (s :: seen) ∧
      (internString p s).2 = p.2 ++ nulTerminated (firstAppearances seen [s]) := by
  unfold internString
  split
  · rename_i off hs
    have hin : s = [] ∨ s ∈ seen := (h s).mp (by rw [hs]; simp)
    constructor
    · intro t
      rw [h t]
      simp only [List.mem_cons]
      constructor
      · rintro (h1 | h1)
        · exact Or.inl h1
        · exact Or.inr (Or.inr h1)
      · rintro (h1 | h1 | h1)
        · exact Or.inl h1
        · rw [h1]; exact hin
        · exact Or.inr h1
    · simp [firstAppearances, hin, nulTerminated]
  · rename_i hn
    have hnin : ¬ (s = [] ∨ s ∈ seen) := by
      intro hc; exact ((h s).mpr hc) hn
    constructor
    · intro t
      simp only [poolGet, List.mem_cons]
      split_ifs with he
      · simp [he]
      · rw [h t]
        constructor
        · rintro (h1 | h1)
          · exact Or.inl h1
          · exact Or.inr (Or.inr h1)
        · rintro (h1 | h1 | h1)
          · exact Or.inl h1
          · exact absurd h1.symm he
          · exact Or.inr h1
    · simp [firstAppearances, hnin, nulTerminated]

theorem internStrings_domain (strs : List (List Byte)) :
    ∀ (p : List (List Byte × Nat) × List Byte) (seen : List (List Byte)),
      PoolDomain p.1 seen →
      PoolDomain (internStrings p strs).1 (strs.reverse ++ seen) ∧
        (internStrings p strs).2 = p.2 ++ nulTerminated (firstAppearances seen strs) := by
  induction strs with
  | nil =>
    intro p seen h
    exact ⟨by simpa using h, by simp [internStrings, firstAppearances, nulTerminated]⟩
  | cons s rest ih =>
    intro p seen h
    have hstep : internStrings p (s :: rest) = internStrings (internString p s) rest := rfl
    rw [hstep]
    by_cases hin : s = [] ∨ s ∈ seen
    · have hp : internString p s = p := by
        unfold internString
        have : poolGet p.1 s ≠ none := (h s).mpr hin
        split
        · rfl
        · rename_i hn; exact absurd hn this
      rw [hp]
      obtain ⟨h1, h2⟩ := ih p seen h
      refine ⟨?_, ?_⟩
      · intro t
        rw [h1 t]
        simp only [List.mem_append, List.mem_reverse, List.mem_cons]
        constructor
        · rintro (h3 | h3 | h3)
          · exact Or.inl h3
          · exact Or.inr (Or.inl (Or.inr h3))
          · exact Or.inr (Or.inr h3)
        · rintro (h3 | (h3 | h3) | h3)
          · exact Or.inl h3
          · rw [h3]
            rcases hin with h4 | h4
            · exact Or.inl h4
            · exact Or.inr (Or.inr h4)
          · exact Or.inr (Or.inl h3)
          · exact Or.inr (Or.inr h3)
      · rw [h2]
        simp only [firstAppearances, if_pos hin]
    · obtain ⟨h0, hb⟩ := internString_domain p s seen h
      obtain ⟨h1, h2⟩ := ih (internString p s) (s :: seen) h0
      refine ⟨?_, ?_⟩
      · simpa using h1
      · rw [h2, hb]
        simp only [firstAppearances, if_neg hin, nulTerminated, List.flatMap_cons,
          List.flatMap_nil, List.append_nil, List.append_assoc]

/-- The string block after interning a list of strings into the initial pool. -/
theorem internStrings_initial_block (strs : List (List Byte)) :
    (internStrings ([([], 0)], [0]) strs).2 = internedBlock strs := by
  obtain ⟨_, h⟩ := internStrings_domain strs ([([], 0)], [0]) [] poolDomain_initial
  rw [h]; rfl

theorem encodeField_pool (fc rs recOff : Int) (st st2 : EncState) (fld : SchemaField)
    (v : Value) (h : encodeField fc rs recOff st fld v = .ok st2) :
    (st2.strPool, st2.strBlock) = internStrings (st.strPool, st.strBlock) (fieldStrings fld v) ∧
      st2.rawRecords.length = st.rawRecords.length := by
  rcases encodeField_inv _ _ _ _ _ _ _ h with ⟨hc, rfl⟩ | ⟨hc, off, _, hcase⟩
  · simp [fieldStrings, hc, internStrings]
  · have hc2 : ¬ (parseTag fld.tag).1 < 0 := by omega
    rcases hcase with ⟨x, ht, rfl, hw⟩ | ⟨x, ht, rfl, hw⟩ | ⟨x, ht, rfl, hw⟩ |
      ⟨ht, hw⟩ | ⟨st1, off2, ht, hw, _, _, hw2⟩
    · obtain ⟨h1, h2, h3⟩ := writeUint32_fields _ _ _ _ hw
      simp [fieldStrings, hc2, ht, internStrings, h1, h2, h3]
    · obtain ⟨h1, h2, h3⟩ := writeUint32_fields _ _ _ _ hw
      simp [fieldStrings, hc2, ht, internStrings, h1, h2, h3]
    · obtain ⟨h1, h2, h3⟩ := writeUint32_fields _ _ _ _ hw
      simp [fieldStrings, hc2, ht, internStrings, h1, h2, h3]
    · obtain ⟨h1, h2, h3⟩ := writeUint32_fields _ _ _ _ hw
      rw [h1, h2, h3, putString_raw, putString_intern]
      simp [fieldStrings, hc2, ht, internStrings]
    · obtain ⟨h1, h2, h3⟩ := writeUint32_fields _ _ _ _ hw
      obtain ⟨h4, h5, h6⟩ := writeUint32_fields _ _ _ _ hw2
      rw [h4, h5, h6, h1, h2, h3, putString_raw, putString_intern]
      simp [fieldStrings, hc2, ht, internStrings]

theorem encodeFields_pool (fc rs recOff : Int) (schema : Schema) :
    ∀ (st st2 : EncState) (r : Record),
      encodeFields fc rs recOff st schema r = .ok st2 →
      (st2.strPool, st2.strBlock) = internStrings (st.strPool, st.strBlock) (recordStrings schema r) ∧
        st2.rawRecords.length = st.rawRecords.length := by
  induction schema with
  | nil =>
    intro st st2 r h
    rw [encodeFields] at h
    cases h
    simp [recordStrings, internStrings]
  | cons fld flds ih =>
    intro st st2 r h
    cases r with
    | nil => rw [encodeFields] at h; cases h
    | cons v vs =>
      rw [encodeFields] at h
      rcases he : encodeField fc rs recOff st fld v with e | st1
      · rw [he] at h; cases h
      · rw [he] at h
        simp only [] at h
        obtain ⟨h1, h2⟩ := encodeField_pool _ _ _ _ _ _ _ he
        obtain ⟨h3, h4⟩ := ih st1 st2 vs h
        rw [recordStrings, internStrings_append, ← h1, h3, h4, h2]
        exact ⟨rfl, rfl⟩

theorem encodeRecords_pool (schema : Schema) (fc rs : Int) (recs : List Record) :
    ∀ (st st2 : EncState) (i : Nat),
      encodeRecords schema fc rs st i recs = .ok st2 →
      (st2.strPool, st2.strBlock) =
          internStrings (st.strPool, st.strBlock) (writtenStrings schema recs) ∧
        st2.rawRecords.length = st.rawRecords.length := by
  induction recs with
  | nil =>
    intro st st2 i h
    rw [encodeRecords] at h
    cases h
    simp [writtenStrings, internStrings]
  | cons r rest ih =>
    intro st st2 i h
    rw [encodeRecords] at h
    rcases he : encodeFields fc rs (blockInt rs (i * rs)) st schema r with e | st1
    · rw [he] at h; cases h
    · rw [he] at h
      simp only [] at h
      obtain ⟨h1, h2⟩ := encodeFields_pool _ _ _ _ _ _ _ he
      obtain ⟨h3, h4⟩ := ih st1 st2 (i + 1) h
      have hw : writtenStrings schema (r :: rest) =
          recordStrings schema r ++ writtenStrings schema rest := by
        simp [writtenStrings]
      rw [hw, internStrings_append, ← h1, h3, h4, h2]
      exact ⟨rfl, rfl⟩

/-- The ways `MarshalRecords` succeeds: the records are not empty, the length of
the record block is not negative and the loop over the records ends in a state
from which the file is assembled. -/
theorem MarshalRecords_inv (schema : Schema) (recs : List Record) (file : File)
    (h : MarshalRecords schema recs = .ok file) :
    recs ≠ [] ∧
    0 ≤ blockInt (wrapInt64 (wrapInt64 (maxColIndex schema + 1) * 4))
      (recs.length * wrapInt64 (wrapInt64 (maxColIndex schema + 1) * 4)) ∧
    ∃ st,
      encodeRecords schema (wrapInt64 (maxColIndex schema + 1))
        (wrapInt64 (wrapInt64 (maxColIndex schema + 1) * 4))
        { rawRecords := List.replicate
            (blockInt (wrapInt64 (wrapInt64 (maxColIndex schema + 1) * 4))
              (recs.length * wrapInt64 (wrapInt64 (maxColIndex schema + 1) * 4))).toNat 0
          strPool := [([], 0)], strBlock := [0] } 0 recs = .ok st ∧
      file = { Header := { Magic := MagicWDBC, RecordCount := recs.length % 2 ^ 32
                           FieldCount := (wrapInt64 (maxColIndex schema + 1) % 2 ^ 32).toNat
                           RecordSize :=
                             (wrapInt64 (wrapInt64 (maxColIndex schema + 1) * 4) % 2 ^ 32).toNat
                           StringBlockSize := st.strBlock.length % 2 ^ 32 }
               RawRecords := st.rawRecords, StringBlock := st.strBlock } := by
  unfold MarshalRecords at h
  simp only [] at h
  split_ifs at h with h0 h1
  refine ⟨by intro hn; rw [hn] at h0; simp at h0, by omega, ?_⟩
  split at h
  · cases h
  · rename_i st hst
    exact ⟨st, hst, by cases h; rfl⟩

/-- The string block produced by a successful call is the interned block of the
strings written. -/
theorem MarshalRecords_stringBlock (schema : Schema) (recs : List Record) (file : File)
    (h : MarshalRecords schema recs = .ok file) :
    file.StringBlock = internedBlock (writtenStrings schema recs) := by
  obtain ⟨_, _, st, hst, rfl⟩ := MarshalRecords_inv _ _ _ h
  obtain ⟨h1, _⟩ := encodeRecords_pool _ _ _ _ _ _ _ hst
  have := congrArg Prod.snd h1
  simp only [] at this
  rw [this, internStrings_initial_block]

theorem foldl_max_ge (l : List SchemaField) :
    ∀ (m : Int), m ≤ l.foldl
        (fun m fld => if (parseTag fld.tag).1 > m then (parseTag fld.tag).1 else m) m ∧
      ∀ fld ∈ l, (parseTag fld.tag).1 ≤ l.foldl
        (fun m fld => if (parseTag fld.tag).1 > m then (parseTag fld.tag).1 else m) m := by
  induction l with
  | nil => intro m; exact ⟨le_refl _, by simp⟩
  | cons f rest ih =>
    intro m
    simp only [List.foldl_cons]
    obtain ⟨h1, h2⟩ := ih (if (parseTag f.tag).1 > m then (parseTag f.tag).1 else m)
    refine ⟨?_, ?_⟩
    · split_ifs at h1 ⊢ with h <;> omega
    · intro fld hf
      rcases List.mem_cons.mp hf with hf | hf
      · rw [hf]
        split_ifs at h1 ⊢ with h <;> omega
      · exact h2 fld hf

theorem maxColIndex_nonneg (schema : Schema) : 0 ≤ maxColIndex schema :=
  (foldl_max_ge schema 0).1

theorem col_le_maxColIndex (schema : Schema) (fld : SchemaField) (h : fld ∈ schema) :
    (parseTag fld.tag).1 ≤ maxColIndex schema :=
  (foldl_max_ge schema 0).2 fld h

/-- The function `MarshalRecords` when four times the field count does not
overflow: the field count is the largest column index plus one, the record
block starts as `count * fieldCount * 4` zero bytes and the offsets are exact. -/
theorem MarshalRecords_small (schema : Schema) (recs : List Record) (hne : recs.length ≠ 0)
    (hsmall : 4 * (maxColIndex schema + 1) < 2 ^ 63) :
    MarshalRecords schema recs =
      match encodeRecords schema (((maxColIndex schema + 1).toNat : Nat) : Int)
        ((((maxColIndex schema + 1).toNat * 4 : Nat)) : Int)
        { rawRecords := List.replicate (recs.length * ((maxColIndex schema + 1).toNat * 4)) 0
          strPool := [([], 0)], strBlock := [0] } 0 recs with
      | .error e => .error e
      | .ok st =>
        .ok { Header := { Magic := MagicWDBC, RecordCount := recs.length % 2 ^ 32
                          FieldCount := (maxColIndex schema + 1).toNat % 2 ^ 32
                          RecordSize := ((maxColIndex schema + 1).toNat * 4) % 2 ^ 32
                          StringBlockSize := st.strBlock.length % 2 ^ 32 }
              RawRecords := st.rawRecords, StringBlock := st.strBlock } := by
  have hmax := maxColIndex_nonneg schema
  have hfc : wrapInt64 (maxColIndex schema + 1) = (((maxColIndex schema + 1).toNat : Nat) : Int) := by
    rw [wrapInt64_of_range _ (by omega) (by omega), Int.toNat_of_nonneg (by omega)]
  have hrs : wrapInt64 ((((maxColIndex schema + 1).toNat : Nat) : Int) * 4) =
      ((((maxColIndex schema + 1).toNat * 4 : Nat)) : Int) := by
    rw [wrapInt64_of_range _ (by omega) (by omega)]; push_cast; rfl
  have hsz : blockInt ((((maxColIndex schema + 1).toNat * 4 : Nat)) : Int)
      (recs.length * ((((maxColIndex schema + 1).toNat * 4 : Nat)) : Int)) =
      ((recs.length * ((maxColIndex schema + 1).toNat * 4) : Nat) : Int) := by
    rw [blockInt_nonneg _ _ (by omega), ← Nat.cast_mul]
  have e1 : ((((maxColIndex schema + 1).toNat : Nat) : Int) % 2 ^ 32).toNat =
      (maxColIndex schema + 1).toNat % 2 ^ 32 := by
    omega
  have e2 : (((((maxColIndex schema + 1).toNat * 4 : Nat)) : Int) % 2 ^ 32).toNat =
      ((maxColIndex schema + 1).toNat * 4) % 2 ^ 32 := by
    omega
  unfold MarshalRecords
  simp only []
  rw [if_neg hne, hfc, hrs, hsz, if_neg (by omega), Int.toNat_ofNat, e1, e2]

/-- The ways `MarshalRecords` succeeds when four times the field count does not
overflow. -/
theorem MarshalRecords_inv_small (schema : Schema) (recs : List Record) (file : File)
    (h : MarshalRecords schema recs = .ok file)
    (hsmall : 4 * (maxColIndex schema + 1) < 2 ^ 63) :
    recs ≠ [] ∧ ∃ st,
      encodeRecords schema (((maxColIndex schema + 1).toNat : Nat) : Int)
        ((((maxColIndex schema + 1).toNat * 4 : Nat)) : Int)
        { rawRecords := List.replicate (recs.length * ((maxColIndex schema + 1).toNat * 4)) 0
          strPool := [([], 0)], strBlock := [0] } 0 recs = .ok st ∧
      file = { Header := { Magic := MagicWDBC, RecordCount := recs.length % 2 ^ 32
                           FieldCount := (maxColIndex schema + 1).toNat % 2 ^ 32
                           RecordSize := ((maxColIndex schema + 1).toNat * 4) % 2 ^ 32
                           StringBlockSize := st.strBlock.length % 2 ^ 32 }
               RawRecords := st.rawRecords, StringBlock := st.strBlock } := by
  have hne : recs ≠ [] := (MarshalRecords_inv _ _ _ h).1
  have hne2 : recs.length ≠ 0 := fun h0 => hne (List.length_eq_zero.mp h0)
  rw [MarshalRecords_small _ _ hne2 hsmall] at h
  refine ⟨hne, ?_⟩
  split at h
  · cases h
  · rename_i st hst
    exact ⟨st, hst, by cases h; rfl⟩

/-! ## `MarshalRecords`: what the record block holds -/

theorem fieldColumns_skipped (fld : SchemaField) (h : (parseTag fld.tag).1 < 0) :
    fieldColumns fld = [] := by
  unfold fieldColumns; rw [if_pos h]

theorem fieldColumns_locstring (fld : SchemaField) (h : 0 ≤ (parseTag fld.tag).1)
    (ht : fld.colType = .locstring) : fieldColumns fld = [fld.col, fld.col + 1] := by
  unfold fieldColumns; rw [if_neg (by omega), if_pos ht]

theorem fieldColumns_plain (fld : SchemaField) (h : 0 ≤ (parseTag fld.tag).1)
    (ht : fld.colType ≠ .locstring) : fieldColumns fld = [fld.col] := by
  unfold fieldColumns; rw [if_neg (by omega), if_neg ht]

theorem col_mem_fieldColumns (fld : SchemaField) (h : 0 ≤ (parseTag fld.tag).1) :
    fld.col ∈ fieldColumns fld := by
  by_cases ht : fld.colType = .locstring
  · rw [fieldColumns_locstring _ h ht]; simp
  · rw [fieldColumns_plain _ h ht]; simp

/-- What a successful `encodeField` leaves in the record block: the cells of the
field, and every other cell as it was. -/
theorem encodeField_cells (fc k0 : Nat) (rs : Int) (st st2 : EncState) (fld : SchemaField)
    (v : Value) (hrs : 0 ≤ rs) (hsm : (parseTag fld.tag).1 + 1 < 2 ^ 61)
    (h : encodeField (fc : Int) rs ((4 * k0 : Nat) : Int) st fld v = .ok st2) :
    FieldCells st2.rawRecords st2.strPool fc k0 fld v ∧
      (∀ k, (∀ d ∈ fieldColumns fld, k ≠ k0 + d) → cell st2.rawRecords k = cell st.rawRecords k) ∧
      (∀ d ∈ fieldColumns fld, d ≠ fld.col → d < fc) := by
  rcases encodeField_inv_small _ _ _ _ _ _ _ hrs hsm h with ⟨hc, rfl⟩ | ⟨hc, hcase⟩
  · exact ⟨Or.inl hc, fun _ _ => rfl, by rw [fieldColumns_skipped _ hc]; simp⟩
  · have hoff : 4 * k0 + fld.col * 4 = 4 * (k0 + fld.col) := by ring
    rcases hcase with ⟨x, ht, rfl, hw⟩ | ⟨x, ht, rfl, hw⟩ | ⟨x, ht, rfl, hw⟩ |
      ⟨ht, hw⟩ | ⟨st1, ht, hw, hm, hw2⟩
    · have hcols := fieldColumns_plain fld hc (by rw [ht]; simp)
      refine ⟨Or.inr ⟨hc, ?_⟩, ?_, by rw [hcols]; simp⟩
      · rw [ht]; exact cell_write_self _ _ _ _ _ hoff hw
      · intro k hk
        exact cell_write_other _ _ _ _ _ _ hoff hw (hk _ (col_mem_fieldColumns fld hc))
    · have hcols := fieldColumns_plain fld hc (by rw [ht]; simp)
      refine ⟨Or.inr ⟨hc, ?_⟩, ?_, by rw [hcols]; simp⟩
      · rw [ht]; exact cell_write_self _ _ _ _ _ hoff hw
      · intro k hk
        exact cell_write_other _ _ _ _ _ _ hoff hw (hk _ (col_mem_fieldColumns fld hc))
    · have hcols := fieldColumns_plain fld hc (by rw [ht]; simp)
      refine ⟨Or.inr ⟨hc, ?_⟩, ?_, by rw [hcols]; simp⟩
      · rw [ht]; exact cell_write_self _ _ _ _ _ hoff hw
      · intro k hk
        exact cell_write_other _ _ _ _ _ _ hoff hw (hk _ (col_mem_fieldColumns fld hc))
    · have hcols := fieldColumns_plain fld hc (by rw [ht]; simp)
      obtain ⟨_, hp, _⟩ := writeUint32_fields _ _ _ _ hw
      refine ⟨Or.inr ⟨hc, ?_⟩, ?_, by rw [hcols]; simp⟩
      · rw [ht]
        exact ⟨_, by rw [hp]; exact putString_offset st (valueString v),
          cell_write_self _ _ _ _ _ hoff hw⟩
      · intro k hk
        rw [cell_write_other _ _ _ _ _ _ hoff hw (hk _ (col_mem_fieldColumns fld hc)),
          putString_raw]
    · have hcols := fieldColumns_locstring fld hc ht
      have hoff2 : 4 * k0 + (fld.col + 1) * 4 = 4 * (k0 + (fld.col + 1)) := by ring
      obtain ⟨_, hp, _⟩ := writeUint32_fields _ _ _ _ hw
      obtain ⟨_, hp2, _⟩ := writeUint32_fields _ _ _ _ hw2
      refine ⟨Or.inr ⟨hc, ?_⟩, ?_, ?_⟩
      · rw [ht]
        refine ⟨_, by rw [hp2, hp]; exact putString_offset st (valueString v), ?_, hm,
          cell_write_self _ _ _ _ _ hoff2 hw2⟩
        rw [cell_write_other _ _ _ _ _ _ hoff2 hw2 (by omega)]
        exact cell_write_self _ _ _ _ _ hoff hw
      · intro k hk
        rw [hcols] at hk
        rw [cell_write_other _ _ _ _ _ _ hoff2 hw2 (hk _ (by simp)),
          cell_write_other _ _ _ _ _ _ hoff hw (hk _ (by simp)), putString_raw]
      · rw [hcols]
        intro d hd hne
        simp only [List.mem_cons, List.mem_singleton, List.not_mem_nil, or_false] at hd
        rcases hd with hd | hd
        · exact absurd hd hne
        · omega

/-- The statement `FieldCells` for a field of type `string`. -/
theorem FieldCells_string (raw : List Byte) (pool : List (List Byte × Nat)) (fc k0 : Nat)
    (fld : SchemaField) (v : Value) (hc : 0 ≤ (parseTag fld.tag).1)
    (ht : fld.colType = .string) :
    FieldCells raw pool fc k0 fld v ↔
      ∃ off, poolGet pool (valueString v) = some off ∧
        cell raw (k0 + fld.col) = putUint32 off := by
  unfold FieldCells
  rw [ht]
  constructor
  · rintro (h | ⟨_, h⟩)
    · omega
    · exact h
  · intro h; exact Or.inr ⟨hc, h⟩

/-- The statement `FieldCells` for a field of type `locstring`. -/
theorem FieldCells_locstring (raw : List Byte) (pool : List (List Byte × Nat)) (fc k0 : Nat)
    (fld : SchemaField) (v : Value) (hc : 0 ≤ (parseTag fld.tag).1)
    (ht : fld.colType = .locstring) :
    FieldCells raw pool fc k0 fld v ↔
      ∃ off, poolGet pool (valueString v) = some off ∧
        cell raw (k0 + fld.col) = putUint32 off ∧
        fld.col + 1 < fc ∧ cell raw (k0 + (fld.col + 1)) = putUint32 0 := by
  unfold FieldCells
  rw [ht]
  constructor
  · rintro (h | ⟨_, h⟩)
    · omega
    · exact h
  · intro h; exact Or.inr ⟨hc, h⟩

/-- The statement `FieldCells` survives changes of the record block outside the
cells of the field and additions to the pool. -/
theorem FieldCells_stable (raw raw2 : List Byte) (pool pool2 : List (List Byte × Nat))
    (fc k0 : Nat) (fld : SchemaField) (v : Value)
    (h : FieldCells raw pool fc k0 fld v)
    (hraw : ∀ d ∈ fieldColumns fld, cell raw2 (k0 + d) = cell raw (k0 + d))
    (hpool : ∀ t off, poolGet pool t = some off → poolGet pool2 t = some off) :
    FieldCells raw2 pool2 fc k0 fld v := by
  by_cases hc : 0 ≤ (parseTag fld.tag).1
  · have h0 := hraw _ (col_mem_fieldColumns fld hc)
    by_cases hs : fld.colType = .string
    · rw [FieldCells_string _ _ _ _ _ _ hc hs] at h ⊢
      obtain ⟨off, h1, h2⟩ := h
      exact ⟨off, hpool _ _ h1, by rw [h0]; exact h2⟩
    · by_cases hl : fld.colType = .locstring
      · rw [FieldCells_locstring _ _ _ _ _ _ hc hl] at h ⊢
        obtain ⟨off, h1, h2, h3, h4⟩ := h
        have h5 := hraw (fld.col + 1) (by rw [fieldColumns_locstring fld hc hl]; simp)
        exact ⟨off, hpool _ _ h1, by rw [h0]; exact h2, h3, by rw [h5]; exact h4⟩
      · rcases h with h | ⟨_, h⟩
        · omega
        · refine Or.inr ⟨hc, ?_⟩
          cases ht : fld.colType <;> cases v <;> rw [ht] at h <;> simp only [] at h ⊢ <;>
            first
            | exact h.elim
            | exact absurd ht hs
            | exact absurd ht hl
            | (rw [h0]; exact h)
  · exact Or.inl (by omega)

theorem RecordCells_stable (raw raw2 : List Byte) (pool pool2 : List (List Byte × Nat))
    (fc k0 : Nat) (schema : Schema) :
    ∀ (r : Record), RecordCells raw pool fc k0 schema r →
      (∀ d ∈ schemaColumns schema, cell raw2 (k0 + d) = cell raw (k0 + d)) →
      (∀ t off, poolGet pool t = some off → poolGet pool2 t = some off) →
      RecordCells raw2 pool2 fc k0 schema r := by
  induction schema with
  | nil => intro r _ _ _; cases r <;> trivial
  | cons fld flds ih =>
    intro r h hraw hpool
    cases r with
    | nil => exact h.elim
    | cons v vs =>
      obtain ⟨h1, h2⟩ := h
      refine ⟨FieldCells_stable _ _ _ _ _ _ _ _ h1 ?_ hpool, ih vs h2 ?_ hpool⟩
      · intro d hd
        exact hraw d (by simp only [schemaColumns, List.flatMap_cons, List.mem_append]
                         exact Or.inl hd)
      · intro d hd
        exact hraw d (by simp only [schemaColumns, List.flatMap_cons, List.mem_append]
                         exact Or.inr hd)

theorem encodeField_pool_mono (fc rs recOff : Int) (st st2 : EncState) (fld : SchemaField)
    (v : Value) (h : encodeField fc rs recOff st fld v = .ok st2) :
    ∀ t off, poolGet st.strPool t = some off → poolGet st2.strPool t = some off := by
  intro t off ht
  obtain ⟨h1, _⟩ := encodeField_pool _ _ _ _ _ _ _ h
  have := congrArg Prod.fst h1
  simp only [] at this
  rw [this]
  exact internStrings_mono _ _ t off ht

theorem encodeFields_pool_mono (fc rs recOff : Int) (schema : Schema) (st st2 : EncState)
    (r : Record) (h : encodeFields fc rs recOff st schema r = .ok st2) :
    ∀ t off, poolGet st.strPool t = some off → poolGet st2.strPool t = some off := by
  intro t off ht
  obtain ⟨h1, _⟩ := encodeFields_pool _ _ _ _ _ _ _ h
  have := congrArg Prod.fst h1
  simp only [] at this
  rw [this]
  exact internStrings_mono _ _ t off ht

theorem encodeRecords_pool_mono (schema : Schema) (fc rs : Int) (recs : List Record)
    (st st2 : EncState) (i : Nat) (h : encodeRecords schema fc rs st i recs = .ok st2) :
    ∀ t off, poolGet st.strPool t = some off → poolGet st2.strPool t = some off := by
  intro t off ht
  obtain ⟨h1, _⟩ := encodeRecords_pool _ _ _ _ _ _ _ h
  have := congrArg Prod.fst h1
  simp only [] at this
  rw [this]
  exact internStrings_mono _ _ t off ht

/-- What a successful pass over the fields of one record leaves in the record
block, when no two fields write the same column. -/
theorem encodeFields_cells (fc k0 : Nat) (rs : Int) (hrs : 0 ≤ rs) (schema : Schema) :
    ∀ (st st2 : EncState) (r : Record),
      encodeFields (fc : Int) rs ((4 * k0 : Nat) : Int) st schema r = .ok st2 →
      (schemaColumns schema).Nodup →
      (∀ fld ∈ schema, (parseTag fld.tag).1 + 1 < 2 ^ 61) →
      RecordCells st2.rawRecords st2.strPool fc k0 schema r ∧
        (∀ k, (∀ d ∈ schemaColumns schema, k ≠ k0 + d) → cell st2.rawRecords k = cell st.rawRecords k) ∧
        (∀ fld ∈ schema, ∀ d ∈ fieldColumns fld, d ≠ fld.col → d < fc) := by
  induction schema with
  | nil =>
    intro st st2 r h _ _
    rw [encodeFields] at h
    cases h
    exact ⟨trivial, fun _ _ => rfl, by simp⟩
  | cons fld flds ih =>
    intro st st2 r h hnd hsm
    cases r with
    | nil => rw [encodeFields] at h; cases h
    | cons v vs =>
      rw [encodeFields] at h
      rcases he : encodeField (fc : Int) rs ((4 * k0 : Nat) : Int) st fld v with e | st1
      · rw [he] at h; cases h
      · rw [he] at h
        simp only [] at h
        have hsc : schemaColumns (fld :: flds) = fieldColumns fld ++ schemaColumns flds := by
          simp [schemaColumns]
        rw [hsc] at hnd
        obtain ⟨hnd1, hnd2, hdisj⟩ := List.nodup_append.mp hnd
        obtain ⟨h1, h2, h3⟩ := encodeField_cells _ _ _ _ _ _ _ hrs
          (hsm fld (List.mem_cons_self _ _)) he
        obtain ⟨h4, h5, h6⟩ := ih st1 st2 vs h hnd2
          (fun f hf => hsm f (List.mem_cons_of_mem _ hf))
        refine ⟨⟨?_, h4⟩, ?_, ?_⟩
        · refine FieldCells_stable _ _ _ _ _ _ _ _ h1 ?_ (encodeFields_pool_mono _ _ _ _ _ _ _ h)
          intro d hd
          apply h5
          intro d2 hd2 heq
          have : d = d2 := by omega
          subst this
          exact hdisj hd hd2
        · intro k hk
          rw [hsc] at hk
          rw [h5 k (fun d hd => hk d (List.mem_append.mpr (Or.inr hd))),
            h2 k (fun d hd => hk d (List.mem_append.mpr (Or.inl hd)))]
        · intro f hf
          rcases List.mem_cons.mp hf with hf | hf
          · rw [hf]; exact h3
          · exact h6 f hf

theorem fieldColumns_nonneg (fld : SchemaField) (d : Nat) (hd : d ∈ fieldColumns fld) :
    0 ≤ (parseTag fld.tag).1 := by
  by_contra hc
  rw [fieldColumns_skipped fld (by omega)] at hd
  simp at hd

theorem mem_schemaColumns (schema : Schema) (d : Nat) :
    d ∈ schemaColumns schema ↔ ∃ fld ∈ schema, d ∈ fieldColumns fld := by
  simp [schemaColumns, List.mem_flatMap]

/-- What a successful pass over the records leaves in the record block, when no
two fields write the same column and every column written is a column of the
record. -/
theorem encodeRecords_cells (schema : Schema) (fc : Nat)
    (hnd : (schemaColumns schema).Nodup)
    (hcol : ∀ fld ∈ schema, 0 ≤ (parseTag fld.tag).1 → fld.col < fc)
    (hsm : ∀ fld ∈ schema, (parseTag fld.tag).1 + 1 < 2 ^ 61) (recs : List Record) :
    ∀ (st st2 : EncState) (i : Nat),
      encodeRecords schema (fc : Int) ((fc * 4 : Nat) : Int) st i recs = .ok st2 →
      (∀ j (hj : j < recs.length),
          RecordCells st2.rawRecords st2.strPool fc ((i + j) * fc) schema recs[j]) ∧
        (∀ k, k < i * fc → cell st2.rawRecords k = cell st.rawRecords k) := by
  induction recs with
  | nil =>
    intro st st2 i h
    rw [encodeRecords] at h
    cases h
    exact ⟨fun j hj => by simp at hj, fun _ _ => rfl⟩
  | cons r rest ih =>
    intro st st2 i h
    rw [encodeRecords] at h
    have hoff : blockInt ((fc * 4 : Nat) : Int) ((i : Int) * ((fc * 4 : Nat) : Int)) =
        ((4 * (i * fc) : Nat) : Int) := by
      rw [blockInt_nonneg _ _ (by omega)]; push_cast; ring
    rw [hoff] at h
    rcases he : encodeFields (fc : Int) ((fc * 4 : Nat) : Int) ((4 * (i * fc) : Nat) : Int)
      st schema r with e | st1
    · rw [he] at h; cases h
    · rw [he] at h
      simp only [] at h
      obtain ⟨h1, h2, h3⟩ := encodeFields_cells _ _ _ (by omega) _ _ _ _ he hnd hsm
      obtain ⟨h4, h5⟩ := ih st1 st2 (i + 1) h
      have hlt : ∀ d ∈ schemaColumns schema, d < fc := by
        intro d hd
        obtain ⟨fld, hf, hdf⟩ := (mem_schemaColumns schema d).mp hd
        by_cases hdc : d = fld.col
        · rw [hdc]; exact hcol fld hf (fieldColumns_nonneg fld d hdf)
        · exact h3 fld hf d hdf hdc
      have hmul : (i + 1) * fc = i * fc + fc := by ring
      refine ⟨?_, ?_⟩
      · intro j hj
        cases j with
        | zero =>
          simp only [List.getElem_cons_zero, Nat.add_zero]
          refine RecordCells_stable _ _ _ _ _ _ _ r h1 ?_
            (encodeRecords_pool_mono _ _ _ _ _ _ _ h)
          intro d hd
          exact h5 _ (by have := hlt d hd; omega)
        | succ j =>
          simp only [List.getElem_cons_succ]
          have := h4 j (by simpa using hj)
          rw [show i + (j + 1) = i + 1 + j by omega]
          exact this
      · intro k hk
        rw [h5 k (by omega), h2 k (by intro d _; omega)]

/-! ## Decoding what `MarshalRecords` wrote -/

theorem takeWhile_nul (s post : List Byte) (h : (0 : Byte) ∉ s) :
    (s ++ 0 :: post).takeWhile (fun b => b ≠ 0) = s := by
  induction s with
  | nil => simp [List.takeWhile]
  | cons b rest ih =>
    have hb : b ≠ 0 := fun hb => h (by rw [hb]; exact List.mem_cons_self _ _)
    have hr : (0 : Byte) ∉ rest := fun hr => h (List.mem_cons_of_mem _ hr)
    rw [List.cons_append, List.takeWhile_cons, if_pos (by simpa using hb), ih hr]

/-- A string without NUL byte followed by a NUL byte is read back by `readCString`
from the offset where it starts, in a block of less than `2^32` bytes. -/
theorem readCString_at (pre s post : List Byte) (h : (0 : Byte) ∉ s)
    (hlen : (pre ++ s ++ 0 :: post).length < 2 ^ 32) :
    readCString (pre ++ s ++ 0 :: post) pre.length = s := by
  unfold readCString
  rw [Nat.mod_eq_of_lt hlen, if_neg (by simp), List.append_assoc, List.drop_left,
    takeWhile_nul s post h]

theorem toInt32_of_int (x : Int) (h1 : - 2 ^ 31 ≤ x) (h2 : x < 2 ^ 31) :
    toInt32 ((x % 2 ^ 32).toNat % 2 ^ 32) = x := by
  unfold toInt32
  have hm : ((x % 2 ^ 32).toNat : Int) = x % 2 ^ 32 :=
    Int.toNat_of_nonneg (Int.emod_nonneg _ (by norm_num))
  split_ifs with h <;> omega

theorem window_eq_cell (raw : List Byte) (i fc c : Nat) :
    slice raw (i * (4 * fc) + 4 * c) (i * (4 * fc) + 4 * c + 4) = cell raw (i * fc + c) := by
  unfold cell
  rw [show i * (4 * fc) + 4 * c = 4 * (i * fc + c) by ring]

theorem float32ViaFloat64_of_quiet (b : Nat) (h : isSignallingNaN b = false) :
    float32ViaFloat64 b = b := by
  unfold float32ViaFloat64; rw [h]; rfl

/-- Decoding a field gives back the value whose cells the record block holds. -/
theorem decodeField_of_cells (file : File) (pool : List (List Byte × Nat)) (fc i : Nat)
    (fld : SchemaField) (v : Value)
    (hfc : file.Header.FieldCount = fc) (hrs : file.Header.RecordSize = 4 * fc)
    (hraw : (i + 1) * (4 * fc) ≤ file.RawRecords.length)
    (hblock : file.StringBlock.length < 2 ^ 32)
    (hpool : PoolOK (pool, file.StringBlock))
    (hcells : FieldCells file.RawRecords pool fc (i * fc) fld v)
    (hkf : KindFits fld)
    (hv : FieldValueOK fld v)
    (hneg : fld.tag.data ≠ [] → 0 ≤ (parseTag fld.tag).1)
    (hcol : 0 ≤ (parseTag fld.tag).1 → fld.col < fc) :
    (decodeField file i fld).2 = .ok v := by
  obtain ⟨hkind, hfit, hzero⟩ := hv
  by_cases htag : fld.tag.data = []
  · rw [decodeField_untagged _ _ _ htag, hzero htag]
  · have hc0 := hneg htag
    have hc1 := hcol hc0
    unfold SchemaField.col at hc1
    rcases hcells with hcells | ⟨_, hcells⟩
    · omega
    · rw [decodeField_column _ _ _ htag (by rw [hfc]; omega) (by rw [hrs]; omega)]
      unfold decodeColumn
      simp only []
      rw [hrs, window_eq_cell, window_eq_cell]
      have hmul : (i + 1) * (4 * fc) = i * (4 * fc) + 4 * fc := by ring
      unfold SchemaField.colType SchemaField.col at hcells
      unfold KindFits at hkf
      cases ht : classify (toLower (parseTag fld.tag).2) <;> cases v <;>
        rw [ht] at hcells hkf <;> simp only [] at hcells hkf ⊢ <;>
        simp only [Value.kind] at hkind <;>
        first
        | exact hcells.elim
        | (rw [hkf] at hkind; exact absurd hkind (by decide))
        | skip
      · rename_i x
        rw [hcells, getUint32_putUint32, toInt32_of_int x hfit.1 hfit.2]
        simp [setInt, ← hkind]
      · rename_i x
        have hx : x < 2 ^ 32 := hfit
        rw [hcells, getUint32_putUint32, Nat.mod_mod, Nat.mod_eq_of_lt hx]
        simp [setUint, ← hkind]
      · rename_i x
        have hx : x < 2 ^ 32 := hfit.1
        rw [hcells, getUint32_putUint32, float32ViaFloat64_of_quiet x hfit.2]
        unfold float32ToBits float32FromBits
        rw [Nat.mod_mod, Nat.mod_eq_of_lt hx]
        simp [setFloat, ← hkind, float32ViaFloat64_of_quiet x hfit.2]
      · rename_i x
        obtain ⟨off, ho, hcell⟩ := hcells
        simp only [valueString] at ho
        obtain ⟨pre, post, hb, hoff⟩ := hpool x off ho
        simp only [] at hb
        have hpl : pre.length < 2 ^ 32 := by
          have := congrArg List.length hb
          simp only [List.length_append, List.length_cons] at this
          omega
        rw [Nat.mod_eq_of_lt hpl] at hoff
        rw [hcell, getUint32_putUint32, hoff, Nat.mod_eq_of_lt hpl, hb,
          readCString_at pre x post hfit (by rw [← hb]; exact hblock)]
        simp [setString, ← hkind]
      · rename_i x
        obtain ⟨off, ho, hcell, hm, hmask⟩ := hcells
        simp only [valueString] at ho
        obtain ⟨pre, post, hb, hoff⟩ := hpool x off ho
        simp only [] at hb
        have hpl : pre.length < 2 ^ 32 := by
          have := congrArg List.length hb
          simp only [List.length_append, List.length_cons] at this
          omega
        rw [Nat.mod_eq_of_lt hpl] at hoff
        rw [if_neg (by rw [hfc]; omega), if_neg (by omega), hmask, hcell,
          getUint32_putUint32, getUint32_putUint32, if_neg (by simp), hoff,
          Nat.mod_eq_of_lt hpl, hb,
          readCString_at pre x post hfit (by rw [← hb]; exact hblock)]
        simp [setString, ← hkind]

theorem decodeFields_of_cells (file : File) (pool : List (List Byte × Nat)) (fc i : Nat)
    (hfc : file.Header.FieldCount = fc) (hrs : file.Header.RecordSize = 4 * fc)
    (hraw : (i + 1) * (4 * fc) ≤ file.RawRecords.length)
    (hblock : file.StringBlock.length < 2 ^ 32)
    (hpool : PoolOK (pool, file.StringBlock)) (schema : Schema) :
    ∀ (r : Record), RecordCells file.RawRecords pool fc (i * fc) schema r →
      (∀ fld ∈ schema, KindFits fld) →
      RecordOK schema r →
      (∀ fld ∈ schema, fld.tag.data ≠ [] → 0 ≤ (parseTag fld.tag).1) →
      (∀ fld ∈ schema, 0 ≤ (parseTag fld.tag).1 → fld.col < fc) →
      (decodeFields file i schema).2 = .ok r := by
  induction schema with
  | nil =>
    intro r _ _ hok _ _
    cases r with
    | nil => rfl
    | cons v vs => exact hok.elim
  | cons fld flds ih =>
    intro r hcells hkf hok hneg hcol
    cases r with
    | nil => exact hok.elim
    | cons v vs =>
      obtain ⟨hc1, hc2⟩ := hcells
      obtain ⟨ho1, ho2⟩ := hok
      have h1 := decodeField_of_cells file pool fc i fld v hfc hrs hraw hblock hpool hc1
        (hkf fld (List.mem_cons_self _ _)) ho1
        (hneg fld (List.mem_cons_self _ _)) (hcol fld (List.mem_cons_self _ _))
      have h2 := ih vs hc2 (fun f hf => hkf f (List.mem_cons_of_mem _ hf)) ho2
        (fun f hf => hneg f (List.mem_cons_of_mem _ hf))
        (fun f hf => hcol f (List.mem_cons_of_mem _ hf))
      rw [decodeFields_cons_ok _ _ _ _ _ h1, h2]

theorem decodeRecords_of_cells (file : File) (pool : List (List Byte × Nat)) (fc : Nat)
    (schema : Schema)
    (hfc : file.Header.FieldCount = fc) (hrs : file.Header.RecordSize = 4 * fc)
    (hblock : file.StringBlock.length < 2 ^ 32)
    (hpool : PoolOK (pool, file.StringBlock))
    (hkf : ∀ fld ∈ schema, KindFits fld)
    (hneg : ∀ fld ∈ schema, fld.tag.data ≠ [] → 0 ≤ (parseTag fld.tag).1)
    (hcol : ∀ fld ∈ schema, 0 ≤ (parseTag fld.tag).1 → fld.col < fc) (recs : List Record) :
    ∀ (i : Nat), (i + recs.length) * (4 * fc) ≤ file.RawRecords.length →
      (∀ j (hj : j < recs.length),
        RecordCells file.RawRecords pool fc ((i + j) * fc) schema recs[j]) →
      (∀ r ∈ recs, RecordOK schema r) →
      (decodeRecords file schema recs.length i).2 = .ok recs := by
  induction recs with
  | nil => intro i _ _ _; rfl
  | cons r rest ih =>
    intro i hraw hcells hok
    have hlen : (r :: rest).length = rest.length + 1 := rfl
    have hmul : (i + (rest.length + 1)) * (4 * fc)
        = (i + 1) * (4 * fc) + rest.length * (4 * fc) := by ring
    have hraw1 : (i + 1) * (4 * fc) ≤ file.RawRecords.length := by
      rw [hlen, hmul] at hraw; omega
    have h0 := hcells 0 (by simp)
    simp only [List.getElem_cons_zero, Nat.add_zero] at h0
    have h1 := decodeFields_of_cells file pool fc i hfc hrs hraw1 hblock hpool schema r h0
      hkf (hok r (List.mem_cons_self _ _)) hneg hcol
    have h2 := ih (i + 1) (by rw [hlen] at hraw; rw [show i + 1 + rest.length
      = i + (rest.length + 1) by omega]; exact hraw)
      (fun j hj => by
        have := hcells (j + 1) (by simpa using hj)
        simp only [List.getElem_cons_succ] at this
        rw [show i + 1 + j = i + (j + 1) by omega]
        exact this)
      (fun r2 hr2 => hok r2 (List.mem_cons_of_mem _ hr2))
    rw [hlen, decodeRecords_succ_ok _ _ _ _ _ (by rw [hrs]; exact hraw1) h1, h2]

/-- The record round trip: a container produced by `MarshalRecords` decodes, with
the same schema, to the records it was made from, when every field has the kind
its type asks for, every mapped field has a column index that is not negative,
no two fields write the same column, the values fit their columns and the sizes
fit in 32 bits. -/
theorem roundtrip_core (schema : Schema) (recs : List Record) (file : File)
    (hm : MarshalRecords schema recs = .ok file)
    (hkf : ∀ fld ∈ schema, KindFits fld)
    (hok : ∀ r ∈ recs, RecordOK schema r)
    (hneg : ∀ fld ∈ schema, fld.tag.data ≠ [] → 0 ≤ (parseTag fld.tag).1)
    (hnd : (schemaColumns schema).Nodup)
    (hcount : recs.length < 2 ^ 32)
    (hsize : 4 * (maxColIndex schema + 1) < 2 ^ 32)
    (hblock : file.StringBlock.length < 2 ^ 32) :
    UnmarshalRecords file schema = .ok recs := by
  obtain ⟨_, st, hst, rfl⟩ := MarshalRecords_inv_small _ _ _ hm (by omega)
  have hmax := maxColIndex_nonneg schema
  have hsm : ∀ fld ∈ schema, (parseTag fld.tag).1 + 1 < 2 ^ 61 := by
    intro fld hf
    have := col_le_maxColIndex schema fld hf
    omega
  generalize hfcdef : (maxColIndex schema + 1).toNat = fc at hst hblock ⊢
  have hfc4 : 4 * fc < 2 ^ 32 := by omega
  have hcol : ∀ fld ∈ schema, 0 ≤ (parseTag fld.tag).1 → fld.col < fc := by
    intro fld hf h0
    have := col_le_maxColIndex schema fld hf
    unfold SchemaField.col
    omega
  obtain ⟨hp1, hlen⟩ := encodeRecords_pool _ _ _ _ _ _ _ hst
  obtain ⟨hcells, _⟩ := encodeRecords_cells schema fc hnd hcol hsm recs _ _ _ hst
  simp only [List.length_replicate] at hlen
  have hpool : PoolOK (st.strPool, st.strBlock) := by
    rw [hp1]; exact internStrings_poolOK _ _ poolOK_initial
  have e1 : fc % 2 ^ 32 = fc := Nat.mod_eq_of_lt (by omega)
  have e2 : fc * 4 % 2 ^ 32 = 4 * fc := by rw [Nat.mod_eq_of_lt (by omega)]; ring
  have e3 : recs.length % 2 ^ 32 = recs.length := Nat.mod_eq_of_lt hcount
  rw [e1, e2, e3]
  simp only [] at hblock
  unfold UnmarshalRecords UnmarshalRecordsTraced
  refine decodeRecords_of_cells _ st.strPool fc schema rfl rfl hblock hpool hkf hneg hcol recs 0
    (by simp only []; rw [hlen]; apply le_of_eq; ring)
    (fun j hj => by simpa using hcells j hj) hok

/-! ## Round trip and interning -/

/-- A float field holding the signalling NaN `7F800001` does not come back: the
conversions through `float64` in `MarshalRecords` write the quiet NaN `7FC00001`,
which is what `UnmarshalRecords` returns. -/
theorem MarshalRecords_quiets_signalling_NaN :
    MarshalRecords [⟨"X", .float, "column=0,type=float"⟩] [[.float 0x7F800001]] =
      .ok ⟨⟨MagicWDBC, 1, 1, 4, 1⟩, [1, 0, 192, 127], [0]⟩ ∧
    UnmarshalRecords ⟨⟨MagicWDBC, 1, 1, 4, 1⟩, [1, 0, 192, 127], [0]⟩
      [⟨"X", .float, "column=0,type=float"⟩] = .ok [[.float 0x7FC00001]] ∧
    UnmarshalRecords ⟨⟨MagicWDBC, 1, 1, 4, 1⟩, [1, 0, 128, 127], [0]⟩
      [⟨"X", .float, "column=0,type=float"⟩] = .ok [[.float 0x7FC00001]] := by
  decide

/-- An unsigned integer field tagged `string`: `MarshalRecords` does not panic, it
interns the text `<uint32 Value>` that `fieldVal.String()` returns and succeeds;
`UnmarshalRecords` on the result panics in `SetString`. -/
theorem MarshalRecords_string_of_uint :
    MarshalRecords [⟨"N", .uint, "column=0,type=string"⟩] [[.uint 7]] =
      .ok ⟨⟨MagicWDBC, 1, 1, 4, 16⟩, [1, 0, 0, 0],
        [0, 0x3c, 0x75, 0x69, 0x6e, 0x74, 0x33, 0x32, 0x20, 0x56, 0x61, 0x6c, 0x75, 0x65,
          0x3e, 0]⟩ ∧
    UnmarshalRecords
      ⟨⟨MagicWDBC, 1, 1, 4, 16⟩, [1, 0, 0, 0],
        [0, 0x3c, 0x75, 0x69, 0x6e, 0x74, 0x33, 0x32, 0x20, 0x56, 0x61, 0x6c, 0x75, 0x65,
          0x3e, 0]⟩
      [⟨"N", .uint, "column=0,type=string"⟩] = .error .panic := by
  decide

theorem firstAppearances_nodup (strs : List (List Byte)) :
    ∀ (seen : List (List Byte)),
      (firstAppearances seen strs).Nodup ∧
        ∀ s ∈ firstAppearances seen strs, s ≠ [] ∧ s ∉ seen ∧ s ∈ strs := by
  induction strs with
  | nil => intro seen; simp [firstAppearances]
  | cons s rest ih =>
    intro seen
    simp only [firstAppearances]
    split_ifs with h
    · obtain ⟨h1, h2⟩ := ih seen
      exact ⟨h1, fun t ht => ⟨(h2 t ht).1, (h2 t ht).2.1, List.mem_cons_of_mem _ (h2 t ht).2.2⟩⟩
    · obtain ⟨h1, h2⟩ := ih (s :: seen)
      push_neg at h
      refine ⟨List.nodup_cons.mpr ⟨fun hs => (h2 s hs).2.1 (List.mem_cons_self _ _), h1⟩, ?_⟩
      intro t ht
      rcases List.mem_cons.mp ht with ht | ht
      · rw [ht]; exact ⟨h.1, h.2, List.mem_cons_self _ _⟩
      · exact ⟨(h2 t ht).1, fun hc => (h2 t ht).2.1 (List.mem_cons_of_mem _ hc),
          List.mem_cons_of_mem _ (h2 t ht).2.2⟩

theorem RecordCells_get (raw : List Byte) (pool : List (List Byte × Nat)) (fc k0 : Nat)
    (schema : Schema) :
    ∀ (r : Record) (p : Nat) (hp : p < schema.length) (hq : p < r.length),
      RecordCells raw pool fc k0 schema r → FieldCells raw pool fc k0 schema[p] r[p] := by
  induction schema with
  | nil => intro r p hp; simp at hp
  | cons fld flds ih =>
    intro r p hp hq h
    cases r with
    | nil => simp at hq
    | cons v vs =>
      cases p with
      | zero => exact h.1
      | succ p =>
        simp only [List.getElem_cons_succ]
        exact ih vs p (by simpa using hp) (by simpa using hq) h.2

/-- Claim C3, as amended: for every successful `MarshalRecords` call the string block is
one NUL byte followed by, for each distinct non-empty string value of the
`string` and `locstring` fields that are not skipped (column index not negative),
in order of first appearance (records in order, fields in schema order), the
bytes of that string and one NUL byte; each such string is there once.  The
string value of a field is `valueString`: the string of a string field, the text
`fieldVal.String()` returns for a field of another kind.  And when no two fields
write the same column and the size of the record block, `n × 4 × (largest
column index + 1)`, is below `2^63`, the cell of every such field in every
record holds an offset that depends on the string value alone and is the
position (as a `uint32`) of a copy of the string followed by NUL in the block. -/
theorem MarshalRecords_interning (schema : Schema) (recs : List Record) (file : File)
    (hm : MarshalRecords schema recs = .ok file) :
    file.StringBlock = internedBlock (writtenStrings schema recs) ∧
    (firstAppearances [] (writtenStrings schema recs)).Nodup ∧
    ((schemaColumns schema).Nodup →
      (recs.length : Int) * (4 * (maxColIndex schema + 1)) < 2 ^ 63 →
      ∃ offsetOf : List Byte → Nat,
        ∀ (j p : Nat) (hj : j < recs.length) (hp : p < schema.length)
          (hq : p < recs[j].length),
          0 ≤ (parseTag schema[p].tag).1 →
          (schema[p].colType = .string ∨ schema[p].colType = .locstring) →
          cell file.RawRecords (j * (maxColIndex schema + 1).toNat + schema[p].col)
              = putUint32 (offsetOf (valueString recs[j][p])) ∧
            ∃ pre post, file.StringBlock = pre ++ valueString recs[j][p] ++ 0 :: post ∧
              offsetOf (valueString recs[j][p]) = pre.length % 2 ^ 32) := by
  refine ⟨MarshalRecords_stringBlock _ _ _ hm, (firstAppearances_nodup _ []).1, ?_⟩
  intro hnd hbound
  have hmax := maxColIndex_nonneg schema
  have hne : recs ≠ [] := (MarshalRecords_inv _ _ _ hm).1
  have hlen : (1 : Int) ≤ (recs.length : Int) := by
    have : 0 < recs.length := List.length_pos.mpr hne
    omega
  have hsmall : 4 * (maxColIndex schema + 1) < 2 ^ 63 := by nlinarith
  obtain ⟨_, st, hst, rfl⟩ := MarshalRecords_inv_small _ _ _ hm hsmall
  have hsm : ∀ fld ∈ schema, (parseTag fld.tag).1 + 1 < 2 ^ 61 := by
    intro fld hf
    have := col_le_maxColIndex schema fld hf
    omega
  have hcol : ∀ fld ∈ schema, 0 ≤ (parseTag fld.tag).1 →
      fld.col < (maxColIndex schema + 1).toNat := by
    intro fld hf h0
    have := col_le_maxColIndex schema fld hf
    unfold SchemaField.col
    omega
  obtain ⟨hp1, _⟩ := encodeRecords_pool _ _ _ _ _ _ _ hst
  obtain ⟨hcells, _⟩ := encodeRecords_cells schema _ hnd hcol hsm recs _ _ _ hst
  have hpool : PoolOK (st.strPool, st.strBlock) := by
    rw [hp1]; exact internStrings_poolOK _ _ poolOK_initial
  refine ⟨fun s => (poolGet st.strPool s).getD 0, ?_⟩
  intro j p hj hp hq hc ht
  have h1 := RecordCells_get _ _ _ _ schema recs[j] p hp hq (hcells j hj)
  simp only [Nat.zero_add] at h1
  rcases ht with ht | ht
  · obtain ⟨off, ho, hcell⟩ := (FieldCells_string _ _ _ _ _ _ hc ht).mp h1
    obtain ⟨pre, post, hb, hoff⟩ := hpool _ off ho
    simp only [ho, Option.getD_some]
    exact ⟨hcell, pre, post, hb, hoff⟩
  · obtain ⟨off, ho, hcell, _, _⟩ := (FieldCells_locstring _ _ _ _ _ _ hc ht).mp h1
    obtain ⟨pre, post, hb, hoff⟩ := hpool _ off ho
    simp only [ho, Option.getD_some]
    exact ⟨hcell, pre, post, hb, hoff⟩

/-- Claim C3, witness: the two records "A" and "A" give the block 00 41 00, and the
cell of the field holds the same offset in both records. -/
theorem MarshalRecords_interning_witness :
    MarshalRecords nameSchema twoNames = .ok twoNamesFile ∧
    twoNamesFile.StringBlock = [0, 0x41, 0] ∧
    cell twoNamesFile.RawRecords 0 = putUint32 1 ∧
    cell twoNamesFile.RawRecords 1 = putUint32 1 ∧
    twoNamesFile.StringBlock = internedBlock (writtenStrings nameSchema twoNames) ∧
    ∃ offsetOf : List Byte → Nat,
      ∀ (j p : Nat) (hj : j < twoNames.length) (hp : p < nameSchema.length)
        (hq : p < twoNames[j].length),
        0 ≤ (parseTag nameSchema[p].tag).1 →
        (nameSchema[p].colType = .string ∨ nameSchema[p].colType = .locstring) →
        cell twoNamesFile.RawRecords (j * (maxColIndex nameSchema + 1).toNat + nameSchema[p].col)
            = putUint32 (offsetOf (valueString twoNames[j][p])) ∧
          ∃ pre post, twoNamesFile.StringBlock = pre ++ valueString twoNames[j][p] ++ 0 :: post ∧
            offsetOf (valueString twoNames[j][p]) = pre.length % 2 ^ 32 :=
  have h := MarshalRecords_interning nameSchema twoNames twoNamesFile (by decide)
  ⟨by decide, by decide, by decide, by decide, h.1, h.2.2 (by decide) (by decide)⟩

/-- Claim C3, counterexample.  First input: a single `string` field whose tag gives
column -1 and one record with the value "A"; `MarshalRecords` succeeds and skips
the field, so the string block is the single NUL byte, not NUL "A" NUL.  Second
input: a `string` field and a `uint32` field both mapped to column 0 and two
records with the string "A" and the numbers 7 and 9; the string is interned once,
but column 0 of the two records holds 7 and 9, not the offset 1. -/
theorem MarshalRecords_interning_fails :
    (MarshalRecords [⟨"Name", .string, "column=-1,type=string"⟩] [[.str [0x41]]] =
        .ok ⟨⟨MagicWDBC, 1, 1, 4, 1⟩, [0, 0, 0, 0], [0]⟩ ∧
      internedBlock (stringFieldValues [⟨"Name", .string, "column=-1,type=string"⟩]
        [[.str [0x41]]]) = [0, 0x41, 0]) ∧
    (MarshalRecords
        [⟨"Name", .string, "column=0,type=string"⟩, ⟨"N", .uint, "column=0,type=uint32"⟩]
        [[.str [0x41], .uint 7], [.str [0x41], .uint 9]] =
        .ok ⟨⟨MagicWDBC, 2, 1, 4, 3⟩, [7, 0, 0, 0, 9, 0, 0, 0], [0, 0x41, 0]⟩ ∧
      cell [7, 0, 0, 0, 9, 0, 0, 0] 0 ≠ cell [7, 0, 0, 0, 9, 0, 0, 0] 1) := by
  decide

/-! ## Encoding what `UnmarshalRecords` returned -/

theorem getUint32_lt (b : List Byte) : getUint32 b < 2 ^ 32 := by
  unfold getUint32
  have h0 := (b.getD 0 0).isLt
  have h1 := (b.getD 1 0).isLt
  have h2 := (b.getD 2 0).isLt
  have h3 := (b.getD 3 0).isLt
  omega

theorem toInt32_range (w : Nat) : - 2 ^ 31 ≤ toInt32 w ∧ toInt32 w < 2 ^ 31 := by
  unfold toInt32
  have := Nat.mod_lt w (show 0 < 2 ^ 32 by norm_num)
  split_ifs with h <;> constructor <;> omega

theorem readCString_no_nul (block : List Byte) (off : Nat) :
    (0 : Byte) ∉ readCString block off := by
  unfold readCString
  split_ifs
  · simp
  · intro h
    have := List.mem_takeWhile_imp h
    simp at this

theorem zeroValue_ok (k : Kind) : (zeroValue k).kind = k ∧ (zeroValue k).Fits32 := by
  cases k <;> simp [zeroValue, Value.kind, Value.Fits32, isSignallingNaN]

/-- The conversion through `float64` gives a bit pattern of 32 bits that is not a
signalling NaN. -/
theorem float32ViaFloat64_fits (w : Nat) (h : w < 2 ^ 32) :
    float32ViaFloat64 w < 2 ^ 32 ∧ isSignallingNaN (float32ViaFloat64 w) = false := by
  unfold float32ViaFloat64
  by_cases hs : isSignallingNaN w = true
  · rw [if_pos hs]
    unfold isSignallingNaN at hs ⊢
    simp only [decide_eq_true_eq, decide_eq_false_iff_not] at hs ⊢
    refine ⟨by omega, fun hc => ?_⟩
    omega
  · rw [if_neg hs]
    exact ⟨h, by simpa using hs⟩

/-- A field whose value has the kind of the field and the constructor its type
asks for has the kind its type asks for. -/
theorem KindFits_of_TypeMatch (fld : SchemaField) (v : Value) (hk : v.kind = fld.kind)
    (ht : TypeMatch fld.colType v) : KindFits fld := by
  unfold KindFits
  unfold SchemaField.colType at ht
  cases hc : classify (toLower (parseTag fld.tag).2) <;> cases v <;>
    rw [hc] at ht <;> simp only [TypeMatch] at ht <;> simp only [Value.kind] at hk <;>
    first
    | trivial
    | exact hk.symm

theorem KindFits_untagged (fld : SchemaField) (h : fld.tag.data = []) : KindFits fld := by
  unfold KindFits
  rw [parseTag_empty _ h]
  have : classify (toLower []) = .unknown := by decide
  rw [this]
  trivial

/-- What a successful `decodeColumn` says about the value it returns. -/
theorem decodeColumn_ok (file : File) (i : Nat) (fld : SchemaField) (col : Nat)
    (colType : List Char) (v : Value)
    (h : (decodeColumn file i fld col colType).2 = .ok v) :
    v.kind = fld.kind ∧ v.Fits32 ∧ TypeMatch (classify (toLower colType)) v ∧
      (classify (toLower colType) = .locstring → col + 1 < file.Header.FieldCount) := by
  unfold decodeColumn at h
  simp only [] at h
  cases hc : classify (toLower colType) with
  | int32 =>
    rw [hc] at h; simp only [setInt] at h
    split_ifs at h with hk
    cases h
    exact ⟨hk.symm, toInt32_range _, trivial, by simp⟩
  | uint32 =>
    rw [hc] at h; simp only [setUint] at h
    split_ifs at h with hk
    cases h
    exact ⟨hk.symm, getUint32_lt _, trivial, by simp⟩
  | float32 =>
    rw [hc] at h; simp only [setFloat] at h
    split_ifs at h with hk
    cases h
    exact ⟨hk.symm, float32ViaFloat64_fits _ (getUint32_lt _), trivial, by simp⟩
  | float64 => rw [hc] at h; cases h
  | string =>
    rw [hc] at h; simp only [setString] at h
    split_ifs at h with hk
    cases h
    exact ⟨hk.symm, readCString_no_nul _ _, trivial, by simp⟩
  | locstring =>
    rw [hc] at h; simp only [setString] at h
    split_ifs at h with h1 h2 h3 hk
    cases h
    exact ⟨hk.symm, readCString_no_nul _ _, trivial, fun _ => by omega⟩
  | unknown => rw [hc] at h; cases h

/-- What a successful `decodeField` says about the field and the value. -/
theorem decodeField_ok (file : File) (i : Nat) (fld : SchemaField) (v : Value)
    (h : (decodeField file i fld).2 = .ok v) :
    FieldValueOK fld v ∧
      (fld.tag.data ≠ [] →
        0 ≤ (parseTag fld.tag).1 ∧ fld.col < file.Header.FieldCount ∧
        4 * fld.col + 4 ≤ file.Header.RecordSize ∧ TypeMatch fld.colType v ∧
        (fld.colType = .locstring → fld.col + 1 < file.Header.FieldCount)) := by
  by_cases h1 : fld.tag.data = []
  · rw [decodeField_untagged _ _ _ h1] at h
    cases h
    exact ⟨⟨(zeroValue_ok _).1, (zeroValue_ok _).2, fun _ => rfl⟩, fun hn => absurd h1 hn⟩
  by_cases h2 : (parseTag fld.tag).1 < 0 ∨ (parseTag fld.tag).1 ≥ (file.Header.FieldCount : Int)
  · rw [decodeField_invalid_column _ _ _ h1 h2] at h; cases h
  by_cases h3 : 4 * (parseTag fld.tag).1.toNat + 4 > file.Header.RecordSize
  · rw [decodeField_out_of_bounds _ _ _ h1 h2 h3] at h; cases h
  · rw [decodeField_column _ _ _ h1 h2 h3] at h
    obtain ⟨hk, hf, ht, hl⟩ := decodeColumn_ok _ _ _ _ _ _ h
    refine ⟨⟨hk, hf, fun hn => absurd hn h1⟩, fun _ => ⟨by omega, ?_, ?_, ht, hl⟩⟩
    · unfold SchemaField.col; omega
    · unfold SchemaField.col; omega

theorem decodeFields_ok (file : File) (i : Nat) (schema : Schema) :
    ∀ (r : Record), (decodeFields file i schema).2 = .ok r →
      RecordOK schema r ∧
      (∀ fld ∈ schema, KindFits fld ∧ (fld.tag.data ≠ [] →
        0 ≤ (parseTag fld.tag).1 ∧ 4 * fld.col + 4 ≤ file.Header.RecordSize)) ∧
      (∀ fc2, (∀ fld ∈ schema, 0 ≤ (parseTag fld.tag).1 →
          fld.col < fc2 ∧ (fld.colType = .locstring → fld.col + 1 < fc2)) →
        RecordEncodable fc2 schema r) := by
  induction schema with
  | nil =>
    intro r h
    simp only [decodeFields] at h
    cases h
    exact ⟨trivial, by simp, fun _ _ => trivial⟩
  | cons fld flds ih =>
    intro r h
    rcases hf : (decodeField file i fld).2 with e | v
    · rw [decodeFields_cons_error _ _ _ _ _ hf] at h; cases h
    · rw [decodeFields_cons_ok _ _ _ _ _ hf] at h
      simp only [] at h
      rcases hr : (decodeFields file i flds).2 with e | vs
      · rw [hr] at h; cases h
      · rw [hr] at h
        cases h
        obtain ⟨h1, h2, h3⟩ := ih vs hr
        obtain ⟨h4, h5⟩ := decodeField_ok _ _ _ _ hf
        refine ⟨⟨h4, h1⟩, ?_, ?_⟩
        · intro f hfm
          rcases List.mem_cons.mp hfm with hfm | hfm
          · subst hfm
            refine ⟨?_, fun ht => ⟨(h5 ht).1, (h5 ht).2.2.1⟩⟩
            by_cases ht : f.tag.data = []
            · exact KindFits_untagged f ht
            · exact KindFits_of_TypeMatch f v h4.1 (h5 ht).2.2.2.1
          · exact h2 f hfm
        · intro fc2 hfc2
          refine ⟨?_, h3 fc2 (fun f hfm => hfc2 f (List.mem_cons_of_mem _ hfm))⟩
          by_cases hneg : (parseTag fld.tag).1 < 0
          · exact Or.inl hneg
          · have htag : fld.tag.data ≠ [] := by
              intro ht; rw [parseTag_empty _ ht] at hneg; simp at hneg
            have hx := hfc2 fld (List.mem_cons_self _ _) (by omega)
            exact Or.inr ⟨hx.1, (h5 htag).2.2.2.1, hx.2⟩

theorem decodeRecords_ok (file : File) (schema : Schema) :
    ∀ (n i : Nat) (recs : List Record), (decodeRecords file schema n i).2 = .ok recs →
      recs.length = n ∧ ∀ r ∈ recs, ∃ j, (decodeFields file j schema).2 = .ok r := by
  intro n
  induction n with
  | zero =>
    intro i recs h
    simp only [decodeRecords] at h
    cases h
    exact ⟨rfl, by simp⟩
  | succ n ih =>
    intro i recs h
    by_cases hp : (i + 1) * file.Header.RecordSize > file.RawRecords.length
    · rw [decodeRecords_succ_panic _ _ _ _ hp] at h; cases h
    · rcases hd : (decodeFields file i schema).2 with e | r
      · rw [decodeRecords_succ_error _ _ _ _ _ (by omega) hd] at h; cases h
      · rw [decodeRecords_succ_ok _ _ _ _ _ (by omega) hd] at h
        simp only [] at h
        rcases hr : (decodeRecords file schema n (i + 1)).2 with e | rs
        · rw [hr] at h; cases h
        · rw [hr] at h
          cases h
          obtain ⟨h1, h2⟩ := ih (i + 1) rs hr
          refine ⟨by simp [h1], ?_⟩
          intro r2 hr2
          rcases List.mem_cons.mp hr2 with hr2 | hr2
          · exact ⟨i, by rw [hr2]; exact hd⟩
          · exact h2 r2 hr2

theorem encodeField_success (fc k0 : Nat) (rs : Int) (st : EncState) (fld : SchemaField)
    (v : Value) (hrs : 0 ≤ rs) (hsm : (parseTag fld.tag).1 + 1 < 2 ^ 61)
    (he : Encodable fc fld v) (hraw : 4 * (k0 + fc) ≤ st.rawRecords.length) :
    ∃ st2, encodeField (fc : Int) rs ((4 * k0 : Nat) : Int) st fld v = .ok st2 := by
  unfold encodeField
  simp only []
  rcases he with he | ⟨hc, ht, hl⟩
  · rw [if_pos he]; exact ⟨_, rfl⟩
  · by_cases hneg : (parseTag fld.tag).1 < 0
    · rw [if_pos hneg]; exact ⟨_, rfl⟩
    · rw [if_neg hneg]
      have hcol : ((fld.col : Nat) : Int) = (parseTag fld.tag).1 := by
        unfold SchemaField.col; exact Int.toNat_of_nonneg (by omega)
      have hw2 : wrapInt64 ((parseTag fld.tag).1 + 1) = (parseTag fld.tag).1 + 1 :=
        wrapInt64_of_range _ (by omega) (by omega)
      have hb : blockInt rs (((4 * k0 : Nat) : Int) + wrapInt64 ((parseTag fld.tag).1 * 4)) =
          ((4 * k0 + fld.col * 4 : Nat) : Int) := by
        rw [blockInt_nonneg _ _ hrs, wrapInt64_of_range _ (by omega) (by omega)]
        push_cast; rw [hcol]
      have hb2 : blockInt rs (((4 * k0 : Nat) : Int) +
          wrapInt64 (wrapInt64 ((parseTag fld.tag).1 + 1) * 4)) =
          ((4 * k0 + (fld.col + 1) * 4 : Nat) : Int) := by
        rw [blockInt_nonneg _ _ hrs, hw2, wrapInt64_of_range _ (by omega) (by omega)]
        push_cast; rw [hcol]
      rw [hb, hb2, hw2]
      simp only [writeUint32At_ofNat]
      unfold SchemaField.colType at ht hl
      cases hk : classify (toLower (parseTag fld.tag).2) <;> cases v <;>
        rw [hk] at ht <;> simp only [TypeMatch] at ht ⊢
      · exact ⟨_, writeUint32_ok _ _ _ (by omega)⟩
      · exact ⟨_, writeUint32_ok _ _ _ (by omega)⟩
      · exact ⟨_, writeUint32_ok _ _ _ (by omega)⟩
      · exact ⟨_, writeUint32_ok _ _ _ (by rw [putString_raw]; omega)⟩
      · have hl2 := hl hk
        rw [writeUint32_ok _ _ _ (by rw [putString_raw]; omega)]
        simp only []
        rw [if_neg (by
          have : ((fld.col + 1 : Nat) : Int) < (fc : Int) := by exact_mod_cast hl2
          push_cast at this
          omega)]
        exact ⟨_, writeUint32_ok _ _ _ (by
          simp only []
          rw [splice_length _ _ _ (by rw [putString_raw]; omega), putString_raw]
          omega)⟩

theorem encodeFields_success (fc k0 : Nat) (rs : Int) (hrs : 0 ≤ rs) (schema : Schema) :
    ∀ (st : EncState) (r : Record), RecordEncodable fc schema r →
      (∀ fld ∈ schema, (parseTag fld.tag).1 + 1 < 2 ^ 61) →
      4 * (k0 + fc) ≤ st.rawRecords.length →
      ∃ st2, encodeFields (fc : Int) rs ((4 * k0 : Nat) : Int) st schema r = .ok st2 := by
  induction schema with
  | nil => intro st r _ _ _; exact ⟨st, by rw [encodeFields]⟩
  | cons fld flds ih =>
    intro st r he hsm hraw
    cases r with
    | nil => exact he.elim
    | cons v vs =>
      obtain ⟨st1, h1⟩ := encodeField_success fc k0 rs st fld v hrs
        (hsm fld (List.mem_cons_self _ _)) he.1 hraw
      obtain ⟨_, hlen⟩ := encodeField_pool _ _ _ _ _ _ _ h1
      obtain ⟨st2, h2⟩ := ih st1 vs he.2 (fun f hf => hsm f (List.mem_cons_of_mem _ hf))
        (by rw [hlen]; exact hraw)
      exact ⟨st2, by rw [encodeFields, h1]; exact h2⟩

theorem encodeRecords_success (schema : Schema) (fc : Nat)
    (hsm : ∀ fld ∈ schema, (parseTag fld.tag).1 + 1 < 2 ^ 61) (recs : List Record) :
    ∀ (st : EncState) (i : Nat), (∀ r ∈ recs, RecordEncodable fc schema r) →
      4 * ((i + recs.length) * fc) ≤ st.rawRecords.length →
      ∃ st2, encodeRecords schema (fc : Int) ((fc * 4 : Nat) : Int) st i recs = .ok st2 := by
  induction recs with
  | nil => intro st i _ _; exact ⟨st, by rw [encodeRecords]⟩
  | cons r rest ih =>
    intro st i he hraw
    have hlen : (r :: rest).length = rest.length + 1 := rfl
    have hmul : (i + (rest.length + 1)) * fc = (i * fc + fc) + rest.length * fc := by ring
    rw [hlen, hmul] at hraw
    obtain ⟨st1, h1⟩ := encodeFields_success fc (i * fc) ((fc * 4 : Nat) : Int) (by omega)
      schema st r (he r (List.mem_cons_self _ _)) hsm (by omega)
    obtain ⟨_, hl1⟩ := encodeFields_pool _ _ _ _ _ _ _ h1
    obtain ⟨st2, h2⟩ := ih st1 (i + 1) (fun r2 hr2 => he r2 (List.mem_cons_of_mem _ hr2))
      (by rw [hl1, show (i + 1 + rest.length) * fc = (i * fc + fc) + rest.length * fc by ring]
          exact hraw)
    refine ⟨st2, ?_⟩
    have hoff : blockInt ((fc * 4 : Nat) : Int) ((i : Int) * ((fc * 4 : Nat) : Int)) =
        ((4 * (i * fc) : Nat) : Int) := by
      rw [blockInt_nonneg _ _ (by omega)]; push_cast; ring
    rw [encodeRecords, hoff, h1]
    exact h2

/-- A non-empty list of records that are all encodable is marshalled without
error, when four times the field count does not overflow. -/
theorem MarshalRecords_success (schema : Schema) (recs : List Record) (hne : recs ≠ [])
    (hsmall : 4 * (maxColIndex schema + 1) < 2 ^ 63)
    (he : ∀ r ∈ recs, RecordEncodable (maxColIndex schema + 1).toNat schema r) :
    ∃ file, MarshalRecords schema recs = .ok file := by
  have hmax := maxColIndex_nonneg schema
  have hsm : ∀ fld ∈ schema, (parseTag fld.tag).1 + 1 < 2 ^ 61 := by
    intro fld hf
    have := col_le_maxColIndex schema fld hf
    omega
  rw [MarshalRecords_small _ _ (fun h0 => hne (List.length_eq_zero.mp h0)) hsmall]
  obtain ⟨st, hst⟩ := encodeRecords_success schema (maxColIndex schema + 1).toNat hsm recs
    { rawRecords := List.replicate (recs.length * ((maxColIndex schema + 1).toNat * 4)) 0
      strPool := [([], 0)], strBlock := [0] } 0 he
    (by simp only [List.length_replicate]; apply le_of_eq; ring)
  rw [hst]
  exact ⟨_, rfl⟩

theorem foldl_max_attained (l : List SchemaField) :
    ∀ (m : Int),
      l.foldl (fun m fld => if (parseTag fld.tag).1 > m then (parseTag fld.tag).1 else m) m = m ∨
      ∃ fld ∈ l, (parseTag fld.tag).1 =
        l.foldl (fun m fld => if (parseTag fld.tag).1 > m then (parseTag fld.tag).1 else m) m := by
  induction l with
  | nil => intro m; exact Or.inl rfl
  | cons f rest ih =>
    intro m
    simp only [List.foldl_cons]
    rcases ih (if (parseTag f.tag).1 > m then (parseTag f.tag).1 else m) with h | ⟨fld, hf, h⟩
    · rw [h]
      split_ifs with hgt
      · exact Or.inr ⟨f, List.mem_cons_self _ _, rfl⟩
      · exact Or.inl rfl
    · exact Or.inr ⟨fld, List.mem_cons_of_mem _ hf, h⟩

theorem maxColIndex_attained (schema : Schema) :
    maxColIndex schema = 0 ∨ ∃ fld ∈ schema, (parseTag fld.tag).1 = maxColIndex schema :=
  foldl_max_attained schema 0

/-- Claim C4, as amended: for every container with `uint32` header fields and every
schema in which no two fields write the same column (mask columns counted) and no
locstring field sits at the highest column the schema refers to, if
`UnmarshalRecords` succeeds with a non-empty list of records and the string block
built from these records has less than `2^32` bytes, then `MarshalRecords` on the
records succeeds, and `UnmarshalRecords` on its result with the same schema
returns the same records. -/
theorem UnmarshalRecords_MarshalRecords (file : File) (schema : Schema) (recs : List Record)
    (hu : file.Header.IsUint32)
    (hdec : UnmarshalRecords file schema = .ok recs)
    (hne : recs ≠ [])
    (hnd : (schemaColumns schema).Nodup)
    (hloc : ∀ fld ∈ schema, 0 ≤ (parseTag fld.tag).1 → fld.colType = .locstring →
      (parseTag fld.tag).1 < maxColIndex schema)
    (hblock : (internedBlock (writtenStrings schema recs)).length < 2 ^ 32) :
    ∃ file2, MarshalRecords schema recs = .ok file2 ∧
      UnmarshalRecords file2 schema = .ok recs := by
  obtain ⟨_, hcnt, _, hrs, _⟩ := hu
  unfold UnmarshalRecords UnmarshalRecordsTraced at hdec
  obtain ⟨hlen, hall⟩ := decodeRecords_ok _ _ _ _ _ hdec
  obtain ⟨r0, hr0⟩ := List.exists_mem_of_ne_nil recs hne
  obtain ⟨j0, hj0⟩ := hall r0 hr0
  obtain ⟨_, hschema0, _⟩ := decodeFields_ok _ _ _ _ hj0
  have hkf : ∀ fld ∈ schema, KindFits fld := fun fld hf => (hschema0 fld hf).1
  have hschema : ∀ fld ∈ schema, fld.tag.data ≠ [] →
      0 ≤ (parseTag fld.tag).1 ∧ 4 * fld.col + 4 ≤ file.Header.RecordSize :=
    fun fld hf => (hschema0 fld hf).2
  have hmax := maxColIndex_nonneg schema
  have hneg : ∀ fld ∈ schema, fld.tag.data ≠ [] → 0 ≤ (parseTag fld.tag).1 :=
    fun fld hf ht => (hschema fld hf ht).1
  have hsize : 4 * (maxColIndex schema + 1) < 2 ^ 32 := by
    rcases maxColIndex_attained schema with h | ⟨fld, hf, h⟩
    · rw [h]; norm_num
    · by_cases h0 : maxColIndex schema = 0
      · rw [h0]; norm_num
      · have htag : fld.tag.data ≠ [] := by
          intro ht; rw [parseTag_empty _ ht] at h; omega
        have := (hschema fld hf htag).2
        unfold SchemaField.col at this
        omega
  have hcols : ∀ fld ∈ schema, 0 ≤ (parseTag fld.tag).1 →
      fld.col < (maxColIndex schema + 1).toNat ∧
        (fld.colType = .locstring → fld.col + 1 < (maxColIndex schema + 1).toNat) := by
    intro fld hf h0
    have h1 := col_le_maxColIndex schema fld hf
    unfold SchemaField.col
    refine ⟨by omega, fun hl => ?_⟩
    have := hloc fld hf h0 hl
    omega
  have henc : ∀ r ∈ recs, RecordEncodable (maxColIndex schema + 1).toNat schema r := by
    intro r hr
    obtain ⟨j, hj⟩ := hall r hr
    exact (decodeFields_ok _ _ _ _ hj).2.2 _ hcols
  have hok : ∀ r ∈ recs, RecordOK schema r := by
    intro r hr
    obtain ⟨j, hj⟩ := hall r hr
    exact (decodeFields_ok _ _ _ _ hj).1
  obtain ⟨file2, hm⟩ := MarshalRecords_success schema recs hne (by omega) henc
  refine ⟨file2, hm, ?_⟩
  exact roundtrip_core schema recs file2 hm hkf hok hneg hnd (by omega) hsize
    (by rw [MarshalRecords_stringBlock _ _ _ hm]; exact hblock)

/-- Claim C4, witness: a container of four columns decoded with a locstring at column 0
and an integer at column 2. -/
theorem UnmarshalRecords_MarshalRecords_witness :
    ∃ file2,
      MarshalRecords
        [⟨"Name", .string, "column=0,type=locstring"⟩, ⟨"N", .uint, "column=2,type=uint32"⟩]
        [[.str [0x41], .uint 7]] = .ok file2 ∧
      UnmarshalRecords file2
        [⟨"Name", .string, "column=0,type=locstring"⟩, ⟨"N", .uint, "column=2,type=uint32"⟩] =
        .ok [[.str [0x41], .uint 7]] :=
  UnmarshalRecords_MarshalRecords
    ⟨⟨MagicWDBC, 1, 4, 16, 4⟩, [2, 0, 0, 0, 0, 0, 0, 0, 7, 0, 0, 0, 9, 9, 9, 9], [0, 0, 0x41, 0]⟩
    [⟨"Name", .string, "column=0,type=locstring"⟩, ⟨"N", .uint, "column=2,type=uint32"⟩]
    [[.str [0x41], .uint 7]]
    (by decide) (by decide) (by decide) (by decide) (by decide) (by decide)

/-- Claim C4, counterexample: a container with two columns and one record, decoded with
a schema whose only field is a locstring at column 0, gives the record "A";
`MarshalRecords` on that record computes a field count of 1 and fails, for lack
of a mask column. -/
theorem UnmarshalRecords_MarshalRecords_fails :
    UnmarshalRecords ⟨⟨MagicWDBC, 1, 2, 8, 3⟩, [1, 0, 0, 0, 0, 0, 0, 0], [0, 0x41, 0]⟩
      [⟨"Name", .string, "column=0,type=locstring"⟩] = .ok [[.str [0x41]]] ∧
    MarshalRecords [⟨"Name", .string, "column=0,type=locstring"⟩] [[.str [0x41]]] =
      .error .marshalNoMask := by
  decide

/-! ## Scenarios and boundary cases -/

/-- Claim C12: for every schema, `MarshalRecords` on zero records returns the
empty-slice error, and so no container. -/
theorem MarshalRecords_empty (schema : Schema) :
    MarshalRecords schema [] = .error .emptySlice := rfl

/-- Claim C13, as amended: the container of the scenario (record count 1, field count
2, record size 8, record bytes 05 00 00 00 00 00 00 00, string block NUL "Hello"
of 6 bytes) decodes, under a schema mapping column 0 as a string, to exactly one
record whose field value is "o", the bytes from offset 5 to the end of the
block; the same holds with a seventh byte NUL after "Hello"; and with record
bytes 01 00 00 00 00 00 00 00 the field value is "Hello". -/
theorem UnmarshalRecords_scenario :
    UnmarshalRecords
      ⟨⟨MagicWDBC, 1, 2, 8, 6⟩, [5, 0, 0, 0, 0, 0, 0, 0], [0, 0x48, 0x65, 0x6C, 0x6C, 0x6F]⟩
      nameSchema = .ok [[.str [0x6F]]] ∧
    UnmarshalRecords
      ⟨⟨MagicWDBC, 1, 2, 8, 6⟩, [5, 0, 0, 0, 0, 0, 0, 0],
        [0, 0x48, 0x65, 0x6C, 0x6C, 0x6F, 0]⟩
      nameSchema = .ok [[.str [0x6F]]] ∧
    UnmarshalRecords
      ⟨⟨MagicWDBC, 1, 2, 8, 6⟩, [1, 0, 0, 0, 0, 0, 0, 0], [0, 0x48, 0x65, 0x6C, 0x6C, 0x6F]⟩
      nameSchema = .ok [[.str [0x48, 0x65, 0x6C, 0x6C, 0x6F]]] := by
  decide

/-- Claim C13, counterexample: the record bytes of the scenario hold the offset 5, where
the last letter of "Hello" stands, so the field value decoded is not "Hello". -/
theorem UnmarshalRecords_scenario_not_hello :
    UnmarshalRecords
      ⟨⟨MagicWDBC, 1, 2, 8, 6⟩, [5, 0, 0, 0, 0, 0, 0, 0], [0, 0x48, 0x65, 0x6C, 0x6C, 0x6F]⟩
      nameSchema ≠ .ok [[.str [0x48, 0x65, 0x6C, 0x6C, 0x6F]]] := by
  decide

/-- Claim C18: a locstring at column 0 in a container with field count 2 and record size
4.  The offset window passes the bounds check of the loop, and the mask window,
bytes 4 to 8 of the record, is taken without one.  With one record the slice
expression panics.  With two records the mask of the first record is read from
the window 4 to 8 of the record block, which is the second record: with the
bytes 07 00 00 00 there, decoding fails with the mask error for the value 7; with
zero bytes there, the first record is decoded and the second one panics. -/
theorem UnmarshalRecords_mask_window_unchecked :
    UnmarshalRecordsTraced ⟨⟨MagicWDBC, 1, 2, 4, 1⟩, [0, 0, 0, 0], [0]⟩
      [⟨"Name", .string, "column=0,type=locstring"⟩] = ([(0, 4)], .error .panic) ∧
    UnmarshalRecordsTraced ⟨⟨MagicWDBC, 2, 2, 4, 1⟩, [0, 0, 0, 0, 7, 0, 0, 0], [0]⟩
      [⟨"Name", .string, "column=0,type=locstring"⟩] =
      ([(0, 4), (4, 8)], .error (.maskNotZero 7 "Name")) ∧
    UnmarshalRecordsTraced ⟨⟨MagicWDBC, 2, 2, 4, 1⟩, [0, 0, 0, 0, 0, 0, 0, 0], [0]⟩
      [⟨"Name", .string, "column=0,type=locstring"⟩] =
      ([(0, 4), (4, 8), (4, 8)], .error .panic) := by
  decide

/-! ## `parseTag` -/

theorem takeWhile_of_headIsDigit (l : List Char) (h : headIsDigit l = false) :
    l.takeWhile Char.isDigit = [] := by
  cases l with
  | nil => rfl
  | cons c t =>
    simp only [headIsDigit] at h
    rw [List.takeWhile_cons, h]
    rfl

/-- The scanner leaves the variable alone when the text does not start with a
number. -/
theorem sscanfInt_unchanged (v : List Char) (old : Int) (h : startsWithNumber v = false) :
    sscanfInt v old = old := by
  unfold sscanfInt
  unfold startsWithNumber at h
  split at h
  · simp only [takeWhile_of_headIsDigit _ h, if_true]
  · simp only [takeWhile_of_headIsDigit _ h, if_true]
  · simp only [takeWhile_of_headIsDigit _ h, if_true]

theorem parseTag_fold (ps : List (List Char))
    (hmal : ∀ p ∈ ps, ∀ k v, splitFirst '=' p = some (k, v) →
      trimSpace k = "column".data → startsWithNumber (trimSpace v) = false) :
    ∀ (acc : Int × List Char),
      ps.foldl parseTagStep acc = (acc.1, ps.foldl typeStep acc.2) := by
  induction ps with
  | nil => intro acc; rfl
  | cons p rest ih =>
    intro acc
    simp only [List.foldl_cons]
    rw [ih (fun q hq => hmal q (List.mem_cons_of_mem _ hq))]
    have hp := hmal p (List.mem_cons_self _ _)
    unfold parseTagStep typeStep
    rcases hs : splitFirst '=' p with _ | ⟨k, v⟩
    · rfl
    · simp only []
      by_cases hk : trimSpace k = "column".data
      · have hne : ¬ trimSpace k = "type".data := by rw [hk]; decide
        rw [if_pos hk, if_neg hne, sscanfInt_unchanged _ _ (hp k v hs hk)]
      · rw [if_neg hk]
        split_ifs <;> rfl

/-- Claim C16, as amended: for every non-empty tag in which every value given for the
key `column`, once trimmed, starts neither with a decimal digit nor with a sign
followed by a digit, `parseTag` returns column index 0 and the type name given
by the `type` key. -/
theorem parseTag_malformed_column (tag : String) (htag : tag ≠ "")
    (hmal : noColumnNumber tag = true) :
    parseTag tag = (0, typeOfTag tag) := by
  have htag2 : tag.data ≠ [] := by
    intro h; apply htag; cases hft : tag; rw [hft] at h; simp only at h; rw [h]
  unfold parseTag typeOfTag
  rw [if_neg htag2, parseTag_fold]
  intro p hp k v hs hk
  unfold noColumnNumber at hmal
  have := List.all_eq_true.mp hmal p hp
  rw [hs] at this
  simpa [hk] using this

/-- Claim C16, witness: the tag `column=abc,type=int`. -/
theorem parseTag_malformed_column_witness :
    parseTag "column=abc,type=int" = (0, typeOfTag "column=abc,type=int") ∧
      typeOfTag "column=abc,type=int" = "int".data :=
  ⟨parseTag_malformed_column "column=abc,type=int" (by decide) (by decide), by decide⟩

/-- Claim C16, counterexample: the values `-5` and `12abc` are not non-negative decimal
integers, and `parseTag` returns the column indices -5 and 12 for them, as the
scanner of `%d` takes a sign and stops at the first character that is not a
digit. -/
theorem parseTag_malformed_column_fails :
    isDecimalNat "-5".data = false ∧
    parseTag "column=-5,type=int32" = (-5, "int32".data) ∧
    isDecimalNat "12abc".data = false ∧
    parseTag "column=12abc,type=int32" = (12, "int32".data) := by
  decide

/-! ## `readCString` -/

theorem readCString_beyond (block : List Byte) (o : Nat) (h : block.length % 2 ^ 32 ≤ o) :
    readCString block o = [] := by
  unfold readCString; rw [if_pos h]

theorem takeWhile_eq_take (l : List Byte) :
    ∃ k, k ≤ l.length ∧ l.takeWhile (fun b => b ≠ 0) = l.take k ∧
      (k = l.length ∨ l[k]? = some 0) ∧ ∀ j, j < k → l[j]? ≠ some 0 := by
  induction l with
  | nil => exact ⟨0, le_refl _, rfl, Or.inl rfl, fun j hj => by omega⟩
  | cons b rest ih =>
    by_cases hb : b = 0
    · refine ⟨0, by simp, ?_, Or.inr (by simp [hb]), fun j hj => by omega⟩
      rw [List.takeWhile_cons, if_neg (by simp [hb])]
      rfl
    · obtain ⟨k, h1, h2, h3, h4⟩ := ih
      refine ⟨k + 1, by simp; omega, ?_, ?_, ?_⟩
      · rw [List.takeWhile_cons, if_pos (by simpa using hb), h2, List.take_succ_cons]
      · rcases h3 with h3 | h3
        · left; simp [h3]
        · right; simpa using h3
      · intro j hj
        cases j with
        | zero => simpa using hb
        | succ j => simpa using h4 j (by omega)

/-- String resolution in a block of less than `2^32` bytes: the empty string from
an offset at or past the end; otherwise the bytes from the offset up to, and
without, the first NUL byte at or after it, or up to the end of the block when
there is none. -/
theorem readCString_spec (block : List Byte) (o : Nat) (hlen : block.length < 2 ^ 32) :
    (block.length ≤ o → readCString block o = []) ∧
    (o < block.length → ∃ k, o + k ≤ block.length ∧
      readCString block o = slice block o (o + k) ∧
      (o + k = block.length ∨ block[o + k]? = some 0) ∧
      ∀ j, j < k → block[o + j]? ≠ some 0) ∧
    (0 : Byte) ∉ readCString block o := by
  refine ⟨?_, ?_, readCString_no_nul block o⟩
  · intro h
    exact readCString_beyond block o (by rw [Nat.mod_eq_of_lt hlen]; exact h)
  · intro h
    obtain ⟨k, h1, h2, h3, h4⟩ := takeWhile_eq_take (block.drop o)
    rw [List.length_drop] at h1 h3
    refine ⟨k, by omega, ?_, ?_, ?_⟩
    · unfold readCString slice
      rw [Nat.mod_eq_of_lt hlen, if_neg (by omega), h2, Nat.add_sub_cancel_left]
    · rcases h3 with h3 | h3
      · left; omega
      · right; rw [List.getElem?_drop] at h3; exact h3
    · intro j hj
      have := h4 j hj
      rw [List.getElem?_drop] at this
      exact this

/-- Claim C14: in the block `hugeBlock` of `2^32` bytes, none of them NUL, offset 0 is
below the length of the block, and `readCString` returns the empty string: it
compares the offset with the length reduced to a `uint32`, which is 0. -/
theorem readCString_hugeBlock :
    0 < hugeBlock.length ∧ hugeBlock[0]? = some 0x41 ∧ readCString hugeBlock 0 = [] := by
  have hl : hugeBlock.length = 4294967296 := by
    unfold hugeBlock; rw [List.length_replicate]
  refine ⟨by rw [hl]; norm_num, ?_, ?_⟩
  · unfold hugeBlock
    rw [List.getElem?_replicate]
    simp
  · exact readCString_beyond hugeBlock 0 (by rw [hl]; norm_num)

/-! ## The container `MarshalRecords` returns -/

theorem encodeFields_frame (fc k0 : Nat) (rs : Int) (hrs : 0 ≤ rs) (schema : Schema) :
    ∀ (st st2 : EncState) (r : Record),
      encodeFields (fc : Int) rs ((4 * k0 : Nat) : Int) st schema r = .ok st2 →
      (∀ fld ∈ schema, (parseTag fld.tag).1 + 1 < 2 ^ 61) →
      (∀ k, (∀ d ∈ schemaColumns schema, k ≠ k0 + d) →
          cell st2.rawRecords k = cell st.rawRecords k) ∧
        (∀ fld ∈ schema, ∀ d ∈ fieldColumns fld, d ≠ fld.col → d < fc) := by
  induction schema with
  | nil =>
    intro st st2 r h _
    rw [encodeFields] at h
    cases h
    exact ⟨fun _ _ => rfl, by simp⟩
  | cons fld flds ih =>
    intro st st2 r h hsm
    cases r with
    | nil => rw [encodeFields] at h; cases h
    | cons v vs =>
      rw [encodeFields] at h
      rcases he : encodeField (fc : Int) rs ((4 * k0 : Nat) : Int) st fld v with e | st1
      · rw [he] at h; cases h
      · rw [he] at h
        simp only [] at h
        have hsc : schemaColumns (fld :: flds) = fieldColumns fld ++ schemaColumns flds := by
          simp [schemaColumns]
        obtain ⟨_, h2, h3⟩ := encodeField_cells _ _ _ _ _ _ _ hrs
          (hsm fld (List.mem_cons_self _ _)) he
        obtain ⟨h5, h6⟩ := ih st1 st2 vs h (fun f hf => hsm f (List.mem_cons_of_mem _ hf))
        refine ⟨?_, ?_⟩
        · intro k hk
          rw [hsc] at hk
          rw [h5 k (fun d hd => hk d (List.mem_append.mpr (Or.inr hd))),
            h2 k (fun d hd => hk d (List.mem_append.mpr (Or.inl hd)))]
        · intro f hf
          rcases List.mem_cons.mp hf with hf | hf
          · rw [hf]; exact h3
          · exact h6 f hf

theorem encodeRecords_frame (schema : Schema) (fc : Nat)
    (hsm : ∀ fld ∈ schema, (parseTag fld.tag).1 + 1 < 2 ^ 61) (recs : List Record) :
    ∀ (st st2 : EncState) (i : Nat),
      encodeRecords schema (fc : Int) ((fc * 4 : Nat) : Int) st i recs = .ok st2 →
      (∀ k, (∀ j, j < recs.length → ∀ d ∈ schemaColumns schema, k ≠ (i + j) * fc + d) →
          cell st2.rawRecords k = cell st.rawRecords k) ∧
        (recs ≠ [] → ∀ fld ∈ schema, ∀ d ∈ fieldColumns fld, d ≠ fld.col → d < fc) := by
  induction recs with
  | nil =>
    intro st st2 i h
    rw [encodeRecords] at h
    cases h
    exact ⟨fun _ _ => rfl, fun hne => absurd rfl hne⟩
  | cons r rest ih =>
    intro st st2 i h
    rw [encodeRecords] at h
    have hoff : blockInt ((fc * 4 : Nat) : Int) ((i : Int) * ((fc * 4 : Nat) : Int)) =
        ((4 * (i * fc) : Nat) : Int) := by
      rw [blockInt_nonneg _ _ (by omega)]; push_cast; ring
    rw [hoff] at h
    rcases he : encodeFields (fc : Int) ((fc * 4 : Nat) : Int) ((4 * (i * fc) : Nat) : Int)
      st schema r with e | st1
    · rw [he] at h; cases h
    · rw [he] at h
      simp only [] at h
      obtain ⟨h1, h2⟩ := encodeFields_frame _ _ _ (by omega) _ _ _ _ he hsm
      obtain ⟨h3, _⟩ := ih st1 st2 (i + 1) h
      refine ⟨?_, fun _ => h2⟩
      intro k hk
      rw [h3 k (fun j hj d hd => by
            have := hk (j + 1) (by simpa using hj) d hd
            rw [show i + 1 + j = i + (j + 1) by omega]
            exact this),
        h1 k (fun d hd => by simpa using hk 0 (by simp) d hd)]

theorem cell_replicate_zero (n k : Nat) (h : 4 * k + 4 ≤ n) :
    cell (List.replicate n (0 : Byte)) k = [0, 0, 0, 0] := by
  unfold cell slice
  rw [List.drop_replicate, List.take_replicate, Nat.add_sub_cancel_left,
    Nat.min_eq_left (by omega)]
  rfl

theorem column_index_unique (n a b c e : Nat) (hb : b < n) (he : e < n)
    (h : a * n + b = c * n + e) : b = e := by
  have h1 : (a * n + b) % n = b := by
    rw [Nat.add_comm, Nat.add_mul_mod_self_right, Nat.mod_eq_of_lt hb]
  have h2 : (c * n + e) % n = e := by
    rw [Nat.add_comm, Nat.add_mul_mod_self_right, Nat.mod_eq_of_lt he]
  rw [← h1, ← h2, h]

/-- Claim C15, as amended: for every successful `MarshalRecords` call in which the size
of the record block, `n × 4 × (largest column index + 1)`, is below `2^63`, in
every record `j` of the record block, every column `d` of the record that is
neither the column of a mapped field (one that is not skipped) nor the column
after that of a locstring field consists of four zero bytes. -/
theorem MarshalRecords_unmapped_zero (schema : Schema) (recs : List Record) (file : File)
    (j d : Nat)
    (hm : MarshalRecords schema recs = .ok file)
    (hbound : (recs.length : Int) * (4 * (maxColIndex schema + 1)) < 2 ^ 63)
    (hj : j < recs.length)
    (hd : d < (maxColIndex schema + 1).toNat)
    (hun : ∀ fld ∈ schema, 0 ≤ (parseTag fld.tag).1 →
      d ≠ fld.col ∧ (fld.colType = .locstring → d ≠ fld.col + 1)) :
    cell file.RawRecords (j * (maxColIndex schema + 1).toNat + d) = [0, 0, 0, 0] := by
  have hmax := maxColIndex_nonneg schema
  have hsmall : 4 * (maxColIndex schema + 1) < 2 ^ 63 := by
    have hlen : (1 : Int) ≤ (recs.length : Int) := by omega
    nlinarith
  obtain ⟨hne, st, hst, rfl⟩ := MarshalRecords_inv_small _ _ _ hm hsmall
  have hsm : ∀ fld ∈ schema, (parseTag fld.tag).1 + 1 < 2 ^ 61 := by
    intro fld hf
    have := col_le_maxColIndex schema fld hf
    omega
  have hcolfc : ∀ fld ∈ schema, 0 ≤ (parseTag fld.tag).1 →
      fld.col < (maxColIndex schema + 1).toNat := by
    intro fld hf h0
    have := col_le_maxColIndex schema fld hf
    unfold SchemaField.col
    omega
  generalize (maxColIndex schema + 1).toNat = fc at hst hd hcolfc ⊢
  obtain ⟨h1, h2⟩ := encodeRecords_frame _ _ hsm _ _ _ _ hst
  have hcols := h2 hne
  have hnot : d ∉ schemaColumns schema := by
    intro hin
    obtain ⟨fld, hf, hdf⟩ := (mem_schemaColumns schema d).mp hin
    have h0 := fieldColumns_nonneg fld d hdf
    obtain ⟨hx, hy⟩ := hun fld hf h0
    by_cases ht : fld.colType = .locstring
    · rw [fieldColumns_locstring fld h0 ht] at hdf
      simp only [List.mem_cons, List.mem_singleton, List.not_mem_nil, or_false] at hdf
      rcases hdf with hdf | hdf
      · exact hx hdf
      · exact hy ht hdf
    · rw [fieldColumns_plain fld h0 ht] at hdf
      simp only [List.mem_singleton] at hdf
      exact hx hdf
  simp only []
  rw [h1 _ ?_]
  · simp only []
    apply cell_replicate_zero
    have : (j + 1) * fc ≤ recs.length * fc := Nat.mul_le_mul_right _ hj
    have e1 : (j + 1) * fc = j * fc + fc := by ring
    have e2 : recs.length * (fc * 4) = 4 * (recs.length * fc) := by ring
    rw [e2]
    omega
  · intro j2 hj2 d2 hd2 heq
    simp only [Nat.zero_add] at heq
    obtain ⟨fld, hf, hdf⟩ := (mem_schemaColumns schema d2).mp hd2
    have hd2lt : d2 < fc := by
      by_cases hdc : d2 = fld.col
      · rw [hdc]; exact hcolfc fld hf (fieldColumns_nonneg fld d2 hdf)
      · exact hcols fld hf d2 hdf hdc
    have := column_index_unique fc j d j2 d2 hd hd2lt heq
    rw [this] at hnot
    exact hnot hd2

/-- Claim C15, witness: fields at columns 0 and 2 leave column 1 of both records zero. -/
theorem MarshalRecords_unmapped_zero_witness :
    cell [5, 0, 0, 0, 0, 0, 0, 0, 1, 0, 0, 0, 6, 0, 0, 0, 0, 0, 0, 0, 1, 0, 0, 0]
      (1 * (maxColIndex [⟨"ID", .uint, "column=0,type=uint32"⟩,
        ⟨"Name", .string, "column=2,type=string"⟩] + 1).toNat + 1) = [0, 0, 0, 0] :=
  MarshalRecords_unmapped_zero
    [⟨"ID", .uint, "column=0,type=uint32"⟩, ⟨"Name", .string, "column=2,type=string"⟩]
    [[.uint 5, .str [65]], [.uint 6, .str [65]]]
    ⟨⟨MagicWDBC, 2, 3, 12, 3⟩,
      [5, 0, 0, 0, 0, 0, 0, 0, 1, 0, 0, 0, 6, 0, 0, 0, 0, 0, 0, 0, 1, 0, 0, 0], [0, 65, 0]⟩
    1 1 (by decide) (by decide) (by decide) (by decide) (by decide)

/-- Claim C15, counterexample: a single `uint32` field at column `2^62` and one record
with the value 7.  The `int` arithmetic of `MarshalRecords` wraps: the field
count is `2^62 + 1`, the record size `4 × (2^62 + 1)` is 4 and the offset
`4 × 2^62` of the column is 0.  The call succeeds with a record of one column,
column 0, which is not the column of the field and holds 7 0 0 0. -/
theorem MarshalRecords_unmapped_nonzero :
    MarshalRecords farColumnSchema [[.uint 7]] =
      .ok ⟨⟨MagicWDBC, 1, 1, 4, 1⟩, [7, 0, 0, 0], [0]⟩ ∧
    (∀ fld ∈ farColumnSchema,
      (parseTag fld.tag).1 = 4611686018427387904 ∧ fld.colType ≠ .locstring) ∧
    cell [7, 0, 0, 0] 0 = [7, 0, 0, 0] ∧
    ([7, 0, 0, 0] : List Byte) ≠ [0, 0, 0, 0] := by
  decide

/-- Claim C11, as amended: for every successful `MarshalRecords` call on `n` records, when
`n`, four times the field count and the length of the string block are below
`2^32`, the returned container has magic `MagicWDBC`, record count `n`, field
count `m + 1` where `m` is the largest column index of the schema's fields (0
when none is positive), record size 4 × field count, a record block of exactly
`n` × record size bytes, a string-block size equal to the length of the string
block, and a string block whose first byte is NUL. -/
theorem MarshalRecords_wellformed (schema : Schema) (recs : List Record) (file : File)
    (hm : MarshalRecords schema recs = .ok file)
    (hcount : recs.length < 2 ^ 32)
    (hsize : 4 * (maxColIndex schema + 1) < 2 ^ 32)
    (hblock : file.StringBlock.length < 2 ^ 32) :
    file.Header.Magic = MagicWDBC ∧
    file.Header.RecordCount = recs.length ∧
    (file.Header.FieldCount : Int) = maxColIndex schema + 1 ∧
    (0 ≤ maxColIndex schema ∧ (∀ fld ∈ schema, (parseTag fld.tag).1 ≤ maxColIndex schema) ∧
      (maxColIndex schema = 0 ∨ ∃ fld ∈ schema, (parseTag fld.tag).1 = maxColIndex schema)) ∧
    file.Header.RecordSize = 4 * file.Header.FieldCount ∧
    file.RawRecords.length = recs.length * file.Header.RecordSize ∧
    file.Header.StringBlockSize = file.StringBlock.length ∧
    file.StringBlock.head? = some 0 := by
  have hsb := MarshalRecords_stringBlock _ _ _ hm
  obtain ⟨_, st, hst, rfl⟩ := MarshalRecords_inv_small _ _ _ hm (by omega)
  have hmax := maxColIndex_nonneg schema
  obtain ⟨_, hlen⟩ := encodeRecords_pool _ _ _ _ _ _ _ hst
  simp only [List.length_replicate] at hlen
  have hblock2 : st.strBlock.length < 2 ^ 32 := hblock
  have hsb2 : st.strBlock = internedBlock (writtenStrings schema recs) := hsb
  have e1 : (maxColIndex schema + 1).toNat % 2 ^ 32 = (maxColIndex schema + 1).toNat :=
    Nat.mod_eq_of_lt (by omega)
  have e2 : (maxColIndex schema + 1).toNat * 4 % 2 ^ 32
      = 4 * (maxColIndex schema + 1).toNat := by
    rw [Nat.mod_eq_of_lt (by omega)]; ring
  refine ⟨rfl, ?_, ?_, ⟨hmax, col_le_maxColIndex schema, maxColIndex_attained schema⟩,
    ?_, ?_, ?_, ?_⟩
  · exact Nat.mod_eq_of_lt hcount
  · show (((maxColIndex schema + 1).toNat % 2 ^ 32 : Nat) : Int) = maxColIndex schema + 1
    rw [e1]; omega
  · show (maxColIndex schema + 1).toNat * 4 % 2 ^ 32
      = 4 * ((maxColIndex schema + 1).toNat % 2 ^ 32)
    rw [e1, e2]
  · show st.rawRecords.length
      = recs.length * ((maxColIndex schema + 1).toNat * 4 % 2 ^ 32)
    rw [e2, hlen]; ring
  · exact Nat.mod_eq_of_lt hblock2
  · show st.strBlock.head? = some 0
    rw [hsb2]; rfl

/-- Claim C11, witness: two records with an integer and a string field. -/
theorem MarshalRecords_wellformed_witness :
    (2 : Nat) = [[Value.uint 5, Value.str [65]], [Value.uint 6, Value.str [65]]].length ∧
    (([5, 0, 0, 0, 1, 0, 0, 0, 6, 0, 0, 0, 1, 0, 0, 0] : List Byte).length = 2 * 8) ∧
    ((3 : Nat) = ([0, 65, 0] : List Byte).length) :=
  have h := MarshalRecords_wellformed
    [⟨"ID", .uint, "column=0,type=uint32"⟩, ⟨"Name", .string, "column=1,type=string"⟩]
    [[.uint 5, .str [65]], [.uint 6, .str [65]]]
    ⟨⟨MagicWDBC, 2, 2, 8, 3⟩, [5, 0, 0, 0, 1, 0, 0, 0, 6, 0, 0, 0, 1, 0, 0, 0], [0, 65, 0]⟩
    (by decide) (by decide) (by decide) (by decide)
  ⟨h.2.1, h.2.2.2.2.2.1, h.2.2.2.2.2.2.1⟩

theorem encodeRecords_no_fields (fc rs : Int) (recs : List Record) :
    ∀ (st : EncState) (i : Nat), encodeRecords [] fc rs st i recs = .ok st := by
  induction recs with
  | nil => intro st i; rw [encodeRecords]
  | cons r rest ih =>
    intro st i
    rw [encodeRecords, encodeFields]
    exact ih st (i + 1)

theorem MarshalRecords_no_fields (recs : List Record) (hne : recs.length ≠ 0) :
    MarshalRecords [] recs =
      .ok { Header := { Magic := MagicWDBC, RecordCount := recs.length % 2 ^ 32,
                        FieldCount := 1, RecordSize := 4, StringBlockSize := 1 }
            RawRecords := List.replicate (recs.length * 4) 0
            StringBlock := [0] } := by
  have h1 : wrapInt64 (maxColIndex [] + 1) = 1 := by decide
  have h2 : wrapInt64 (1 * 4) = 4 := by decide
  have h3 : blockInt 4 ((recs.length : Int) * 4) = ((recs.length * 4 : Nat) : Int) := by
    rw [blockInt_nonneg _ _ (by omega)]; push_cast; rfl
  unfold MarshalRecords
  simp only []
  rw [if_neg hne, h1, h2, h3, if_neg (by omega), encodeRecords_no_fields, Int.toNat_ofNat]
  rfl

theorem MarshalRecords_no_fields_count (recs : List Record) (hne : recs.length ≠ 0)
    (h0 : recs.length % 2 ^ 32 = 0) :
    ∃ file, MarshalRecords [] recs = .ok file ∧ file.Header.RecordCount = 0 :=
  ⟨_, MarshalRecords_no_fields recs hne, h0⟩

/-- Claim C11, counterexample: `MarshalRecords` on `2^32` values of the struct type
without fields succeeds, and the record count of the container is 0. -/
theorem MarshalRecords_record_count_wraps :
    manyEmptyRecords.length = 4294967296 ∧
    ∃ file, MarshalRecords [] manyEmptyRecords = .ok file ∧ file.Header.RecordCount = 0 := by
  have hl : manyEmptyRecords.length = 4294967296 := by
    unfold manyEmptyRecords; rw [List.length_replicate]
  exact ⟨hl, MarshalRecords_no_fields_count manyEmptyRecords (by rw [hl]; norm_num)
    (by rw [hl]; norm_num)⟩

/-! ## `MarshalRecords`: the mask column of a locstring -/

theorem encodeField_locstring_error (fc rs recOff : Int) (st : EncState) (fld : SchemaField)
    (v : Value) (hloc : fld.colType = .locstring) (hc0 : 0 ≤ (parseTag fld.tag).1)
    (hc : fc ≤ wrapInt64 ((parseTag fld.tag).1 + 1)) :
    ∃ e, encodeField fc rs recOff st fld v = .error e := by
  rcases h : encodeField fc rs recOff st fld v with e | st2
  · exact ⟨e, rfl⟩
  · exfalso
    rcases encodeField_inv _ _ _ _ _ _ _ h with ⟨hneg, _⟩ | ⟨_, _, _, hcase⟩
    · omega
    · rcases hcase with ⟨_, ht, _⟩ | ⟨_, ht, _⟩ | ⟨_, ht, _⟩ | ⟨ht, _⟩ |
        ⟨_, _, _, _, hm, _, _⟩
      · rw [hloc] at ht; cases ht
      · rw [hloc] at ht; cases ht
      · rw [hloc] at ht; cases ht
      · rw [hloc] at ht; cases ht
      · omega

theorem encodeFields_mem_error (fc rs recOff : Int) (schema : Schema) (fld : SchemaField)
    (hmem : fld ∈ schema)
    (hfld : ∀ st v, ∃ e, encodeField fc rs recOff st fld v = .error e) :
    ∀ (st : EncState) (r : Record), ∃ e, encodeFields fc rs recOff st schema r = .error e := by
  induction schema with
  | nil => simp at hmem
  | cons p ps ih =>
    intro st r
    cases r with
    | nil => exact ⟨_, by rw [encodeFields]⟩
    | cons v vs =>
      rw [encodeFields]
      rcases hp : encodeField fc rs recOff st p v with e1 | st1
      · exact ⟨e1, rfl⟩
      · have hne : fld ≠ p := by
          intro h
          obtain ⟨e, he⟩ := hfld st v
          rw [h, hp] at he
          cases he
        have hin : fld ∈ ps := by
          rcases List.mem_cons.mp hmem with h | h
          · exact absurd h hne
          · exact h
        exact ih hin st1 vs

theorem writeUint32_no_panic (st : EncState) (off v : Nat) (h : off + 4 ≤ st.rawRecords.length) :
    writeUint32 st off v ≠ .error .panic := by
  rw [writeUint32_ok _ _ _ h]; simp

/-- With a field of the kind its type needs, holding a value of that kind, a
column index small enough for the offsets not to wrap and a record block long
enough for the record, `encodeField` does not panic. -/
theorem encodeField_no_panic (fc k0 : Nat) (rs : Int) (st : EncState) (fld : SchemaField)
    (v : Value) (hrs : 0 ≤ rs) (hsm : (parseTag fld.tag).1 + 1 < 2 ^ 61)
    (hk : KindFits fld) (hv : v.kind = fld.kind)
    (hcol : 0 ≤ (parseTag fld.tag).1 → fld.col < fc)
    (hraw : 4 * (k0 + fc) ≤ st.rawRecords.length) :
    encodeField (fc : Int) rs ((4 * k0 : Nat) : Int) st fld v ≠ .error .panic := by
  unfold encodeField
  simp only []
  by_cases hneg : (parseTag fld.tag).1 < 0
  · rw [if_pos hneg]; simp
  · rw [if_neg hneg]
    have hc := hcol (by omega)
    have hcc : ((fld.col : Nat) : Int) = (parseTag fld.tag).1 := by
      unfold SchemaField.col; exact Int.toNat_of_nonneg (by omega)
    have hw2 : wrapInt64 ((parseTag fld.tag).1 + 1) = (parseTag fld.tag).1 + 1 :=
      wrapInt64_of_range _ (by omega) (by omega)
    have hb : blockInt rs (((4 * k0 : Nat) : Int) + wrapInt64 ((parseTag fld.tag).1 * 4)) =
        ((4 * k0 + fld.col * 4 : Nat) : Int) := by
      rw [blockInt_nonneg _ _ hrs, wrapInt64_of_range _ (by omega) (by omega)]
      push_cast; rw [hcc]
    have hb2 : blockInt rs (((4 * k0 : Nat) : Int) +
        wrapInt64 (wrapInt64 ((parseTag fld.tag).1 + 1) * 4)) =
        ((4 * k0 + (fld.col + 1) * 4 : Nat) : Int) := by
      rw [blockInt_nonneg _ _ hrs, hw2, wrapInt64_of_range _ (by omega) (by omega)]
      push_cast; rw [hcc]
    rw [hb, hb2, hw2]
    simp only [writeUint32At_ofNat]
    unfold KindFits at hk
    cases hct : classify (toLower (parseTag fld.tag).2) with
    | int32 =>
      rw [hct] at hk
      simp only [] at hk
      cases v <;> simp only [Value.kind] at hv <;> simp only []
      · exact writeUint32_no_panic _ _ _ (by omega)
      all_goals (rw [hk] at hv; cases hv)
    | uint32 =>
      rw [hct] at hk
      simp only [] at hk
      cases v <;> simp only [Value.kind] at hv <;> simp only []
      · rw [hk] at hv; cases hv
      · exact writeUint32_no_panic _ _ _ (by omega)
      all_goals (rw [hk] at hv; cases hv)
    | float32 =>
      rw [hct] at hk
      simp only [] at hk
      cases v <;> simp only [Value.kind] at hv <;> simp only []
      · rw [hk] at hv; cases hv
      · rw [hk] at hv; cases hv
      · exact writeUint32_no_panic _ _ _ (by omega)
      · rw [hk] at hv; cases hv
    | float64 => simp
    | string =>
      simp only []
      exact writeUint32_no_panic _ _ _ (by rw [putString_raw]; omega)
    | locstring =>
      simp only []
      rw [writeUint32_ok _ _ _ (by rw [putString_raw]; omega)]
      simp only []
      split_ifs with hm
      · simp
      · have hm2 : fld.col + 1 < fc := by
          have : ((fld.col + 1 : Nat) : Int) < (fc : Int) := by push_cast; omega
          exact_mod_cast this
        exact writeUint32_no_panic _ _ _ (by
          simp only []
          rw [splice_length _ _ _ (by rw [putString_raw]; omega), putString_raw]
          omega)
    | unknown => simp

theorem encodeFields_no_panic (fc k0 : Nat) (rs : Int) (hrs : 0 ≤ rs) (schema : Schema) :
    ∀ (st : EncState) (r : Record), RecordTyped schema r →
      (∀ fld ∈ schema, KindFits fld) →
      (∀ fld ∈ schema, (parseTag fld.tag).1 + 1 < 2 ^ 61) →
      (∀ fld ∈ schema, 0 ≤ (parseTag fld.tag).1 → fld.col < fc) →
      4 * (k0 + fc) ≤ st.rawRecords.length →
      encodeFields (fc : Int) rs ((4 * k0 : Nat) : Int) st schema r ≠ .error .panic := by
  induction schema with
  | nil => intro st r _ _ _ _ _; rw [encodeFields]; simp
  | cons fld flds ih =>
    intro st r ht hk hsm hcol hraw
    cases r with
    | nil => exact ht.elim
    | cons v vs =>
      rw [encodeFields]
      have h1 := encodeField_no_panic fc k0 rs st fld v hrs (hsm fld (List.mem_cons_self _ _))
        (hk fld (List.mem_cons_self _ _)) ht.1 (hcol fld (List.mem_cons_self _ _)) hraw
      rcases he : encodeField (fc : Int) rs ((4 * k0 : Nat) : Int) st fld v with e | st1
      · rw [he] at h1
        simpa using h1
      · simp only []
        obtain ⟨_, hlen⟩ := encodeField_pool _ _ _ _ _ _ _ he
        exact ih st1 vs ht.2 (fun f hf => hk f (List.mem_cons_of_mem _ hf))
          (fun f hf => hsm f (List.mem_cons_of_mem _ hf))
          (fun f hf => hcol f (List.mem_cons_of_mem _ hf)) (by rw [hlen]; exact hraw)

theorem encodeRecords_no_panic (schema : Schema) (fc : Nat)
    (hk : ∀ fld ∈ schema, KindFits fld)
    (hsm : ∀ fld ∈ schema, (parseTag fld.tag).1 + 1 < 2 ^ 61)
    (hcol : ∀ fld ∈ schema, 0 ≤ (parseTag fld.tag).1 → fld.col < fc) (recs : List Record) :
    ∀ (st : EncState) (i : Nat), (∀ r ∈ recs, RecordTyped schema r) →
      4 * ((i + recs.length) * fc) ≤ st.rawRecords.length →
      encodeRecords schema (fc : Int) ((fc * 4 : Nat) : Int) st i recs ≠ .error .panic := by
  induction recs with
  | nil => intro st i _ _; rw [encodeRecords]; simp
  | cons r rest ih =>
    intro st i ht hraw
    have hlen : (r :: rest).length = rest.length + 1 := rfl
    have hmul : (i + (rest.length + 1)) * fc = (i * fc + fc) + rest.length * fc := by ring
    rw [hlen, hmul] at hraw
    have hoff : blockInt ((fc * 4 : Nat) : Int) ((i : Int) * ((fc * 4 : Nat) : Int)) =
        ((4 * (i * fc) : Nat) : Int) := by
      rw [blockInt_nonneg _ _ (by omega)]; push_cast; ring
    rw [encodeRecords, hoff]
    have h1 := encodeFields_no_panic fc (i * fc) ((fc * 4 : Nat) : Int) (by omega) schema st r
      (ht r (List.mem_cons_self _ _)) hk hsm hcol (by omega)
    rcases he : encodeFields (fc : Int) ((fc * 4 : Nat) : Int) ((4 * (i * fc) : Nat) : Int)
      st schema r with e | st1
    · rw [he] at h1
      simpa using h1
    · simp only []
      obtain ⟨_, hl1⟩ := encodeFields_pool _ _ _ _ _ _ _ he
      exact ih st1 (i + 1) (fun r2 hr2 => ht r2 (List.mem_cons_of_mem _ hr2))
        (by rw [hl1, show (i + 1 + rest.length) * fc = (i * fc + fc) + rest.length * fc by ring]
            exact hraw)

/-- Claim C19, as amended: for every non-empty list of `n` records whose schema has a
locstring field at a column `c` with `c + 1` not below the field count computed
by `MarshalRecords` (the largest column index plus 1), that is, a locstring at
the highest column of the schema, and in which the size of the record block, `n
× 4 × (largest column index + 1)`, is below `2^32` (the `int` arithmetic does not
wrap and `make` accepts the length), `MarshalRecords` returns an error and no
container; the error is a returned one and not a panic when every field has the
kind its type needs and the records are values of the struct type. -/
theorem MarshalRecords_locstring_last_column (schema : Schema) (recs : List Record)
    (fld : SchemaField)
    (hne : recs ≠ [])
    (hmem : fld ∈ schema)
    (hloc : fld.colType = .locstring)
    (hc : maxColIndex schema + 1 ≤ (parseTag fld.tag).1 + 1)
    (hbound : (recs.length : Int) * (4 * (maxColIndex schema + 1)) < 2 ^ 32) :
    ∃ e, MarshalRecords schema recs = .error e ∧
      (((∀ f ∈ schema, KindFits f) ∧ ∀ r ∈ recs, RecordTyped schema r) → e ≠ .panic) := by
  have hmax := maxColIndex_nonneg schema
  have hsmall : 4 * (maxColIndex schema + 1) < 2 ^ 63 := by
    have hlen : (1 : Int) ≤ (recs.length : Int) := by
      have : 0 < recs.length := List.length_pos.mpr hne
      omega
    nlinarith
  have hle := col_le_maxColIndex schema fld hmem
  have hsm : ∀ f ∈ schema, (parseTag f.tag).1 + 1 < 2 ^ 61 := by
    intro f hf
    have := col_le_maxColIndex schema f hf
    omega
  have hcast : (((maxColIndex schema + 1).toNat : Nat) : Int) = maxColIndex schema + 1 :=
    Int.toNat_of_nonneg (by omega)
  have hfld : ∀ recOff st v, ∃ e,
      encodeField (((maxColIndex schema + 1).toNat : Nat) : Int)
        ((((maxColIndex schema + 1).toNat * 4 : Nat)) : Int) recOff st fld v = .error e := by
    intro recOff st v
    refine encodeField_locstring_error _ _ recOff st fld v hloc (by omega) ?_
    rw [wrapInt64_of_range _ (by omega) (by omega), hcast]
    exact hc
  have hcol : ∀ f ∈ schema, 0 ≤ (parseTag f.tag).1 →
      f.col < (maxColIndex schema + 1).toNat := by
    intro f hf h0
    have := col_le_maxColIndex schema f hf
    unfold SchemaField.col
    omega
  cases recs with
  | nil => exact absurd rfl hne
  | cons r rest =>
    obtain ⟨e, he⟩ := encodeFields_mem_error _ _
      (blockInt ((((maxColIndex schema + 1).toNat * 4 : Nat)) : Int)
        (((0 : Nat) : Int) * ((((maxColIndex schema + 1).toNat * 4 : Nat)) : Int)))
      schema fld hmem (hfld _)
      { rawRecords := List.replicate
          ((r :: rest).length * ((maxColIndex schema + 1).toNat * 4)) 0
        strPool := [([], 0)], strBlock := [0] } r
    have hm : MarshalRecords schema (r :: rest) = .error e := by
      rw [MarshalRecords_small _ _ (by simp) hsmall, encodeRecords, he]
    refine ⟨e, hm, ?_⟩
    rintro ⟨hk, ht⟩ hp
    have := encodeRecords_no_panic schema (maxColIndex schema + 1).toNat hk hsm hcol (r :: rest)
      { rawRecords := List.replicate
          ((r :: rest).length * ((maxColIndex schema + 1).toNat * 4)) 0
        strPool := [([], 0)], strBlock := [0] } 0 ht
      (by simp only [List.length_replicate]; apply le_of_eq; ring)
    rw [encodeRecords, he, hp] at this
    exact this rfl

/-- Claim C19, witness: a schema whose only field is a locstring at column 0. -/
theorem MarshalRecords_locstring_last_column_witness :
    ∃ e, MarshalRecords [⟨"Name", .string, "column=0,type=locstring"⟩] [[.str [0x41]]]
        = .error e ∧ e ≠ .panic :=
  (MarshalRecords_locstring_last_column [⟨"Name", .string, "column=0,type=locstring"⟩]
    [[.str [0x41]]] ⟨"Name", .string, "column=0,type=locstring"⟩ (by decide) (by decide)
    (by decide) (by decide) (by decide)).imp (fun _ h => ⟨h.1, h.2 (by decide)⟩)

/-- Claim C19, counterexample: a single locstring field at column `2^63 - 1`, the
largest `int`, in a struct type whose field is a string, and one record with the
value "A".  The locstring sits at the highest column of the schema, but the
`int` arithmetic of `MarshalRecords` wraps: the field count `2^63` is `-2^63`, the
record size is 0 and the offset of the column is -4, so the slice expression
`rawRecords[-4:0]` panics and no error is returned.  With the field at column
`2^61` the record size `4 × (2^61 + 1)` is negative and `make` panics. -/
theorem MarshalRecords_locstring_last_column_panics :
    (∀ fld ∈ lastColumnSchema, fld.colType = .locstring ∧ KindFits fld ∧
      maxColIndex lastColumnSchema + 1 ≤ (parseTag fld.tag).1 + 1) ∧
    RecordTyped lastColumnSchema [.str [0x41]] ∧
    MarshalRecords lastColumnSchema [[.str [0x41]]] = .error .panic ∧
    MarshalRecords [⟨"Name", .string, "column=2305843009213693952,type=locstring"⟩]
      [[.str [0x41]]] = .error .panic := by
  decide

/-! ## Decoding integer columns -/

theorem toInt32_eq (w : Nat) (h : w < 2 ^ 32) :
    toInt32 w = if w < 2 ^ 31 then (w : Int) else (w : Int) - 2 ^ 32 := by
  unfold toInt32
  rw [Nat.mod_eq_of_lt h]

theorem decodeField_int (file : File) (i : Nat) (fld : SchemaField)
    (hsize : 4 * file.Header.FieldCount ≤ file.Header.RecordSize)
    (hfld : fld.tag.data ≠ [] →
      0 ≤ (parseTag fld.tag).1 ∧ fld.col < file.Header.FieldCount ∧
        ((fld.colType = .int32 ∧ fld.kind = .int) ∨
          (fld.colType = .uint32 ∧ fld.kind = .uint))) :
    (decodeField file i fld).2 = .ok (intFieldValue file i fld) := by
  unfold intFieldValue
  by_cases htag : fld.tag.data = []
  · rw [decodeField_untagged _ _ _ htag, if_pos htag]
  · obtain ⟨h0, h1, h2⟩ := hfld htag
    unfold SchemaField.col at h1
    rw [if_neg htag, decodeField_column _ _ _ htag (by omega) (by omega)]
    unfold decodeColumn
    simp only []
    unfold SchemaField.colType at h2
    rcases h2 with ⟨ht, hk⟩ | ⟨ht, hk⟩
    · rw [ht]
      simp only [setInt, hk, if_true, SchemaField.colType, ht, SchemaField.col]
      rw [toInt32_eq _ (getUint32_lt _)]
    · rw [ht]
      simp only [setUint, hk, if_true, SchemaField.colType, ht, SchemaField.col]
      simp

theorem decodeFields_int (file : File) (i : Nat)
    (hsize : 4 * file.Header.FieldCount ≤ file.Header.RecordSize) (schema : Schema)
    (hfld : ∀ fld ∈ schema, fld.tag.data ≠ [] →
      0 ≤ (parseTag fld.tag).1 ∧ fld.col < file.Header.FieldCount ∧
        ((fld.colType = .int32 ∧ fld.kind = .int) ∨
          (fld.colType = .uint32 ∧ fld.kind = .uint))) :
    (decodeFields file i schema).2 = .ok (schema.map (intFieldValue file i)) := by
  induction schema with
  | nil => rfl
  | cons fld flds ih =>
    have h1 := decodeField_int file i fld hsize (hfld fld (List.mem_cons_self _ _))
    rw [decodeFields_cons_ok _ _ _ _ _ h1,
      ih (fun f hf => hfld f (List.mem_cons_of_mem _ hf))]
    rfl

theorem decodeRecords_int (file : File) (schema : Schema)
    (hsize : 4 * file.Header.FieldCount ≤ file.Header.RecordSize)
    (hfld : ∀ fld ∈ schema, fld.tag.data ≠ [] →
      0 ≤ (parseTag fld.tag).1 ∧ fld.col < file.Header.FieldCount ∧
        ((fld.colType = .int32 ∧ fld.kind = .int) ∨
          (fld.colType = .uint32 ∧ fld.kind = .uint))) :
    ∀ (n i : Nat), (i + n) * file.Header.RecordSize ≤ file.RawRecords.length →
      (decodeRecords file schema n i).2 =
        .ok ((List.range' i n).map (fun j => schema.map (intFieldValue file j))) := by
  intro n
  induction n with
  | zero => intro i _; rfl
  | succ n ih =>
    intro i hraw
    have hmul : (i + (n + 1)) * file.Header.RecordSize
        = (i + 1) * file.Header.RecordSize + n * file.Header.RecordSize := by ring
    have h1 := decodeFields_int file i hsize schema hfld
    rw [decodeRecords_succ_ok _ _ _ _ _ (by rw [hmul] at hraw; omega) h1,
      ih (i + 1) (by rw [show i + 1 + n = i + (n + 1) by omega]; exact hraw)]
    rfl

/-- Claim C17: for every container whose record block has record count × record size
bytes and whose record size is at least 4 × field count, and every schema whose
mapped fields are all integer fields of type `int32` or `uint32` with a column
index from 0 to field count − 1, `UnmarshalRecords` succeeds and returns record
count records in file order; in record `i` every mapped field holds the
little-endian word at bytes `i × record size + 4c` to `i × record size + 4c + 4`
of the record block, `c` being its column, read as two's complement for `int32`
and unsigned for `uint32` (and every field without tag its zero value). -/
theorem UnmarshalRecords_integers (file : File) (schema : Schema)
    (hraw : file.RawRecords.length = file.Header.RecordCount * file.Header.RecordSize)
    (hsize : 4 * file.Header.FieldCount ≤ file.Header.RecordSize)
    (hfld : ∀ fld ∈ schema, fld.tag.data ≠ [] →
      0 ≤ (parseTag fld.tag).1 ∧ fld.col < file.Header.FieldCount ∧
        ((fld.colType = .int32 ∧ fld.kind = .int) ∨
          (fld.colType = .uint32 ∧ fld.kind = .uint))) :
    UnmarshalRecords file schema =
      .ok ((List.range file.Header.RecordCount).map
        (fun i => schema.map (intFieldValue file i))) := by
  unfold UnmarshalRecords UnmarshalRecordsTraced
  rw [decodeRecords_int file schema hsize hfld _ 0 (by rw [hraw]; simp), List.range_eq_range']

/-- Claim C17, witness: two records of two columns, a signed field at column 1 and an
unsigned one at column 0; the word FF FF FF FF is -1 as `int32` and the word
FE FF FF FF is 4294967294 as `uint32`. -/
theorem UnmarshalRecords_integers_witness :
    UnmarshalRecords
      ⟨⟨MagicWDBC, 2, 2, 8, 1⟩, [7, 0, 0, 0, 0xFF, 0xFF, 0xFF, 0xFF, 0xFE, 0xFF, 0xFF, 0xFF,
        5, 0, 0, 0], [0]⟩
      [⟨"S", .int, "column=1,type=int32"⟩, ⟨"U", .uint, "column=0,type=uint32"⟩] =
      .ok [[.int (-1), .uint 7], [.int 5, .uint 4294967294]] :=
  (UnmarshalRecords_integers
    ⟨⟨MagicWDBC, 2, 2, 8, 1⟩, [7, 0, 0, 0, 0xFF, 0xFF, 0xFF, 0xFF, 0xFE, 0xFF, 0xFF, 0xFF,
      5, 0, 0, 0], [0]⟩
    [⟨"S", .int, "column=1,type=int32"⟩, ⟨"U", .uint, "column=0,type=uint32"⟩]
    (by decide) (by decide) (by decide)).trans (by decide)

/-! ## The invariant of the string pool -/

theorem internStrings_block_prefix (strs : List (List Byte)) :
    ∀ (p : List (List Byte × Nat) × List Byte), ∃ t, (internStrings p strs).2 = p.2 ++ t := by
  induction strs with
  | nil => intro p; exact ⟨[], by simp [internStrings]⟩
  | cons s rest ih =>
    intro p
    obtain ⟨t, ht⟩ := ih (internString p s)
    have hstep : internStrings p (s :: rest) = internStrings (internString p s) rest := rfl
    rw [hstep, ht]
    unfold internString
    split
    · exact ⟨t, rfl⟩
    · exact ⟨s ++ [0] ++ t, by simp⟩

theorem poolEntryOK_of_poolOK (p : List (List Byte × Nat) × List Byte) (h : PoolOK p)
    (hlen : p.2.length ≤ 2 ^ 32) (s : List Byte) (off : Nat)
    (hs : poolGet p.1 s = some off) : PoolEntryOK p.2 s off := by
  obtain ⟨pre, post, hb, hoff⟩ := h s off hs
  have hl : p.2.length = pre.length + s.length + (post.length + 1) := by
    rw [hb]; simp only [List.length_append, List.length_cons]
  rw [Nat.mod_eq_of_lt (by omega)] at hoff
  subst hoff
  refine ⟨by omega, ?_, ?_⟩
  · rw [hb]
    unfold slice
    rw [List.append_assoc, List.drop_left, Nat.add_sub_cancel_left, List.take_left]
  · rw [hb, ← List.length_append, List.getElem?_append_right (le_refl _)]
    simp

/-- Claim C20, as amended: as long as the string block has less than `2^32` bytes, the
string pool keeps its invariant throughout `MarshalRecords`.  The offset
`putString` returns is the entry of the pool for the string; after any number
`k` of calls of `putString`, every entry `s ↦ off` of the pool has
`off + len(s) < len(block)`, `block[off .. off + len(s)) = s` and
`block[off + len(s)] = 0`; and in the container returned, every string without
NUL byte that `putString` was called with is read back by `readCString` from the
offset the pool has for it. -/
theorem MarshalRecords_pool_invariant (schema : Schema) (recs : List Record) (file : File)
    (hm : MarshalRecords schema recs = .ok file)
    (hblock : file.StringBlock.length < 2 ^ 32) :
    (∀ st s, poolGet (putString st s).1.strPool s = some (putString st s).2 ∧
      ((putString st s).1.strPool, (putString st s).1.strBlock)
        = internString (st.strPool, st.strBlock) s) ∧
    (∀ k s off,
      poolGet (internStrings ([([], 0)], [0]) ((writtenStrings schema recs).take k)).1 s
        = some off →
      PoolEntryOK (internStrings ([([], 0)], [0]) ((writtenStrings schema recs).take k)).2
        s off) ∧
    ∃ pool, (pool, file.StringBlock)
        = internStrings ([([], 0)], [0]) (writtenStrings schema recs) ∧
      ∀ s ∈ writtenStrings schema recs, (0 : Byte) ∉ s →
        ∃ off, poolGet pool s = some off ∧ readCString file.StringBlock off = s := by
  obtain ⟨_, _, st, hst, rfl⟩ := MarshalRecords_inv _ _ _ hm
  obtain ⟨hp, _⟩ := encodeRecords_pool _ _ _ _ _ _ _ hst
  have hblock2 : st.strBlock.length < 2 ^ 32 := hblock
  have hfin : (internStrings ([([], 0)], [0]) (writtenStrings schema recs)).2 = st.strBlock := by
    rw [← hp]
  refine ⟨fun st s => ⟨putString_offset st s, putString_intern st s⟩, ?_, st.strPool, hp, ?_⟩
  · intro k s off hs
    apply poolEntryOK_of_poolOK _ (internStrings_poolOK _ _ poolOK_initial) _ s off hs
    obtain ⟨t, ht⟩ := internStrings_block_prefix ((writtenStrings schema recs).drop k)
      (internStrings ([([], 0)], [0]) ((writtenStrings schema recs).take k))
    rw [← internStrings_append, List.take_append_drop, hfin] at ht
    have := congrArg List.length ht
    rw [List.length_append] at this
    omega
  · intro s hs hnul
    have hdom := (internStrings_domain (writtenStrings schema recs) ([([], 0)], [0]) []
      poolDomain_initial).1
    rw [← hp] at hdom
    have hsome : poolGet st.strPool s ≠ none :=
      (hdom s).mpr (Or.inr (by simpa using hs))
    obtain ⟨off, hoff⟩ := Option.ne_none_iff_exists'.mp hsome
    refine ⟨off, hoff, ?_⟩
    have hok : PoolOK (st.strPool, st.strBlock) := by
      rw [hp]; exact internStrings_poolOK _ _ poolOK_initial
    obtain ⟨pre, post, hb, ho⟩ := hok s off hoff
    simp only [] at hb
    have hpl : pre.length < 2 ^ 32 := by
      have := congrArg List.length hb
      simp only [List.length_append, List.length_cons] at this
      omega
    rw [Nat.mod_eq_of_lt hpl] at ho
    show readCString st.strBlock off = s
    rw [ho, hb]
    exact readCString_at pre s post hnul (by rw [← hb]; exact hblock2)

/-- Claim C20, witness: the two records "A" and "A" of `twoNames`.  After both calls of
`putString` the entry "A" ↦ 1 of the pool points at "A" followed by NUL, and "A"
is read back from the offset the pool has for it. -/
theorem MarshalRecords_pool_invariant_witness :
    PoolEntryOK (internStrings ([([], 0)], [0]) ((writtenStrings nameSchema twoNames).take 2)).2
      [0x41] 1 ∧
    ∃ pool, (pool, twoNamesFile.StringBlock)
        = internStrings ([([], 0)], [0]) (writtenStrings nameSchema twoNames) ∧
      ∃ off, poolGet pool [0x41] = some off ∧
        readCString twoNamesFile.StringBlock off = [0x41] :=
  have h := MarshalRecords_pool_invariant nameSchema twoNames twoNamesFile (by decide)
    (by decide)
  ⟨h.2.1 2 [0x41] 1 (by decide),
    h.2.2.imp (fun _ hp => ⟨hp.1, hp.2 [0x41] (by decide) (by decide)⟩)⟩

theorem nameSchema_encodable (s : List Byte) :
    RecordEncodable (maxColIndex nameSchema + 1).toNat nameSchema [.str s] := by
  refine ⟨Or.inr ⟨by decide, ?_, ?_⟩, trivial⟩
  · have : (⟨"Name", .string, "column=0,type=string"⟩ : SchemaField).colType = .string := by
      decide
    rw [this]; trivial
  · intro h
    have : (⟨"Name", .string, "column=0,type=string"⟩ : SchemaField).colType = .string := by
      decide
    rw [this] at h; cases h

theorem nameSchema_written (s1 s2 : List Byte) :
    writtenStrings nameSchema [[.str s1], [.str s2]] = [s1, s2] := rfl

/-- Two strings in a row whose first, starting with "A", fills the block up to byte
`2^32`: the second string, "B", gets the offset 1, where an "A" stands. -/
theorem pool_offset_wraps (t : List Byte) (hl : t.length = 4294967294) :
    ∃ file pool, MarshalRecords nameSchema [[.str (0x41 :: t)], [.str [0x42]]] = .ok file ∧
      (pool, file.StringBlock) = internStrings ([([], 0)], [0])
        (writtenStrings nameSchema [[.str (0x41 :: t)], [.str [0x42]]]) ∧
      poolGet pool [0x42] = some 1 ∧ file.StringBlock[1]? = some 0x41 := by
  obtain ⟨file, hm⟩ := MarshalRecords_success nameSchema [[.str (0x41 :: t)], [.str [0x42]]]
    (by simp) (by decide) (by
      intro r hr
      simp only [List.mem_cons, List.mem_singleton, List.not_mem_nil, or_false] at hr
      rcases hr with hr | hr <;> rw [hr] <;> exact nameSchema_encodable _)
  have hm2 := hm
  obtain ⟨_, _, st, hst, rfl⟩ := MarshalRecords_inv _ _ _ hm
  refine ⟨_, st.strPool, hm2, ?_⟩
  obtain ⟨hp, _⟩ := encodeRecords_pool _ _ _ _ _ _ _ hst
  have hcomp : internStrings ([([], 0)], [0]) [0x41 :: t, [0x42]] =
      ([([0x42], ([0] ++ (0x41 :: t) ++ [0]).length % 2 ^ 32),
        (0x41 :: t, ([0] : List Byte).length % 2 ^ 32), ([], 0)],
        [0] ++ (0x41 :: t) ++ [0] ++ [0x42] ++ [0]) := rfl
  have hoff : ([0] ++ (0x41 :: t) ++ [0] : List Byte).length % 2 ^ 32 = 1 := by
    simp only [List.length_append, List.length_cons, List.length_nil, hl]
    norm_num
  rw [nameSchema_written, hcomp] at hp ⊢
  have h1 := congrArg Prod.fst hp
  have h2 := congrArg Prod.snd hp
  simp only [] at h1 h2
  refine ⟨?_, ?_, ?_⟩
  · show (st.strPool, st.strBlock) = _
    rw [h1, h2]
  · show poolGet st.strPool [0x42] = some 1
    rw [h1, ← hoff]
    simp [poolGet]
  · show st.strBlock[1]? = some 0x41
    rw [h2]
    simp

/-- Claim C20, counterexample: `MarshalRecords` on the records `hugeNames`, the string
`hugeString` of `2^32 - 1` letters "A" and the string "B", succeeds; the pool then
holds the entry "B" ↦ 1, the length of the block reduced to a `uint32`, and byte
1 of the string block is the letter "A". -/
theorem MarshalRecords_pool_offset_wraps :
    ∃ file pool, MarshalRecords nameSchema hugeNames = .ok file ∧
      (pool, file.StringBlock) = internStrings ([([], 0)], [0])
        (writtenStrings nameSchema hugeNames) ∧
      poolGet pool [0x42] = some 1 ∧ file.StringBlock[1]? = some 0x41 ∧
      ¬ PoolEntryOK file.StringBlock [0x42] 1 := by
  obtain ⟨file, pool, h1, h2, h3, h4⟩ :=
    pool_offset_wraps (List.replicate 4294967294 0x41) (List.length_replicate _ _)
  refine ⟨file, pool, h1, h2, h3, h4, ?_⟩
  rintro ⟨_, hs, _⟩
  have h5 : (slice file.StringBlock 1 (1 + ([0x42] : List Byte).length))[0]?
      = file.StringBlock[1]? := by
    unfold slice
    rw [List.getElem?_take_of_lt (by simp), List.getElem?_drop]
  rw [hs, h4] at h5
  simp at h5

end Dbc
